import Mathlib

/-! # Job dispatch and topic notification: a shallow embedding

Source files embedded here:

* `go-basics/01-basics/14_advanced_patterns.go`: `PubSub`, `NewPubSub`,
  `PubSub.Subscribe`, `PubSub.Publish`, `Job`, `Worker`, `Worker.Start`;
* `go-basics/01-basics/09_concurrency.go`: `worker` and the pool of `main`.

Go channels are reference values.  A channel is modelled by its capacity, its
buffer (oldest message first) and its closed flag; the channels created by
`make` live in a heap, a list indexed by address.  An address outside the heap
is not a channel of the program.  Goroutines are modelled by step functions
on a state type: one step is one channel operation, and an interleaving is a
list of actions.
-/

namespace GoTutorial

/-! ## Channels -/

/-- A Go channel: `cap` is the buffer size given to `make`, `buf` the buffered
values (oldest first), `closed` whether `close` was called on it. -/
structure Chan (α : Type) where
  cap : Nat
  buf : List α
  closed : Bool
  deriving DecidableEq, Repr

/-- The channel `make(chan T, n)`: empty and open. -/
def Chan.make {α : Type} (n : Nat) : Chan α :=
  { cap := n, buf := [], closed := false }

/-- What a send statement `ch <- v` does when it is scheduled. -/
inductive SendResult (α : Type) where
  | sent (c : Chan α)
  | blocks
  | panics
  deriving DecidableEq, Repr

/-- The statement `ch <- v` of a goroutine that finds no receiver waiting: a
send on a closed channel panics, a send on a full buffer blocks (always so with
`cap = 0`), otherwise `v` goes to the back of the buffer.  A send that meets a
waiting receiver is the hand-over `Chan.handsOver`, one step of both
goroutines. -/
def Chan.send {α : Type} (c : Chan α) (v : α) : SendResult α :=
  if c.closed then .panics
  else if c.buf.length < c.cap then .sent { c with buf := c.buf ++ [v] }
  else .blocks

/-- What a receive expression `v, ok := <-ch` does when it is scheduled. -/
inductive RecvResult (α : Type) where
  | got (v : α) (ok : Bool) (c : Chan α)
  | blocks
  deriving DecidableEq, Repr

/-- The expression `<-ch` of a goroutine that finds no sender waiting: the
oldest buffered value with `ok = true`; on a closed and drained channel the zero
value with `ok = false`; on an open and empty channel the receiver blocks,
until a send hands it a value (`Chan.handsOver`). -/
def Chan.recv {α : Type} [Inhabited α] (c : Chan α) : RecvResult α :=
  match c.buf with
  | v :: rest => .got v true { c with buf := rest }
  | [] => if c.closed then .got default false c else .blocks

/-- Whether a send `ch <- v` can hand `v` straight to a goroutine waiting in
`<-ch`: the channel is open and holds nothing (a receiver only waits on an empty
buffer, and an unbuffered channel never holds anything).  The receiver gets `v`
with `ok = true` and the channel is left as it was; this is the only way a send
on a channel with `cap = 0` completes. -/
def Chan.handsOver {α : Type} (c : Chan α) : Bool :=
  !c.closed && c.buf.isEmpty

/-- The statement `close(ch)`; closing a closed channel panics (`none`). -/
def Chan.close {α : Type} (c : Chan α) : Option (Chan α) :=
  if c.closed then none else some { c with closed := true }

/-! ## The publish/subscribe broker (`14_advanced_patterns.go`, lines 248-281) -/

/-- The channels of type `chan string` allocated so far, by address. -/
abbrev Heap := List (Chan String)

/-- The struct `PubSub`: `subs` is the field of type `map[string][]chan string`,
`none` for the nil map (the zero value of the field, as in `&PubSub{}`) and
`some m` for a map made by `make`, where `m` gives the slice of subscriber
channels stored under a topic (addresses into the heap; `none` for a missing
key); `closed` is the flag read by `Publish`.  The lock `mu` is held for the
whole of each method, so a method call is one atomic step of the sequential
model. -/
structure PubSub where
  subs : Option (String → Option (List Nat))
  closed : Bool

/-- The map read `ps.subs[topic]`: a missing key reads as the nil slice, and so
does every key of the nil map. -/
def PubSub.lookup (ps : PubSub) (topic : String) : List Nat :=
  match ps.subs with
  | some m => (m topic).getD []
  | none => []

/-- The constructor `NewPubSub`: an empty map made by `make`, `closed` at its
zero value. -/
def NewPubSub : PubSub :=
  { subs := some (fun _ => none), closed := false }

/-- The method `Subscribe`: `ch := make(chan string, 1)` allocates the next
heap address, `ps.subs[topic] = append(ps.subs[topic], ch)` stores the
extended slice, and `ch` is returned.  On the nil map the assignment to the
entry panics (`none`). -/
def Subscribe (h : Heap) (ps : PubSub) (topic : String) : Option (Heap × PubSub × Nat) :=
  let ch := h.length
  match ps.subs with
  | none => none
  | some m =>
    some (h ++ [Chan.make 1],
          { ps with subs := some (fun k =>
              if k = topic then some (ps.lookup topic ++ [ch]) else m k) },
          ch)

/-- How a call of `Publish` ends: it returns, or it is stuck in a send on a
full channel, or a send panics.  `h` is the heap at that point and
`log` the addresses that received the message so far, in the order of the
sends. -/
inductive Outcome where
  | returned (h : Heap) (log : List Nat)
  | blocked (h : Heap) (log : List Nat)
  | panicked (h : Heap) (log : List Nat)
  deriving DecidableEq, Repr

/-- The loop `for _, ch := range ps.subs[topic] { ch <- msg }` run without any
other goroutine taking a step. -/
def deliver (msg : String) : List Nat → Heap → List Nat → Outcome
  | [], h, log => .returned h log
  | c :: rest, h, log =>
    match h[c]? with
    | none => .blocked h log
    | some ch =>
      match ch.send msg with
      | .sent ch' => deliver msg rest (h.set c ch') (log ++ [c])
      | .blocks => .blocked h log
      | .panics => .panicked h log

/-- The method `Publish`: return at once when `ps.closed`, otherwise send
`msg` to every channel of `ps.subs[topic]` in slice order. -/
def Publish (h : Heap) (ps : PubSub) (topic msg : String) : Outcome :=
  if ps.closed then .returned h []
  else deliver msg (ps.lookup topic) h []

/-- The sequence `Subscribe(topic)` called `k` times in a row; the returned
channels are listed in call order; `none` when a call panics. -/
def subscribeTimes (topic : String) : Nat → Heap → PubSub → Option (Heap × PubSub × List Nat)
  | 0, h, ps => some (h, ps, [])
  | k + 1, h, ps =>
    match Subscribe h ps topic with
    | none => none
    | some r =>
      match subscribeTimes topic k r.1 r.2.1 with
      | none => none
      | some r' => some (r'.1, r'.2.1, r.2.2 :: r'.2.2)

/-- A call of one of the two methods of the broker. -/
inductive Op where
  | subscribe (topic : String)
  | publish (topic msg : String)
  deriving DecidableEq, Repr

/-- The heap together with the broker, as one method call finds them. -/
structure World where
  heap : Heap
  ps : PubSub

/-- One method call run to its return, `none` when it does not return:
`Subscribe` panics on the nil map; `Publish` has no assignment to a field of
the broker, so it returns the broker it found, unless it is stuck in a send or
a send panics. -/
def World.call (w : World) : Op → Option World
  | .subscribe topic =>
    match Subscribe w.heap w.ps topic with
    | some r => some { heap := r.1, ps := r.2.1 }
    | none => none
  | .publish topic msg =>
    match Publish w.heap w.ps topic msg with
    | .returned h _ => some { heap := h, ps := w.ps }
    | .blocked _ _ => none
    | .panicked _ _ => none

/-! ## The broker with its goroutines: one step per channel operation -/

/-- A call of `Publish` that holds the read lock and is inside its loop: `msg`
is the message, `todo` the part of the ranged slice still to be sent to. -/
structure Publishing where
  msg : String
  todo : List Nat
  deriving DecidableEq, Repr

/-- The broker, the heap of inboxes, the calls of `Publish` in flight (the
holders of `mu.RLock`), and the messages the subscribers have read so far from
their inboxes, as (inbox, message), oldest first. -/
structure Broker where
  heap : Heap
  ps : PubSub
  readers : List Publishing
  reads : List (Nat × String)

/-- The steps of the goroutines that use a broker. -/
inductive BrokerAct where
  | subscribe (topic : String)
  | enter (topic msg : String)
  | send (i : Nat)
  | leave (i : Nat)
  | receive (c : Nat)
  deriving DecidableEq, Repr

/-- One step; `none` when the step cannot be taken in this state.
* `subscribe`: a whole call of `Subscribe` that returns (on the nil map the
  call panics: no step); `mu.Lock` needs that no call of `Publish` holds the
  read lock.  (Go also holds back a new reader while a
  writer waits; the model lets it in, so it has every schedule of the program.)
* `enter`: `Publish` takes the read lock, reads `closed` (and returns at once
  when it is set) and evaluates the range expression `ps.subs[topic]`.
* `send i`: the call `i` in flight executes `ch <- msg` for the head of its
  `todo`; not possible while that inbox is full.
* `leave i`: the loop of call `i` is over, `mu.RUnlock` runs, the call returns.
* `receive c`: the owner of inbox `c` executes `<-ch`. -/
def Broker.step (s : Broker) : BrokerAct → Option Broker
  | .subscribe topic =>
    if s.readers.isEmpty then
      match Subscribe s.heap s.ps topic with
      | some r => some { s with heap := r.1, ps := r.2.1 }
      | none => none
    else none
  | .enter topic msg =>
    if s.ps.closed then some s
    else some { s with readers := s.readers ++ [{ msg := msg, todo := s.ps.lookup topic }] }
  | .send i =>
    match s.readers[i]? with
    | some { msg := m, todo := c :: rest } =>
      match s.heap[c]? with
      | some ch =>
        match ch.send m with
        | .sent ch' =>
          some { s with heap := s.heap.set c ch',
                        readers := s.readers.set i { msg := m, todo := rest } }
        | .blocks => none
        | .panics => none
      | none => none
    | _ => none
  | .leave i =>
    match s.readers[i]? with
    | some { msg := _, todo := [] } => some { s with readers := s.readers.eraseIdx i }
    | _ => none
  | .receive c =>
    match s.heap[c]? with
    | some ch =>
      match ch.recv with
      | .got v _ ch' => some { s with heap := s.heap.set c ch', reads := s.reads ++ [(c, v)] }
      | .blocks => none
    | none => none

/-- The steps of a schedule taken one after the other. -/
def Broker.run (s : Broker) : List BrokerAct → Option Broker
  | [] => some s
  | a :: rest => (s.step a).bind (fun s' => Broker.run s' rest)

/-- The state after `ps := NewPubSub()`: no inbox, no call in flight. -/
def Broker.init : Broker :=
  { heap := [], ps := NewPubSub, readers := [], reads := [] }

/-- Every inbox is an open channel of capacity 1 that holds at most one
message. -/
def Broker.Inboxes (s : Broker) : Prop :=
  ∀ ch ∈ s.heap, ch.cap = 1 ∧ ch.closed = false ∧ ch.buf.length ≤ 1

/-- A schedule: subscribe to `"x"`, publish `"m1"`, start publishing `"m2"`. -/
def twoPublishes : List BrokerAct :=
  [.subscribe "x", .enter "x" "m1", .send 0, .leave 0, .enter "x" "m2"]

/-! ## The worker pool of `09_concurrency.go` (lines 78-85 and 184-203) -/

/-- The value of a Go `int` (64 bits, two's complement) for the exact result
`x` of an arithmetic operation. -/
def wrapInt (x : Int) : Int :=
  (x + 9223372036854775808) % 18446744073709551616 - 9223372036854775808

/-- The expression `j * 2` of `worker`. -/
def double (j : Int) : Int := wrapInt (j * 2)

/-- Where a `worker` goroutine stands in `for j := range jobs { ... }`: at the
receive of the range clause, in the body with the job `j` it received (before
`results <- j * 2`), or after the loop. -/
inductive Stage where
  | waiting
  | holding (j : Int)
  | done
  deriving DecidableEq, Repr

/-- The job a worker has claimed and not yet answered, if any. -/
def Stage.job : Stage → List Int
  | .holding j => [j]
  | _ => []

/-- The jobs claimed and not yet answered, over all workers. -/
def held : List Stage → List Int
  | [] => []
  | st :: rest => st.job ++ held rest

/-- The pool of `main`: the two channels, the workers, and the position of
`main` itself: `toSend` are the jobs it has still to send, `jobs.closed` tells
whether it has passed `close(jobs)`, `toCollect` is the number of reads of
`results` it has still to make.  `collected` records the values `main` read,
`claims` which worker received which job, both oldest first. -/
structure Pool where
  jobs : Chan Int
  results : Chan Int
  workers : List Stage
  toSend : List Int
  toCollect : Nat
  collected : List Int
  claims : List (Nat × Int)
  deriving DecidableEq, Repr

/-- The steps of `main` and of the workers. -/
inductive PoolAct where
  | mainSend
  | mainClose
  | mainCollect
  | claim (i : Nat)
  | emit (i : Nat)
  deriving DecidableEq, Repr

/-- One step; `none` when the step cannot be taken in this state.
* `mainSend`: `jobs <- j` for the next job of the sending loop.
* `mainClose`: `close(jobs)`, after the sending loop.
* `mainCollect`: `<-results` in the collecting loop, after the close.
* `claim i`: worker `i` receives in its range clause: a job, or the end of the
  loop when `jobs` is closed and drained.
* `emit i`: worker `i` executes `results <- j * 2`. -/
def Pool.step (s : Pool) : PoolAct → Option Pool
  | .mainSend =>
    match s.toSend with
    | j :: rest =>
      match s.jobs.send j with
      | .sent c => some { s with jobs := c, toSend := rest }
      | .blocks => none
      | .panics => none
    | [] => none
  | .mainClose =>
    match s.toSend with
    | [] => (s.jobs.close).map (fun c => { s with jobs := c })
    | _ :: _ => none
  | .mainCollect =>
    if s.jobs.closed = true ∧ 0 < s.toCollect then
      match s.results.recv with
      | .got v _ c =>
        some { s with results := c, toCollect := s.toCollect - 1,
                      collected := s.collected ++ [v] }
      | .blocks => none
    else none
  | .claim i =>
    match s.workers[i]? with
    | some .waiting =>
      match s.jobs.recv with
      | .got j true c =>
        some { s with jobs := c, workers := s.workers.set i (.holding j),
                      claims := s.claims ++ [(i, j)] }
      | .got _ false _ => some { s with workers := s.workers.set i .done }
      | .blocks => none
    | _ => none
  | .emit i =>
    match s.workers[i]? with
    | some (.holding j) =>
      match s.results.send (double j) with
      | .sent c => some { s with results := c, workers := s.workers.set i .waiting }
      | .blocks => none
      | .panics => none
    | _ => none

/-- The steps of a schedule taken one after the other. -/
def Pool.run (s : Pool) : List PoolAct → Option Pool
  | [] => some s
  | a :: rest => (s.step a).bind (fun s' => Pool.run s' rest)

/-- The pool when `main` enters its sending loop: `jobs` and `results` are
`make(chan int, 100)`, `n` workers wait, `js` are the jobs to send and one
result is to be collected per job (3 workers and the jobs 1 to 5 in `main`). -/
def Pool.init (n : Nat) (js : List Int) : Pool :=
  { jobs := Chan.make 100, results := Chan.make 100, workers := List.replicate n .waiting,
    toSend := js, toCollect := js.length, collected := [], claims := [] }

/-- Every result and every job, wherever it is: the results `main` has read,
the results in the channel, and the doubles of the jobs that are held by a
worker, in the channel, or still to be sent. -/
def Pool.ledger (s : Pool) : List Int :=
  s.collected ++ s.results.buf ++ (held s.workers ++ s.jobs.buf ++ s.toSend).map double

/-- The number of steps a worker has at most still to take, as far as its own
stage tells. -/
def Stage.weight : Stage → Nat
  | .waiting => 1
  | .holding _ => 4
  | .done => 0

/-- A bound on the number of steps the pool can still take. -/
def Pool.fuel (s : Pool) : Nat :=
  5 * s.toSend.length + 4 * s.jobs.buf.length + 2 * s.results.buf.length
    + (if s.jobs.closed then 0 else 1) + (s.workers.map Stage.weight).sum

/-- What holds in every state of the pool started with `n` workers and the
jobs `js`. -/
structure Pool.Inv (n : Nat) (js : List Int) (s : Pool) : Prop where
  ledger : s.ledger.Perm (js.map double)
  order : s.claims.map Prod.snd ++ s.jobs.buf ++ s.toSend = js
  size : s.workers.length = n
  owner : ∀ e ∈ s.claims, e.1 < n
  count : s.collected.length + s.toCollect = js.length
  finished : Stage.done ∈ s.workers → s.jobs.closed = true ∧ s.jobs.buf = []
  sending : s.jobs.closed = true → s.toSend = []
  results : s.results.closed = false ∧ s.results.cap = 100
  room : s.jobs.cap = 100

/-- A complete schedule of the pool of `main`: 3 workers, jobs 1 to 5. -/
def poolSchedule : List PoolAct :=
  [.mainSend, .mainSend, .claim 0, .claim 1, .mainSend, .emit 1, .claim 2, .mainSend,
   .mainSend, .mainClose, .claim 1, .emit 0, .emit 1, .emit 2, .claim 2, .claim 0,
   .mainCollect, .emit 2, .claim 1, .claim 2, .mainCollect, .mainCollect, .mainCollect,
   .mainCollect]

/-- The state in which `poolSchedule` ends. -/
def poolEnd : Pool :=
  { jobs := { cap := 100, buf := [], closed := true },
    results := { cap := 100, buf := [], closed := false },
    workers := [.done, .done, .done],
    toSend := [], toCollect := 0, collected := [4, 2, 8, 6, 10],
    claims := [(0, 1), (1, 2), (2, 3), (1, 4), (2, 5)] }

/-! ## The workers of `14_advanced_patterns.go` (lines 215-246) -/

/-- The struct `Job`. -/
structure Job where
  ID : Int
  Data : String
  deriving DecidableEq, Repr

/-- The zero value `Job{}`, which a receive on a closed and drained channel
yields. -/
instance : Inhabited Job := ⟨{ ID := 0, Data := "" }⟩

/-- Where the goroutine of `Worker.Start` stands: at the `select`, in the body
of `case job := <-w.JobChan` before the `Printf` that handles `job`, or
returned through `case <-w.Quit`. -/
inductive Phase where
  | selecting
  | handling (job : Job)
  | exited
  deriving DecidableEq, Repr

/-- The job a worker has received and not yet handled, if any. -/
def Phase.job : Phase → List Job
  | .handling job => [job]
  | _ => []

/-- A started `Worker`: the phase of its goroutine, and `quit`, whether some
goroutine is waiting in a send on its unbuffered `Quit` channel.  The field
`ID` is the position of the worker in the list of workers; `JobChan` is the
channel shared by all of them. -/
structure Worker where
  phase : Phase
  quit : Bool
  deriving DecidableEq, Repr

/-- The workers started on one job channel.  `sent` lists the jobs sent on the
channel, `received` the receives `<-w.JobChan` made by the workers as (worker,
value, ok), `handled` the jobs printed as (worker, job); all oldest first. -/
structure Crew where
  jobChan : Chan Job
  workers : List Worker
  sent : List Job
  received : List (Nat × Job × Bool)
  handled : List (Nat × Job)
  deriving DecidableEq, Repr

/-- The steps of the workers and of the goroutines around them. -/
inductive CrewAct where
  | submit (job : Job)
  | pass (job : Job) (i : Nat)
  | closeJobs
  | stop (i : Nat)
  | claim (i : Nat)
  | handle (i : Nat)
  | quit (i : Nat)
  deriving DecidableEq, Repr

/-- One step; `none` when the step cannot be taken in this state.
* `submit job`: a producer executes `jobChan <- job` and the job goes into the
  buffer.
* `pass job i`: a producer executes `jobChan <- job` while worker `i` waits in
  its `select`, and the job is handed over to `case job := <-w.JobChan`; on an
  unbuffered job channel every send completes this way.
* `closeJobs`: a producer executes `close(jobChan)`.
* `stop i`: a goroutine starts a send on `Quit` of worker `i`.
* `claim i`: the `select` of worker `i` takes `case job := <-w.JobChan`; the
  code does not read the second result `ok` of the receive.
* `handle i`: worker `i` runs the body of that case, the `Printf`.
* `quit i`: the `select` of worker `i` takes `case <-w.Quit` and returns. -/
def Crew.step (s : Crew) : CrewAct → Option Crew
  | .submit job =>
    match s.jobChan.send job with
    | .sent c => some { s with jobChan := c, sent := s.sent ++ [job] }
    | .blocks => none
    | .panics => none
  | .pass job i =>
    match s.workers[i]? with
    | some { phase := .selecting, quit := q } =>
      if s.jobChan.handsOver then
        some { s with workers := s.workers.set i { phase := .handling job, quit := q },
                      sent := s.sent ++ [job],
                      received := s.received ++ [(i, job, true)] }
      else none
    | _ => none
  | .closeJobs => (s.jobChan.close).map (fun c => { s with jobChan := c })
  | .stop i =>
    match s.workers[i]? with
    | some w => some { s with workers := s.workers.set i { w with quit := true } }
    | none => none
  | .claim i =>
    match s.workers[i]? with
    | some { phase := .selecting, quit := q } =>
      match s.jobChan.recv with
      | .got job ok c =>
        some { s with jobChan := c,
                      workers := s.workers.set i { phase := .handling job, quit := q },
                      received := s.received ++ [(i, job, ok)] }
      | .blocks => none
    | _ => none
  | .handle i =>
    match s.workers[i]? with
    | some { phase := .handling job, quit := q } =>
      some { s with workers := s.workers.set i { phase := .selecting, quit := q },
                    handled := s.handled ++ [(i, job)] }
    | _ => none
  | .quit i =>
    match s.workers[i]? with
    | some { phase := .selecting, quit := true } =>
      some { s with workers := s.workers.set i { phase := .exited, quit := false } }
    | _ => none

/-- The steps of a schedule taken one after the other. -/
def Crew.run (s : Crew) : List CrewAct → Option Crew
  | [] => some s
  | a :: rest => (s.step a).bind (fun s' => Crew.run s' rest)

/-- The state after `n` workers were created by `NewWorker` on a channel
`make(chan Job, cap)` and started (`n = 1`, `cap = 10` in `main`). -/
def Crew.init (n cap : Nat) : Crew :=
  { jobChan := Chan.make cap, workers := List.replicate n { phase := .selecting, quit := false },
    sent := [], received := [], handled := [] }

/-- The values worker `i` received from the job channel, oldest first. -/
def Crew.receivedBy (s : Crew) (i : Nat) : List Job :=
  (s.received.filter (fun e => e.1 = i)).map (fun e => e.2.1)

/-- The jobs worker `i` handled, oldest first. -/
def Crew.handledBy (s : Crew) (i : Nat) : List Job :=
  (s.handled.filter (fun e => e.1 = i)).map Prod.snd

/-- The jobs received from the channel, out of its buffer or handed over
(receives with `ok = true`), oldest first. -/
def Crew.claimed (s : Crew) : List Job :=
  (s.received.filter (fun e => e.2.2)).map (fun e => e.2.1)

/-- The job the worker at position `i` of `ws` holds, if any. -/
def handOf (ws : List Worker) (i : Nat) : List Job :=
  match ws[i]? with
  | some w => w.phase.job
  | none => []

/-- The job worker `i` holds, if any. -/
def Crew.inHand (s : Crew) (i : Nat) : List Job := handOf s.workers i

/-- What holds in every state of the workers. -/
structure Crew.Inv (s : Crew) : Prop where
  order : s.claimed ++ s.jobChan.buf = s.sent
  genuine : s.jobChan.closed = false → ∀ e ∈ s.received, e.2.2 = true
  books : ∀ i, s.receivedBy i = s.handledBy i ++ s.inHand i

/-- A schedule: one job is sent and handled, the channel is closed, and the
worker goes on receiving. -/
def afterClose : List CrewAct :=
  [.submit { ID := 1, Data := "job" }, .claim 0, .handle 0, .closeJobs, .claim 0, .handle 0]

/-- The state in which `afterClose` ends. -/
def afterCloseEnd : Crew :=
  { jobChan := { cap := 10, buf := [], closed := true },
    workers := [{ phase := .selecting, quit := false }],
    sent := [{ ID := 1, Data := "job" }],
    received := [(0, { ID := 1, Data := "job" }, true), (0, { ID := 0, Data := "" }, false)],
    handled := [(0, { ID := 1, Data := "job" }), (0, { ID := 0, Data := "" })] }

/-- A schedule: a job is sent and claimed, a stop is requested while the job
is in hand, the job is handled, and only then the worker quits. -/
def stopWhileBusy : List CrewAct :=
  [.submit { ID := 1, Data := "job" }, .claim 0, .stop 0, .handle 0, .quit 0]

/-- The state in which `stopWhileBusy` ends. -/
def stopWhileBusyEnd : Crew :=
  { jobChan := { cap := 10, buf := [], closed := false },
    workers := [{ phase := .exited, quit := false }],
    sent := [{ ID := 1, Data := "job" }],
    received := [(0, { ID := 1, Data := "job" }, true)],
    handled := [(0, { ID := 1, Data := "job" })] }

/-- A schedule as `stopWhileBusy`, cut before the job is handled. -/
def stopRequested : List CrewAct :=
  [.submit { ID := 1, Data := "job" }, .claim 0, .stop 0]

/-- The state in which `stopRequested` ends. -/
def stopRequestedEnd : Crew :=
  { jobChan := { cap := 10, buf := [], closed := false },
    workers := [{ phase := .handling { ID := 1, Data := "job" }, quit := true }],
    sent := [{ ID := 1, Data := "job" }],
    received := [(0, { ID := 1, Data := "job" }, true)],
    handled := [] }

/-- A schedule on an unbuffered job channel: a job is handed over to the worker
and handled, a second one is handed over, a stop is requested while it is in
hand, it is handled, and only then the worker quits. -/
def unbuffered : List CrewAct :=
  [.pass { ID := 1, Data := "a" } 0, .handle 0, .pass { ID := 2, Data := "b" } 0, .stop 0,
   .handle 0, .quit 0]

/-- The state after the first four steps of `unbuffered`: the second job is in
hand and a stop is requested. -/
def unbufferedBusy : Crew :=
  { jobChan := { cap := 0, buf := [], closed := false },
    workers := [{ phase := .handling { ID := 2, Data := "b" }, quit := true }],
    sent := [{ ID := 1, Data := "a" }, { ID := 2, Data := "b" }],
    received := [(0, { ID := 1, Data := "a" }, true), (0, { ID := 2, Data := "b" }, true)],
    handled := [(0, { ID := 1, Data := "a" })] }

/-- The state in which `unbuffered` ends. -/
def unbufferedEnd : Crew :=
  { jobChan := { cap := 0, buf := [], closed := false },
    workers := [{ phase := .exited, quit := false }],
    sent := [{ ID := 1, Data := "a" }, { ID := 2, Data := "b" }],
    received := [(0, { ID := 1, Data := "a" }, true), (0, { ID := 2, Data := "b" }, true)],
    handled := [(0, { ID := 1, Data := "a" }), (0, { ID := 2, Data := "b" })] }

/-- The state after the first four steps of `afterClose`: the only job sent
was claimed and handled, and the channel is closed and drained. -/
def closedAndDrained : Crew :=
  { jobChan := { cap := 10, buf := [], closed := true },
    workers := [{ phase := .selecting, quit := false }],
    sent := [{ ID := 1, Data := "job" }],
    received := [(0, { ID := 1, Data := "job" }, true)],
    handled := [(0, { ID := 1, Data := "job" })] }

/-! ## Sequences of broker calls and the inboxes they create -/

/-- The calls of a sequence made one after the other; `none` when one of them
does not return. -/
def World.run (w : World) : List Op → Option World
  | [] => some w
  | op :: rest => (w.call op).bind (fun w' => World.run w' rest)

/-- The inbox a call creates, with the topic that was passed to the call:
`Subscribe` creates the channel it returns, `Publish` creates none. -/
def World.creates (w : World) : Op → List (Nat × String)
  | .subscribe topic =>
    match Subscribe w.heap w.ps topic with
    | some r => [(r.2.2, topic)]
    | none => []
  | .publish _ _ => []

/-- The inboxes the `Subscribe` calls of a sequence create, each with the
topic that was passed to the call, in call order. -/
def World.made (w : World) : List Op → List (Nat × String)
  | [] => []
  | op :: rest =>
    match w.call op with
    | none => []
    | some w' => w.creates op ++ World.made w' rest

/-- The inbox a step creates, with the topic that was passed to the call. -/
def Broker.creates (s : Broker) : BrokerAct → List (Nat × String)
  | .subscribe topic =>
    match Subscribe s.heap s.ps topic with
    | some r => [(r.2.2, topic)]
    | none => []
  | _ => []

/-- The inboxes the `subscribe` steps of a schedule create, each with the
topic that was passed to the call, in step order. -/
def Broker.made (s : Broker) : List BrokerAct → List (Nat × String)
  | [] => []
  | a :: rest =>
    match s.step a with
    | none => []
    | some s' => s.creates a ++ Broker.made s' rest

/-- The registry `ps` over a heap of `n` channels lists exactly the inboxes of
`made`: the list of a topic is the inboxes created for that topic, in creation
order; no address was created twice; every created address is allocated. -/
def Owned (n : Nat) (ps : PubSub) (made : List (Nat × String)) : Prop :=
  (∀ t : String, ps.lookup t = (made.filter (fun e => e.2 = t)).map Prod.fst) ∧
  (made.map Prod.fst).Nodup ∧
  (∀ e ∈ made, e.1 < n)

/-- A sequence of calls: two subscribers of `"news"`, one of `"sport"`, one
message for `"news"`. -/
def threeSubscribers : List Op :=
  [.subscribe "news", .subscribe "sport", .subscribe "news", .publish "news" "m"]

/-! ## The job queue after `close` -/

/-- Whether a send statement completes, so that the sending goroutine goes on
to its next statement. -/
def SendResult.completes {α : Type} : SendResult α → Bool
  | .sent _ => true
  | .blocks => false
  | .panics => false

/-- A job channel that holds one job and has been closed. -/
def closedQueue : Chan Job :=
  { cap := 10, buf := [{ ID := 1, Data := "job" }], closed := true }

/-- Workers on the closed job channel `closedQueue`. -/
def closedCrew : Crew :=
  { jobChan := closedQueue, workers := [{ phase := .selecting, quit := false }],
    sent := [{ ID := 1, Data := "job" }], received := [], handled := [] }

/-! ## The observer pattern (`14_advanced_patterns.go`, lines 147-188) -/

/-- A value of the interface type `Observer`.  The observers of the program
are pointers `*ConcreteObserver`, and `==` on two such interface values
compares the pointers, so an observer is modelled by its address. -/
abbrev Observer := Nat

/-- The struct `ConcreteSubject`. -/
structure ConcreteSubject where
  observers : List Observer
  data : String
  deriving DecidableEq, Repr

/-- The method `Register`: `s.observers = append(s.observers, o)`. -/
def ConcreteSubject.Register (s : ConcreteSubject) (o : Observer) : ConcreteSubject :=
  { s with observers := s.observers ++ [o] }

/-- The loop of `Deregister` from index `i` on, `rest` being the part of the
ranged slice `all` not yet visited: at the first `obs == o` the slice becomes
`append(all[:i], all[i+1:]...)` and the loop breaks; when the range is
exhausted the slice is as it was. -/
def deregisterFrom (o : Observer) (all : List Observer) : Nat → List Observer → List Observer
  | _, [] => all
  | i, obs :: rest =>
    if obs = o then all.take i ++ all.drop (i + 1)
    else deregisterFrom o all (i + 1) rest

/-- The method `Deregister`. -/
def ConcreteSubject.Deregister (s : ConcreteSubject) (o : Observer) : ConcreteSubject :=
  { s with observers := deregisterFrom o s.observers 0 s.observers }

/-- The loop of `NotifyAll` over the part `rest` of the slice: `calls` are the
calls `obs.Update(data)` made so far, as (observer, argument), oldest first. -/
def notifyFrom (data : String) : List Observer → List (Observer × String) →
    List (Observer × String)
  | [], calls => calls
  | obs :: rest, calls => notifyFrom data rest (calls ++ [(obs, data)])

/-- The method `NotifyAll`: the calls of `Update` it makes, in order. -/
def ConcreteSubject.NotifyAll (s : ConcreteSubject) : List (Observer × String) :=
  notifyFrom s.data s.observers []

/-- A subject on which the observer at address 7 was registered twice. -/
def twiceRegistered : ConcreteSubject :=
  { observers := [7, 3, 7], data := "d" }

/-! ## The type `float64`

The calculator of `11_testing.go` computes on `float64`.  Its methods are
embedded over any type `F` that carries the operations they use; `F64` below
is the IEEE 754 binary64 format with round to nearest, ties to even, on which
the examples are evaluated. -/

/-- The operations on `float64` that the calculator uses: the constant `0`,
`+`, `-`, `*`, `/`, `math.Sqrt`, the conversion `float64(u)` of a `uint64`, and
the comparisons `==` and `<`. -/
class Float64 (F : Type) where
  zero : F
  add : F → F → F
  sub : F → F → F
  mul : F → F → F
  div : F → F → F
  sqrt : F → F
  ofUint64 : Nat → F
  eq : F → F → Bool
  lt : F → F → Bool

/-- A binary64 value: not a number, an infinity, or the finite value
`(-1)^neg * m * 2^e`.  The operations below return finite values in canonical
form: `m < 2^53`, `-1074 ≤ e ≤ 971`, and `2^52 ≤ m` unless `e = -1074`; zero is
`m = 0`, `e = -1074`. -/
inductive F64 where
  | nan
  | inf (neg : Bool)
  | fin (neg : Bool) (m : Nat) (e : Int)
  deriving DecidableEq, Repr

/-- The number of binary digits of `n`, computed with `fuel` halvings. -/
def bitLengthAux : Nat → Nat → Nat
  | 0, _ => 0
  | fuel + 1, n => if n = 0 then 0 else bitLengthAux fuel (n / 2) + 1

/-- The number of binary digits of `n`. -/
def bitLength (n : Nat) : Nat := bitLengthAux n n

/-- The integer square root of `n`, one binary digit at a time: `r` is the
part of the root found so far, and `k` lower digits are still to be decided. -/
def isqrtAux (n : Nat) : Nat → Nat → Nat
  | 0, r => r
  | k + 1, r => isqrtAux n k (if (r + 2 ^ k) * (r + 2 ^ k) ≤ n then r + 2 ^ k else r)

/-- The largest `r` with `r * r ≤ n`. -/
def isqrt (n : Nat) : Nat := isqrtAux n (bitLength n / 2 + 1) 0

/-- The binary64 value nearest to `(-1)^neg * M * 2^E`, ties to even; an
infinity when that is beyond the finite range. -/
def F64.round (neg : Bool) (M : Nat) (E : Int) : F64 :=
  if M = 0 then .fin neg 0 (-1074)
  else
    let e : Int := max (E + (bitLength M : Int) - 53) (-1074)
    if e ≤ E then
      if e > 971 then .inf neg else .fin neg (M * 2 ^ (E - e).toNat) e
    else
      let k : Nat := (e - E).toNat
      let q : Nat := M / 2 ^ k
      let r : Nat := M % 2 ^ k
      let half : Nat := 2 ^ (k - 1)
      let m : Nat := if r > half ∨ (r = half ∧ q % 2 = 1) then q + 1 else q
      let m' : Nat := if m = 2 ^ 53 then 2 ^ 52 else m
      let e' : Int := if m = 2 ^ 53 then e + 1 else e
      if e' > 971 then .inf neg else .fin neg m' e'

/-- The integer `(-1)^neg * m`. -/
def F64.signed (neg : Bool) (m : Nat) : Int := if neg then -(m : Int) else (m : Int)

/-- The comparison `x == y`: false with a NaN, true between the two zeros. -/
def F64.eq : F64 → F64 → Bool
  | .nan, _ => false
  | _, .nan => false
  | .inf a, .inf b => a == b
  | .inf _, .fin _ _ _ => false
  | .fin _ _ _, .inf _ => false
  | .fin a m e, .fin b m' e' => (m == 0 && m' == 0) || (a == b && m == m' && e == e')

/-- The comparison `x < y`: false with a NaN.  A zero is below the positive
and above the negative non-zero values; two non-zero finite values are compared
as integers after scaling to the smaller exponent. -/
def F64.lt : F64 → F64 → Bool
  | .nan, _ => false
  | _, .nan => false
  | .inf a, .inf b => a && !b
  | .inf a, .fin _ _ _ => a
  | .fin _ _ _, .inf b => !b
  | .fin a m e, .fin b m' e' =>
    if m = 0 then !b && m' != 0
    else if m' = 0 then a
    else
      decide (F64.signed a (m * 2 ^ (e - min e e').toNat)
        < F64.signed b (m' * 2 ^ (e' - min e e').toNat))

/-- The negation `-x`. -/
def F64.neg : F64 → F64
  | .nan => .nan
  | .inf a => .inf (!a)
  | .fin a m e => .fin (!a) m e

/-- The sum `x + y`: the exact sum, rounded; an exact zero sum is `+0` unless
both operands are `-0`. -/
def F64.add : F64 → F64 → F64
  | .nan, _ => .nan
  | _, .nan => .nan
  | .inf a, .inf b => if a = b then .inf a else .nan
  | .inf a, .fin _ _ _ => .inf a
  | .fin _ _ _, .inf b => .inf b
  | .fin a m e, .fin b m' e' =>
    let sum : Int := F64.signed a (m * 2 ^ (e - min e e').toNat)
      + F64.signed b (m' * 2 ^ (e' - min e e').toNat)
    if sum = 0 then .fin (a && b) 0 (-1074)
    else F64.round (decide (sum < 0)) sum.natAbs (min e e')

/-- The difference `x - y`. -/
def F64.sub (x y : F64) : F64 := F64.add x (F64.neg y)

/-- The product `x * y`: the exact product, rounded. -/
def F64.mul : F64 → F64 → F64
  | .nan, _ => .nan
  | _, .nan => .nan
  | .inf a, .inf b => .inf (a != b)
  | .inf a, .fin b m _ => if m = 0 then .nan else .inf (a != b)
  | .fin a m _, .inf b => if m = 0 then .nan else .inf (a != b)
  | .fin a m e, .fin b m' e' => F64.round (a != b) (m * m') (e + e')

/-- The quotient `x / y`: the exact quotient, rounded.  The quotient of the
mantissas is computed to 128 binary places and a last digit records whether
anything is left, which is enough to round it. -/
def F64.div : F64 → F64 → F64
  | .nan, _ => .nan
  | _, .nan => .nan
  | .inf _, .inf _ => .nan
  | .inf a, .fin b _ _ => .inf (a != b)
  | .fin a _ _, .inf b => .fin (a != b) 0 (-1074)
  | .fin a m e, .fin b m' e' =>
    if m' = 0 then (if m = 0 then .nan else .inf (a != b))
    else
      F64.round (a != b)
        (2 * (m * 2 ^ 128 / m') + (if m * 2 ^ 128 % m' = 0 then 0 else 1))
        (e - e' - 129)

/-- The function `math.Sqrt`: the exact square root, rounded; NaN for a
negative argument, the argument itself for a zero.  The root of the mantissa is
computed to 64 binary places and a last digit records whether anything is
left. -/
def F64.sqrt : F64 → F64
  | .nan => .nan
  | .inf a => if a then .nan else .inf false
  | .fin a m e =>
    if m = 0 then .fin a 0 (-1074)
    else if a then .nan
    else
      let s : Nat := if e % 2 = 0 then 128 else 129
      let M : Nat := m * 2 ^ s
      F64.round false (2 * isqrt M + (if isqrt M * isqrt M = M then 0 else 1))
        ((e - s) / 2 - 1)

/-- The conversion `float64(u)` of an unsigned integer. -/
def F64.ofUint64 (u : Nat) : F64 := F64.round false u 0

/-- Whether `x` is exactly the natural number `n`. -/
def F64.isNat : F64 → Nat → Bool
  | .fin false m e, n => if 0 ≤ e then m * 2 ^ e.toNat == n else m == n * 2 ^ (-e).toNat
  | _, _ => false

/-- The binary64 format as a `float64`. -/
instance : Float64 F64 where
  zero := .fin false 0 (-1074)
  add := F64.add
  sub := F64.sub
  mul := F64.mul
  div := F64.div
  sqrt := F64.sqrt
  ofUint64 := F64.ofUint64
  eq := F64.eq
  lt := F64.lt

/-! ## The calculator (`11_testing.go`) -/

/-- The struct `Calculator`. -/
structure Calculator (F : Type) where
  lastResult : F
  deriving DecidableEq, Repr

/-- The value `&Calculator{}` of the tests: `lastResult` is zero. -/
def Calculator.new {F : Type} [Float64 F] : Calculator F := { lastResult := Float64.zero }

/-- The method `Add`: the calculator after the call, and the value returned. -/
def Calculator.Add {F : Type} [Float64 F] (_c : Calculator F) (a b : F) : Calculator F × F :=
  let c' : Calculator F := { lastResult := Float64.add a b }
  (c', c'.lastResult)

/-- The method `Subtract`. -/
def Calculator.Subtract {F : Type} [Float64 F] (_c : Calculator F) (a b : F) :
    Calculator F × F :=
  let c' : Calculator F := { lastResult := Float64.sub a b }
  (c', c'.lastResult)

/-- The method `Multiply`. -/
def Calculator.Multiply {F : Type} [Float64 F] (_c : Calculator F) (a b : F) :
    Calculator F × F :=
  let c' : Calculator F := { lastResult := Float64.mul a b }
  (c', c'.lastResult)

/-- The method `Divide`: the calculator after the call, the value returned and
the error returned (`none` for `nil`). -/
def Calculator.Divide {F : Type} [Float64 F] (c : Calculator F) (a b : F) :
    Calculator F × F × Option String :=
  if Float64.eq b Float64.zero then (c, Float64.zero, some "除数不能为零")
  else
    let c' : Calculator F := { lastResult := Float64.div a b }
    (c', c'.lastResult, none)

/-- The method `GetLastResult`. -/
def Calculator.GetLastResult {F : Type} (c : Calculator F) : F := c.lastResult

/-- The method `Square`. -/
def Calculator.Square {F : Type} [Float64 F] (_c : Calculator F) (n : F) : Calculator F × F :=
  let c' : Calculator F := { lastResult := Float64.mul n n }
  (c', c'.lastResult)

/-- The method `SquareRoot`. -/
def Calculator.SquareRoot {F : Type} [Float64 F] (c : Calculator F) (n : F) :
    Calculator F × F × Option String :=
  if Float64.lt n Float64.zero then (c, Float64.zero, some "不能对负数求平方根")
  else
    let c' : Calculator F := { lastResult := Float64.sqrt n }
    (c', c'.lastResult, none)

/-- The method `Power`; the library function `math.Pow` is the parameter
`pow`. -/
def Calculator.Power {F : Type} (pow : F → F → F) (_c : Calculator F) (base exponent : F) :
    Calculator F × F :=
  let c' : Calculator F := { lastResult := pow base exponent }
  (c', c'.lastResult)

/-- The loop `for i := 2; i <= n; i++ { result *= uint64(i) }` of `Factorial`
started with `result = 1`: the product is taken in `uint64`, modulo `2^64`. -/
def factorialLoop (n : Nat) : Nat :=
  (List.range' 2 (n - 1)).foldl (fun result i => result * i % 18446744073709551616) 1

/-- The method `Factorial`: the calculator after the call, the `uint64`
returned and the error returned. -/
def Calculator.Factorial {F : Type} [Float64 F] (c : Calculator F) (n : Int) :
    Calculator F × Nat × Option String :=
  if n < 0 then (c, 0, some "不能计算负数的阶乘")
  else if n > 20 then (c, 0, some "数字太大，可能会溢出")
  else
    let result : Nat := factorialLoop n.toNat
    ({ lastResult := Float64.ofUint64 result }, result, none)

/-- The binary64 value of a small natural number, as written in the tests. -/
def F64.lit (n : Nat) : F64 := F64.ofUint64 n

/-- A calculator after `Add(2, 3)`: its `lastResult` is 5. -/
def afterAdd : Calculator F64 := (Calculator.Add Calculator.new (F64.lit 2) (F64.lit 3)).1

/-- The binary64 value `2^201`. -/
def twoTo201 : F64 := .fin false 4503599627370496 149

/-! ## The singleton (`14_advanced_patterns.go`, lines 15-30) -/

/-- The struct `Singleton`. -/
structure Singleton where
  data : String
  deriving DecidableEq, Repr

/-- The package-level state behind `GetInstance`: `objects` are the
`Singleton` values allocated so far, by address; `inst` is the variable
`instance` (`none` for `nil`, else the address it points to); `onceDone` tells
whether `once.Do` has already run its function. -/
structure Globals where
  objects : List Singleton
  inst : Option Nat
  onceDone : Bool
  deriving DecidableEq, Repr

/-- The state at program start: nothing allocated, `instance` is `nil`, `once`
is unused. -/
def Globals.init : Globals := { objects := [], inst := none, onceDone := false }

/-- The function `GetInstance`: `once.Do` runs the function literal, which
allocates `&Singleton{data: "单例数据"}` and stores it in `instance`, only when
it has not run before; then `instance` is returned.  `sync.Once` lets one
caller at a time through, so a call is one step. -/
def GetInstance (g : Globals) : Globals × Option Nat :=
  let g' : Globals :=
    if g.onceDone then g
    else { objects := g.objects ++ [{ data := "单例数据" }],
           inst := some g.objects.length, onceDone := true }
  (g', g'.inst)

/-- The function `GetInstance` called `n` times in a row: the final state and
the pointers returned, in call order. -/
def getInstanceTimes : Nat → Globals → Globals × List (Option Nat)
  | 0, g => (g, [])
  | n + 1, g =>
    let r := GetInstance g
    let r' := getInstanceTimes n r.1
    (r'.1, r.2 :: r'.2)

/-! ## Retrying an operation: `retryOperation` of `08_error_handling.go` (lines 118-132) -/

/-- The error `fmt.Errorf("在%d次尝试后失败: %w", attempts, err)`: a non-nil
error that records `attempts` and wraps `err` (`errors.Unwrap` gives `err`,
which is nil when `err` is nil). -/
structure RetryError (E : Type) where
  attempts : Int
  err : Option E
  deriving DecidableEq, Repr

/-- What a call of `retryOperation` leaves: the error it returns (`none` is
nil), the state of the operation, the results of the calls of `f` in order, and
the numbers printed by `重试操作，尝试次数：%d` (one line after each sleep). -/
structure Retried (σ E : Type) where
  result : Option (RetryError E)
  state : σ
  calls : List (Option E)
  printed : List Int
  deriving Repr

/-- The loop `for i := 0; i < attempts; i++` of `retryOperation`. The operation
`f` is a closure: it reads and changes a state `σ` and returns an error (`none`
is nil). The first argument is the number of iterations left, `attempts - i`
(zero when `i < attempts` fails); `err` is the variable `err`. -/
def retryLoop {σ E : Type} (attempts : Int) (f : σ → Option E × σ) :
    Nat → Int → σ → Option E → List (Option E) → List Int → Retried σ E
  | 0, _, s, err, calls, printed =>
    { result := some { attempts := attempts, err := err }, state := s, calls := calls,
      printed := printed }
  | k + 1, i, s, _, calls, printed =>
    match (f s).1 with
    | none => { result := none, state := (f s).2, calls := calls ++ [none], printed := printed }
    | some e =>
      retryLoop attempts f k (i + 1) (f s).2 (some e) (calls ++ [some e])
        (if i < attempts - 1 then printed ++ [i + 1] else printed)

/-- The function `retryOperation(attempts, sleep, f)`; the sleep changes no
value. -/
def retryOperation {σ E : Type} (attempts : Int) (f : σ → Option E × σ) (s : σ) :
    Retried σ E :=
  retryLoop attempts f attempts.toNat 0 s none [] []

/-- The results of `n` successive calls of `f` from the state `s`. -/
def callsFrom {σ E : Type} (f : σ → Option E × σ) : Nat → σ → List (Option E)
  | 0, _ => []
  | n + 1, s => (f s).1 :: callsFrom f n (f s).2

/-- The state after `n` successive calls of `f` from the state `s`. -/
def stateAfter {σ E : Type} (f : σ → Option E × σ) : Nat → σ → σ
  | 0, s => s
  | n + 1, s => stateAfter f n (f s).2

/-- The operation of `main` (line 190): it always returns the error `操作失败`. -/
def alwaysFails : Unit → Option String × Unit := fun _ => (some "操作失败", ())

/-- An operation that counts its calls and succeeds at the third. -/
def thirdTimeLucky : Nat → Option String × Nat :=
  fun n => (if n + 1 < 3 then some "操作失败" else none, n + 1)

/-! ## Functional patterns of `14_advanced_patterns.go` (lines 283-310) -/

/-- The function `MapSlice`: `result[i] = op(v)` for each `i, v` of `slice`. -/
def MapSlice : List Int → (Int → Int) → List Int
  | [], _ => []
  | v :: rest, op => op v :: MapSlice rest op

/-- The function `Double`: `x * 2` in a Go `int`. -/
def Double (x : Int) : Int := wrapInt (x * 2)

/-- The function `Square`: `x * x` in a Go `int`. -/
def Square (x : Int) : Int := wrapInt (x * x)

/-- The type `IntPipe`. -/
abbrev IntPipe := List Int → List Int

/-- The function `Pipeline`: `result := integers`, then `result = pipe(result)`
for each pipe in order. -/
def Pipeline (pipes : List IntPipe) : IntPipe :=
  fun integers => pipes.foldl (fun result pipe => pipe result) integers

/-- The pipeline of `main` (lines 462-465). -/
def doubleThenSquare : IntPipe :=
  Pipeline [fun nums => MapSlice nums Double, fun nums => MapSlice nums Square]

/-- The nested application `pn(...(p1(xs))...)` of the pipes `p1, ..., pn`. -/
def nestedPipes (pipes : List IntPipe) (xs : List Int) : List Int :=
  pipes.reverse.foldr (fun pipe result => pipe result) xs

/-! ## Middlewares of `12_networking.go` (lines 234-266) -/

/-- The fields of a `*http.Request` that the middlewares read; `authorization`
is `r.Header.Get("Authorization")`, empty when the header is absent. -/
structure Request where
  method : String
  path : String
  remoteAddr : String
  authorization : String
  deriving DecidableEq, Repr

/-- What a handler does that can be observed: a write to the response, a call
of `http.Error(w, msg, code)`, or the line printed by `loggerMiddleware` (the
elapsed time is left out). -/
inductive Event where
  | write (body : String)
  | error (msg : String) (code : Nat)
  | log (method path remoteAddr : String)
  deriving DecidableEq, Repr

/-- The request behind the pointer `r` and the events so far. -/
structure Exchange where
  request : Request
  events : List Event
  deriving DecidableEq, Repr

/-- The type `http.HandlerFunc`: a handler may change the request behind `r`
and adds events. -/
abbrev HandlerFunc := Exchange → Exchange

/-- The type `Middleware`. -/
abbrev Middleware := HandlerFunc → HandlerFunc

/-- The function `loggerMiddleware`: call `next`, then print the line. -/
def loggerMiddleware : Middleware := fun next x =>
  let x' := next x
  { x' with events := x'.events ++
      [.log x'.request.method x'.request.path x'.request.remoteAddr] }

/-- The function `authMiddleware`: with an empty `Authorization` header answer
401 and return, otherwise call `next`. -/
def authMiddleware : Middleware := fun next x =>
  if x.request.authorization = "" then
    { x with events := x.events ++ [.error "未授权" 401] }
  else next x

/-- The function `chainMiddleware`: `h = m(h)` for each middleware in order. -/
def chainMiddleware (h : HandlerFunc) (middlewares : List Middleware) : HandlerFunc :=
  middlewares.foldl (fun h m => m h) h

/-- The nested application `mn(...(m1(h))...)` of the middlewares. -/
def nestedMiddlewares (h : HandlerFunc) (middlewares : List Middleware) : HandlerFunc :=
  middlewares.reverse.foldr (fun m h => m h) h

/-- The handler of `main` (lines 292-294). -/
def protectedResource : HandlerFunc := fun x =>
  { x with events := x.events ++ [.write "Protected Resource"] }

/-- The handler `protectedHandler` of `main` (lines 297-300). -/
def protectedHandler : HandlerFunc :=
  chainMiddleware protectedResource [loggerMiddleware, authMiddleware]

/-- A request of `/protected` without an `Authorization` header. -/
def anonymousRequest : Exchange :=
  { request := { method := "GET", path := "/protected", remoteAddr := "127.0.0.1:4000",
                 authorization := "" },
    events := [] }

/-- A request of `/protected` with an `Authorization` header. -/
def tokenRequest : Exchange :=
  { request := { method := "GET", path := "/protected", remoteAddr := "127.0.0.1:4000",
                 authorization := "Bearer t" },
    events := [] }

/-! ## Validation: `validateData` of `08_error_handling.go` (lines 86-116) -/

/-- The type `MultiError`; each error is the message given to `fmt.Errorf`. -/
structure MultiError where
  Errors : List String
  deriving DecidableEq, Repr

/-- The loop of `MultiError.Error` from index `i` on. -/
def MultiError.errorLoop : Nat → List String → String → String
  | _, [], result => result
  | i, err :: rest, result =>
    MultiError.errorLoop (i + 1) rest ((if i > 0 then result ++ "; " else result) ++ err)

/-- The method `Error` of `MultiError`. -/
def MultiError.Error (m : MultiError) : String := MultiError.errorLoop 0 m.Errors ""

/-- The function `validateData`. A Go string is a sequence of bytes and `len`
counts them; `none` is the nil error. -/
def validateData (data : List UInt8) : Option MultiError :=
  let errors : List String := []
  let errors := if data.length = 0 then errors ++ ["数据不能为空"] else errors
  let errors := if data.length > 100 then errors ++ ["数据长度不能超过100"] else errors
  if errors.length > 0 then some { Errors := errors } else none

/-! ## The wasm functions of `wasm_package/test/main.go` and `utils.PackageResult` -/

/-- A `js.Value` handed over by the JavaScript caller: a number, or a value of
another type (undefined, null, a string, an object). -/
inductive JsValue where
  | number (x : F64)
  | other
  deriving DecidableEq, Repr

/-- A run-time panic of the Go code. -/
inductive Fault where
  | indexOutOfRange (index length : Nat)
  | notANumber
  | divideByZero
  deriving DecidableEq, Repr

/-- The value put in the field `Data` of `Result`. -/
inductive Data where
  | null
  | float (x : F64)
  | int (n : Int)
  deriving DecidableEq, Repr

/-- The struct `Result` of `utils`. -/
structure Result where
  Ok : Bool
  Err : String
  Data : Data
  deriving DecidableEq, Repr

/-- The string returned by `PackageResult`: the JSON text of a `Result`, or the
empty string when `json.Marshal` fails (its error is dropped and `resByte` is
nil). -/
inductive Packaged where
  | json (res : Result)
  | empty
  deriving DecidableEq, Repr

/-- Whether `json.Marshal` encodes the value: it refuses NaN and the
infinities. -/
def Data.marshals : Data → Bool
  | .float .nan => false
  | .float (.inf _) => false
  | _ => true

/-- The function `PackageResult`; `err` is `none` for a nil error. -/
def PackageResult (ok : Bool) (err : Option String) (data : Data) : Packaged :=
  let _err := match err with
    | some e => e
    | none => ""
  let res : Result := { Ok := ok, Err := _err, Data := data }
  if res.Data.marshals then .json res else .empty

deriving instance DecidableEq for Except

/-- The index expression `args[i]`. -/
def index (args : List JsValue) (i : Nat) : Except Fault JsValue :=
  match args[i]? with
  | some v => .ok v
  | none => .error (.indexOutOfRange i args.length)

/-- The method `Value.Float`: it panics on a value that is not a number. -/
def JsValue.Float : JsValue → Except Fault F64
  | .number x => .ok x
  | .other => .error .notANumber

/-- The conversion `int(x)` of a `float64`: the value truncated toward zero
when that fits in 64 bits; otherwise Go leaves the result to the
implementation, here `other x`. -/
def F64.toInt (other : F64 → Int) : F64 → Int
  | .fin _ 0 _ => 0
  | .fin neg m e =>
    let t := F64.signed neg (if 0 ≤ e then m * 2 ^ e.toNat else m / 2 ^ (-e).toNat)
    if -9223372036854775808 ≤ t ∧ t < 9223372036854775808 then t else other (.fin neg m e)
  | x => other x

/-- The method `Value.Int`: `int(v.Float())`. -/
def JsValue.Int (other : F64 → Int) (v : JsValue) : Except Fault Int :=
  match v.Float with
  | .ok x => .ok (F64.toInt other x)
  | .error f => .error f

/-- The function `Add` (the receiver `this` is not used). -/
def Add (args : List JsValue) : Except Fault Packaged :=
  if args.length = 0 then .ok (PackageResult false (some "参数不能为空!") .null)
  else do
    let x ← (← index args 0).Float
    let y ← (← index args 1).Float
    .ok (PackageResult true none (.float (F64.add x y)))

/-- The function `Sub`. -/
def Sub (args : List JsValue) : Except Fault Packaged :=
  if args.length = 0 then .ok (PackageResult false (some "参数不能为空!") .null)
  else do
    let x ← (← index args 0).Float
    let y ← (← index args 1).Float
    .ok (PackageResult true none (.float (F64.sub x y)))

/-- The function `Multi`. -/
def Multi (args : List JsValue) : Except Fault Packaged :=
  if args.length = 0 then .ok (PackageResult false (some "参数不能为空!") .null)
  else do
    let x ← (← index args 0).Float
    let y ← (← index args 1).Float
    .ok (PackageResult true none (.float (F64.mul x y)))

/-- The function `Div`. -/
def Div (args : List JsValue) : Except Fault Packaged :=
  if args.length = 0 then .ok (PackageResult false (some "参数不能为空!") .null)
  else do
    let x ← (← index args 0).Float
    let y ← (← index args 1).Float
    .ok (PackageResult true none (.float (F64.div x y)))

/-- The function `Mod`: `x % y` on Go integers has the sign of `x` and panics
when `y` is zero. -/
def Mod (other : F64 → Int) (args : List JsValue) : Except Fault Packaged :=
  if args.length = 0 then .ok (PackageResult false (some "参数不能为空!") .null)
  else do
    let x ← (← index args 0).Int other
    let y ← (← index args 1).Int other
    if y = 0 then .error .divideByZero
    else .ok (PackageResult true none (.int (Int.tmod x y)))

/-- The packaged result of the empty-arguments branch. -/
def emptyArguments : Packaged :=
  .json { Ok := false, Err := "参数不能为空!", Data := .null }

/-! ## A single caller publishing to one topic, next to the subscribers -/

/-- A goroutine that calls `Publish(topic, m)` for each `m` of a list, one call
after the other, next to the subscribers reading their inboxes; `pending` are
the messages of the calls it has not begun. -/
structure Caller where
  broker : Broker
  topic : String
  pending : List String

/-- The steps of the caller and of the subscribers. -/
inductive CallerAct where
  | publish
  | send
  | leave
  | receive (c : Nat)
  deriving DecidableEq, Repr

/-- One step, each a step of the broker:
* `publish`: the caller begins its next call of `Publish`; its previous call
  has returned (no call is in flight);
* `send`: its call executes `ch <- msg`;
* `leave`: its call returns;
* `receive c`: the owner of inbox `c` executes `<-ch`. -/
def Caller.step (s : Caller) : CallerAct → Option Caller
  | .publish =>
    match s.pending with
    | m :: rest =>
      if s.broker.readers.isEmpty then
        (s.broker.step (.enter s.topic m)).map
          (fun b => { s with broker := b, pending := rest })
      else none
    | [] => none
  | .send => (s.broker.step (.send 0)).map (fun b => { s with broker := b })
  | .leave => (s.broker.step (.leave 0)).map (fun b => { s with broker := b })
  | .receive c => (s.broker.step (.receive c)).map (fun b => { s with broker := b })

/-- The steps of a schedule taken one after the other. -/
def Caller.run (s : Caller) : List CallerAct → Option Caller
  | [] => some s
  | a :: rest => (s.step a).bind (fun s' => Caller.run s' rest)

/-- The caller about to publish `msgs` to `topic` on the broker `b`. -/
def Caller.start (b : Broker) (topic : String) (msgs : List String) : Caller :=
  { broker := b, topic := topic, pending := msgs }

/-- The messages read so far from inbox `c`, oldest first. -/
def Broker.readFrom (s : Broker) (c : Nat) : List String :=
  (s.reads.filter (fun e => e.1 = c)).map Prod.snd

/-- The messages held by inbox `c`, oldest first. -/
def Broker.inbox (s : Broker) (c : Nat) : List String :=
  match s.heap[c]? with
  | some ch => ch.buf
  | none => []

/-- The messages the caller has still to send to inbox `c`: that of its call
in flight while `c` is among the channels the loop has not reached, then the
pending ones. -/
def Caller.unsent (s : Caller) (c : Nat) : List String :=
  (s.broker.readers.filter (fun p => decide (c ∈ p.todo))).map (fun p => p.msg) ++ s.pending

/-- The loop of one call in which each subscriber reads its inbox right after
the send to it. -/
def sendAndRead : List Nat → List CallerAct
  | [] => []
  | c :: rest => .send :: .receive c :: sendAndRead rest

/-- A schedule in which every subscriber of `cs` consumes each message before
the next is published: `k` calls of `Publish`. -/
def servedRounds (cs : List Nat) : Nat → List CallerAct
  | 0 => []
  | k + 1 => [.publish] ++ sendAndRead cs ++ [.leave] ++ servedRounds cs k

/-- A schedule in which each call of `Publish` returns before the subscribers
of `cs` read: `k` calls of `Publish`. -/
def publishThenRead (cs : List Nat) : Nat → List CallerAct
  | 0 => []
  | k + 1 =>
    [.publish] ++ List.replicate cs.length .send ++ [.leave] ++ cs.map .receive
      ++ publishThenRead cs k

/-- What holds in every state of the caller publishing `msgs` to `t` on the
broker `b`: the registry is that of `b`, the inboxes are open channels of
capacity 1, at most one call is in flight and its loop has no inbox twice
ahead, and for each subscriber `c` of `t` the messages read from `c`, then
those in its inbox, then those still to be sent to it are what was read before
followed by `msgs`. -/
structure Caller.Inv (b : Broker) (t : String) (msgs : List String) (s : Caller) : Prop where
  topic : s.topic = t
  ps : s.broker.ps = b.ps
  inboxes : s.broker.Inboxes
  single : s.broker.readers.length ≤ 1
  nodup : ∀ p ∈ s.broker.readers, p.todo.Nodup
  ledger : ∀ c ∈ b.ps.lookup t,
    s.broker.readFrom c ++ s.broker.inbox c ++ s.unsent c = b.readFrom c ++ msgs

/-- A schedule that sets up two subscribers of `"news"` and one of `"sport"`. -/
def newsroomSetup : List BrokerAct :=
  [.subscribe "news", .subscribe "sport", .subscribe "news"]

/-- The zero-value broker `&PubSub{}`: the map is nil, `closed` is false. -/
def zeroBroker : PubSub :=
  { subs := none, closed := false }

/-- The literal `&PubSub{closed: true}`: the map is nil, the flag is set. -/
def closedZeroBroker : PubSub :=
  { subs := none, closed := true }

/-! ## Concrete heaps and brokers of the examples -/

/-- A heap with a single empty inbox. -/
def oneInbox : Heap := [Chan.make 1]

/-- A heap with two empty inboxes. -/
def twoInboxes : Heap := [Chan.make 1, Chan.make 1]

/-- A heap whose first inbox was closed by its owner. -/
def closedInbox : Heap := [{ cap := 1, buf := [], closed := true }, Chan.make 1]

/-- A heap whose only inbox holds an unread message. -/
def fullInbox : Heap := [{ cap := 1, buf := ["old"], closed := false }]

/-- A broker whose list for topic `"t"` holds the same inbox twice. -/
def twiceBroker : PubSub :=
  { subs := some (fun k => if k = "t" then some [0, 0] else none), closed := false }

/-- A broker with one inbox under `"news"` and another under `"sport"`. -/
def newsBroker : PubSub :=
  { subs := some (fun k =>
      if k = "news" then some [0] else if k = "sport" then some [1] else none),
    closed := false }

/-! ## Lemmas on the delivery loop -/

theorem send_of_room {α : Type} (ch : Chan α) (v : α) (ho : ch.closed = false)
    (hr : ch.buf.length < ch.cap) :
    ch.send v = .sent { ch with buf := ch.buf ++ [v] } := by
  simp [Chan.send, ho, hr]

theorem deliver_spec (msg : String) (l : List Nat) : ∀ (h : Heap) (log : List Nat),
    (∀ c ∈ l, ∃ ch, h[c]? = some ch ∧ ch.closed = false ∧
      ch.buf.length + l.count c ≤ ch.cap) →
    ∃ h', deliver msg l h log = .returned h' (log ++ l) ∧ h'.length = h.length ∧
      ∀ c : Nat, h'[c]? = (h[c]?).map
        (fun ch : Chan String =>
          { ch with buf := ch.buf ++ List.replicate (l.count c) msg }) := by
  induction l with
  | nil =>
    intro h log _
    refine ⟨h, by simp [deliver], rfl, ?_⟩
    intro c
    cases hc : h[c]? <;> simp
  | cons c rest ih =>
    intro h log hyp
    obtain ⟨ch, hch, hopen, hroom⟩ := hyp c (List.mem_cons_self _ _)
    have hlt : ch.buf.length < ch.cap := by
      have : 1 ≤ (c :: rest).count c := List.count_pos_iff.mpr (List.mem_cons_self _ _)
      omega
    have hclt : c < h.length := by
      rcases Nat.lt_or_ge c h.length with hlt' | hge
      · exact hlt'
      · rw [List.getElem?_eq_none hge] at hch; cases hch
    have hset : ∀ d, (h.set c { ch with buf := ch.buf ++ [msg] })[d]? =
        if d = c then some { ch with buf := ch.buf ++ [msg] } else h[d]? := by
      intro d
      by_cases hd : d = c
      · subst hd; simp [hclt]
      · have hne : c ≠ d := fun e => hd e.symm
        simp [hd, List.getElem?_set_ne hne]
    obtain ⟨h', hdel, hlen, hbuf⟩ := ih (h.set c { ch with buf := ch.buf ++ [msg] })
      (log ++ [c]) (by
        intro d hd
        by_cases hdc : d = c
        · subst hdc
          refine ⟨{ ch with buf := ch.buf ++ [msg] }, by rw [hset]; simp, hopen, ?_⟩
          simp only [List.count_cons_self, List.length_append, List.length_singleton] at hroom ⊢
          omega
        · obtain ⟨chd, h1, h2, h3⟩ := hyp d (List.mem_cons_of_mem _ hd)
          refine ⟨chd, by rw [hset]; simp [hdc, h1], h2, ?_⟩
          simpa [List.count_cons_of_ne hdc] using h3)
    refine ⟨h', ?_, by simpa using hlen, ?_⟩
    · simp [deliver, hch, send_of_room ch msg hopen hlt, hdel]
    · intro d
      rw [hbuf d, hset d]
      by_cases hdc : d = c
      · subst hdc
        simp [hch, List.replicate_succ]
      · simp [hdc, List.count_cons_of_ne hdc]

theorem getElem?_lt_length {α : Type} (l : List α) (i : Nat) (a : α)
    (h : l[i]? = some a) : i < l.length := by
  rcases Nat.lt_or_ge i l.length with hlt | hge
  · exact hlt
  · rw [List.getElem?_eq_none hge] at h; cases h

/-- On a made map `Subscribe` returns, with the new channel at the next heap
address and the map extended under the topic. -/
theorem Subscribe_made (h : Heap) (ps : PubSub) (t : String)
    (m : String → Option (List Nat)) (hm : ps.subs = some m) :
    Subscribe h ps t = some (h ++ [Chan.make 1],
      { ps with subs := some (fun k =>
          if k = t then some (ps.lookup t ++ [h.length]) else m k) },
      h.length) := by
  simp only [Subscribe, hm]

/-- A call of `Subscribe` that returns found a made map. -/
theorem Subscribe_some (h : Heap) (ps : PubSub) (t : String) (r : Heap × PubSub × Nat)
    (hr : Subscribe h ps t = some r) :
    ∃ m, ps.subs = some m ∧
      r = (h ++ [Chan.make 1],
        { ps with subs := some (fun k =>
            if k = t then some (ps.lookup t ++ [h.length]) else m k) },
        h.length) := by
  cases hm : ps.subs with
  | none => simp [Subscribe, hm] at hr
  | some m =>
    rw [Subscribe_made h ps t m hm] at hr
    cases hr
    exact ⟨m, rfl, rfl⟩

/-- On the nil map `Subscribe` panics. -/
theorem Subscribe_nil (h : Heap) (ps : PubSub) (t : String) (hm : ps.subs = none) :
    Subscribe h ps t = none := by
  simp only [Subscribe, hm]

/-- What a returned call of `Subscribe` leaves: the heap with one more channel,
`make(chan string, 1)`, at the returned address, the list of the topic with
that address appended, the other lists, the flag and the made map as before. -/
theorem Subscribe_result (h : Heap) (ps : PubSub) (t : String) (r : Heap × PubSub × Nat)
    (hr : Subscribe h ps t = some r) :
    r.1 = h ++ [Chan.make 1] ∧ r.2.2 = h.length ∧
    r.2.1.lookup t = ps.lookup t ++ [h.length] ∧
    (∀ t', t' ≠ t → r.2.1.lookup t' = ps.lookup t') ∧
    r.2.1.closed = ps.closed ∧ r.2.1.subs.isSome = true := by
  obtain ⟨m, hm, rfl⟩ := Subscribe_some h ps t r hr
  refine ⟨rfl, rfl, by simp [PubSub.lookup], ?_, rfl, rfl⟩
  intro t' hne
  simp [PubSub.lookup, hm, hne]

/-- A call of `Subscribe` that returns, seen from the sequence of calls. -/
theorem World.call_subscribe (w w' : World) (t : String)
    (hcall : w.call (.subscribe t) = some w') :
    ∃ r, Subscribe w.heap w.ps t = some r ∧ w' = { heap := r.1, ps := r.2.1 } := by
  simp only [World.call] at hcall
  cases hr : Subscribe w.heap w.ps t with
  | none => rw [hr] at hcall; cases hcall
  | some r =>
    rw [hr] at hcall
    cases hcall
    exact ⟨r, rfl, rfl⟩

/-- A step `subscribe` of the goroutine model: no call of `Publish` is in
flight and the call of `Subscribe` returns. -/
theorem Broker.step_subscribe (s s' : Broker) (t : String)
    (hstep : s.step (.subscribe t) = some s') :
    s.readers = [] ∧
    ∃ r, Subscribe s.heap s.ps t = some r ∧ s' = { s with heap := r.1, ps := r.2.1 } := by
  simp only [Broker.step] at hstep
  split at hstep
  · rename_i hempty
    cases hr : Subscribe s.heap s.ps t with
    | none => rw [hr] at hstep; cases hstep
    | some r =>
      rw [hr] at hstep
      cases hstep
      exact ⟨by simpa using hempty, r, rfl, rfl⟩
  · cases hstep

theorem subscribeTimes_spec (t : String) (k : Nat) : ∀ (h : Heap) (ps : PubSub),
    ps.subs.isSome = true →
    ∃ ps' : PubSub,
      subscribeTimes t k h ps
        = some (h ++ List.replicate k (Chan.make 1), ps', List.range' h.length k) ∧
      ps'.lookup t = ps.lookup t ++ List.range' h.length k ∧
      ps'.closed = ps.closed ∧ ps'.subs.isSome = true := by
  induction k with
  | zero => intro h ps hm; exact ⟨ps, by simp [subscribeTimes], by simp, rfl, hm⟩
  | succ k ih =>
    intro h ps hm
    obtain ⟨m, hsome⟩ := Option.isSome_iff_exists.mp hm
    have hsub := Subscribe_made h ps t m hsome
    obtain ⟨e1, e2, e3, _, e5, e6⟩ := Subscribe_result h ps t _ hsub
    obtain ⟨ps', h1, h2, h3, h4⟩ := ih (h ++ [Chan.make 1])
      { ps with subs := some (fun k =>
          if k = t then some (ps.lookup t ++ [h.length]) else m k) } e6
    refine ⟨ps', ?_, ?_, ?_, h4⟩
    · simp only [subscribeTimes, hsub, h1]
      simp [List.replicate_succ, List.range'_succ]
    · rw [h2, e3]
      simp [List.range'_succ]
    · rw [h3]

/-! ## The broker: claims C1 to C4 and C6 -/

/-- C1 as stated fails: with the same capacity-1 inbox listed twice under the
topic, the inbox has free space but `Publish` sends once and then is stuck in
the second send; and with a free inbox that its owner has closed, the send
panics. -/
theorem Publish_stuck_on_repeated_inbox :
    (twiceBroker.closed = false ∧
      (∀ c ∈ twiceBroker.lookup "t", ∃ ch : Chan String, oneInbox[c]? = some ch ∧
        ch.buf.length < ch.cap) ∧
      Publish oneInbox twiceBroker "t" "m"
        = .blocked [{ cap := 1, buf := ["m"], closed := false }] [0]) ∧
    (newsBroker.closed = false ∧
      (∀ c ∈ newsBroker.lookup "news", ∃ ch : Chan String,
        closedInbox[c]? = some ch ∧ ch.buf.length < ch.cap) ∧
      Publish closedInbox newsBroker "news" "m" = .panicked closedInbox []) := by
  refine ⟨⟨rfl, ?_, ?_⟩, rfl, ?_, ?_⟩
  · intro c hc
    simp [twiceBroker, PubSub.lookup] at hc
    subst hc
    exact ⟨Chan.make 1, rfl, by decide⟩
  · simp [Publish, twiceBroker, PubSub.lookup, deliver, Chan.send, Chan.make, oneInbox]
  · intro c hc
    simp [newsBroker, PubSub.lookup] at hc
    subst hc
    exact ⟨{ cap := 1, buf := [], closed := true }, rfl, by decide⟩
  · simp [Publish, newsBroker, PubSub.lookup, deliver, Chan.send, closedInbox]

/-- C1, amended: on an open broker, when every inbox listed under `t` is open
and has room for one message per entry it has in the list, `Publish(t, m)`
returns after sending `m` once per list entry in list order (`log`); every
channel ends with as many copies of `m` appended as it has entries under `t`,
so a channel that is not listed under `t` is unchanged. -/
theorem Publish_delivers_to_subscribers (h : Heap) (ps : PubSub) (t m : String)
    (hopen : ps.closed = false)
    (hroom : ∀ c ∈ ps.lookup t, ∃ ch, h[c]? = some ch ∧ ch.closed = false ∧
      ch.buf.length + (ps.lookup t).count c ≤ ch.cap) :
    ∃ h', Publish h ps t m = .returned h' (ps.lookup t) ∧ h'.length = h.length ∧
      (∀ c : Nat, h'[c]? = (h[c]?).map
        (fun ch : Chan String =>
          { ch with buf := ch.buf ++ List.replicate ((ps.lookup t).count c) m })) ∧
      (∀ c : Nat, c ∉ ps.lookup t → h'[c]? = h[c]?) := by
  obtain ⟨h', h1, h2, h3⟩ := deliver_spec m (ps.lookup t) h [] hroom
  refine ⟨h', by simpa [Publish, hopen] using h1, h2, h3, ?_⟩
  intro c hc
  rw [h3 c, List.count_eq_zero_of_not_mem hc]
  cases h[c]? <;> simp

/-- The amended C1 at a concrete broker: one inbox under `"news"`, one under
`"sport"`, both empty. -/
theorem Publish_delivers_to_subscribers_witness :
    ∃ h', Publish twoInboxes newsBroker "news" "m"
        = .returned h' (newsBroker.lookup "news") ∧
      h'.length = twoInboxes.length ∧
      (∀ c : Nat, h'[c]? = (twoInboxes[c]?).map
        (fun ch : Chan String =>
          { ch with buf := ch.buf ++ List.replicate ((newsBroker.lookup "news").count c) "m" })) ∧
      (∀ c : Nat, c ∉ newsBroker.lookup "news" → h'[c]? = twoInboxes[c]?) :=
  Publish_delivers_to_subscribers twoInboxes newsBroker "news" "m" rfl (by
    intro c hc
    simp [newsBroker, PubSub.lookup] at hc
    subst hc
    exact ⟨Chan.make 1, rfl, rfl, by decide⟩)

/-- C2 as stated fails: on the zero-value broker `&PubSub{}`, whose map is
nil, `Subscribe` panics at the assignment to the map entry, for every heap and
topic: it returns no inbox and registers nothing. -/
theorem Subscribe_panics_on_nil_map :
    zeroBroker.subs = none ∧ zeroBroker.closed = false ∧
    Subscribe [] zeroBroker "news" = none ∧
    (∀ (h : Heap) (t : String), Subscribe h zeroBroker t = none) ∧
    ¬ ∃ r, Subscribe [] zeroBroker "news" = some r := by
  refine ⟨rfl, rfl, rfl, fun h t => Subscribe_nil h zeroBroker t rfl, ?_⟩
  rintro ⟨r, hr⟩
  cases hr

/-- C2, amended: on every broker state whose map has been made (`m`), as
`NewPubSub` makes it, `Subscribe(t)` returns a channel that was not allocated
before, so it differs from every channel held by the registry; the channel is
empty, open and of capacity 1; it is appended at the end of the list of `t` (the
entry is created with that single channel when `t` had none); every other entry
of the map, the flag `closed` and every channel allocated before are
unchanged. -/
theorem Subscribe_appends_fresh_inbox (h : Heap) (ps : PubSub) (t : String)
    (m : String → Option (List Nat)) (hm : ps.subs = some m) :
    ∃ r : Heap × PubSub × Nat, Subscribe h ps t = some r ∧
      h[r.2.2]? = none ∧
      (∀ (t' : String) (c : Nat), c ∈ ps.lookup t' → (h[c]?).isSome → c ≠ r.2.2) ∧
      r.1[r.2.2]? = some { cap := 1, buf := [], closed := false } ∧
      (∃ m', r.2.1.subs = some m' ∧ m' t = some (ps.lookup t ++ [r.2.2]) ∧
        (m t = none → m' t = some [r.2.2]) ∧ (∀ t', t' ≠ t → m' t' = m t')) ∧
      r.2.1.lookup t = ps.lookup t ++ [r.2.2] ∧
      (r.2.1.lookup t).length = (ps.lookup t).length + 1 ∧
      (∀ t', t' ≠ t → r.2.1.lookup t' = ps.lookup t') ∧
      r.2.1.closed = ps.closed ∧
      (∀ (c : Nat) (ch : Chan String), h[c]? = some ch → r.1[c]? = some ch) := by
  refine ⟨_, Subscribe_made h ps t m hm, by simp, ?_, by simp [Chan.make], ?_,
    by simp [PubSub.lookup], by simp [PubSub.lookup], ?_, rfl, ?_⟩
  · intro t' c _ hc heq
    simp only at heq
    subst heq
    simp at hc
  · refine ⟨_, rfl, by simp, ?_, ?_⟩
    · intro hnone
      simp [PubSub.lookup, hm, hnone]
    · intro t' hne
      simp [hne]
  · intro t' hne
    simp [PubSub.lookup, hm, hne]
  · intro c ch hc
    have hlt : c < h.length := getElem?_lt_length _ _ _ hc
    simp only
    rw [List.getElem?_append_left hlt]
    exact hc

/-- The amended C2 on the fresh broker of `NewPubSub` and on a broker that
already lists an inbox under `"news"`. -/
theorem Subscribe_appends_fresh_inbox_witness :
    (∃ r : Heap × PubSub × Nat, Subscribe [] NewPubSub "news" = some r ∧
      r.2.1.lookup "news" = [r.2.2] ∧ r.2.2 = 0) ∧
    (∃ r : Heap × PubSub × Nat, Subscribe [Chan.make 1, Chan.make 1] newsBroker "news" = some r ∧
      r.2.1.lookup "news" = [0, r.2.2] ∧ r.2.1.lookup "sport" = [1] ∧ r.2.2 = 2) :=
  ⟨(Subscribe_appends_fresh_inbox [] NewPubSub "news" (fun _ => none) rfl).imp
      (fun r hr => ⟨hr.1, hr.2.2.2.2.2.1, by
        have h1 := hr.1
        simp only [Subscribe, NewPubSub] at h1
        cases h1
        rfl⟩),
   (Subscribe_appends_fresh_inbox [Chan.make 1, Chan.make 1] newsBroker "news"
      (fun k => if k = "news" then some [0] else if k = "sport" then some [1] else none)
      rfl).imp
      (fun r hr => ⟨hr.1, hr.2.2.2.2.2.1, hr.2.2.2.2.2.2.2.1 "sport" (by decide), by
        have h1 := hr.1
        simp only [Subscribe, newsBroker] at h1
        cases h1
        rfl⟩)⟩

/-- C3: on a fresh broker, over any heap, `k` calls of `Subscribe(t)` return
`k` pairwise distinct channels (the next `k` addresses of the heap), and one
`Publish(t, m)` after them returns having sent to exactly these channels in
subscription order; each of them then holds the single message `m`. -/
theorem subscribe_then_publish_fills_each_inbox (h0 : Heap) (t m : String) (k : Nat) :
    ∃ ps1 : PubSub,
      subscribeTimes t k h0 NewPubSub
        = some (h0 ++ List.replicate k (Chan.make 1), ps1, List.range' h0.length k) ∧
      (List.range' h0.length k).length = k ∧
      (List.range' h0.length k).Nodup ∧
      ∃ h', Publish (h0 ++ List.replicate k (Chan.make 1)) ps1 t m
          = .returned h' (List.range' h0.length k) ∧
        ∀ c ∈ List.range' h0.length k,
          h'[c]? = some { cap := 1, buf := [m], closed := false } := by
  obtain ⟨ps1, e1, e3, e4, _⟩ := subscribeTimes_spec t k h0 NewPubSub rfl
  have hlook : ps1.lookup t = List.range' h0.length k := by
    rw [e3]; simp [NewPubSub, PubSub.lookup]
  have hget : ∀ c ∈ List.range' h0.length k,
      (h0 ++ List.replicate k (Chan.make 1 : Chan String))[c]? = some (Chan.make 1) := by
    intro c hc
    rw [List.mem_range'_1] at hc
    rw [List.getElem?_append_right hc.1, List.getElem?_replicate]
    have : c - h0.length < k := by omega
    simp [this]
  have hcount : ∀ c ∈ List.range' h0.length k, (List.range' h0.length k).count c = 1 :=
    fun c hc => List.count_eq_one_of_mem (List.nodup_range' _ _) hc
  obtain ⟨h', h1, _, h3⟩ := deliver_spec m (List.range' h0.length k)
    (h0 ++ List.replicate k (Chan.make 1)) [] (by
      intro c hc
      refine ⟨Chan.make 1, hget c hc, rfl, ?_⟩
      rw [hcount c hc]; decide)
  refine ⟨ps1, e1, by simp, List.nodup_range' _ _, h', ?_, ?_⟩
  · simp only [Publish, e4, hlook]
    simpa [NewPubSub] using h1
  · intro c hc
    rw [h3 c, hget c hc, hcount c hc]
    simp [Chan.make]

/-- C3 on the scenario of the spec: two subscribers of `"news"` on a fresh
broker, one `Publish` of `"breaking"`; both inboxes hold exactly that message. -/
theorem subscribe_then_publish_fills_each_inbox_witness :
    ∃ ps1 : PubSub,
      subscribeTimes "news" 2 [] NewPubSub = some ([Chan.make 1, Chan.make 1], ps1, [0, 1]) ∧
      [0, 1].length = 2 ∧ [0, 1].Nodup ∧
      ∃ h', Publish [Chan.make 1, Chan.make 1] ps1 "news" "breaking" = .returned h' [0, 1] ∧
        ∀ c ∈ [0, 1], h'[c]? = some { cap := 1, buf := ["breaking"], closed := false } :=
  subscribe_then_publish_fills_each_inbox [] "news" "breaking" 2

/-- C4: on a closed broker `Publish` returns at once: no send is made, the heap
is the one it found (no inbox receives the message), and the call leaves the
broker as it was; it neither blocks nor panics. -/
theorem Publish_on_closed_broker_is_noop (h : Heap) (ps : PubSub) (t m : String)
    (hclosed : ps.closed = true) :
    Publish h ps t m = .returned h [] ∧
    World.call { heap := h, ps := ps } (.publish t m) = some { heap := h, ps := ps } := by
  simp [Publish, World.call, hclosed]

/-- C4 at a concrete closed broker with one subscriber whose inbox is full. -/
theorem Publish_on_closed_broker_is_noop_witness :
    Publish fullInbox { subs := some (fun _ => some [0]), closed := true } "news" "m"
      = .returned fullInbox [] ∧
    World.call { heap := fullInbox, ps := { subs := some (fun _ => some [0]), closed := true } }
        (.publish "news" "m")
      = some { heap := fullInbox, ps := { subs := some (fun _ => some [0]), closed := true } } :=
  Publish_on_closed_broker_is_noop fullInbox { subs := some (fun _ => some [0]), closed := true }
    "news" "m" rfl

/-- C6: for every broker state with `closed = true` and every call of
`Subscribe` or `Publish`, `closed` is true after the call: no method writes the
flag, so no call leads from closed to open.  `Publish` returns at once, leaving
the broker as it was; `Subscribe` returns, with the flag still set, exactly when
the map was made; on the nil map (a closed broker written as a literal without
`subs`) it panics at the map assignment. -/
theorem closed_is_terminal (w : World) (op : Op) (hclosed : w.ps.closed = true) :
    (∀ w', w.call op = some w' → w'.ps.closed = true) ∧
    (¬ ∃ w', w.call op = some w' ∧ w'.ps.closed = false) ∧
    (∀ t m : String, w.call (.publish t m) = some w) ∧
    (∀ t : String, (w.call (.subscribe t)).isSome = w.ps.subs.isSome) ∧
    (w.ps.subs.isSome = true → ∃ w', w.call op = some w' ∧ w'.ps.closed = true) := by
  have hkeeps : ∀ w', w.call op = some w' → w'.ps.closed = true := by
    intro w' hcall
    cases op with
    | subscribe topic =>
      obtain ⟨r, hr, rfl⟩ := World.call_subscribe w w' topic hcall
      rw [← hclosed]
      exact (Subscribe_result w.heap w.ps topic r hr).2.2.2.2.1
    | publish topic msg =>
      simp only [World.call, Publish, hclosed, if_true, Option.some.injEq] at hcall
      rw [← hcall]
      exact hclosed
  have hpub : ∀ t m : String, w.call (.publish t m) = some w := by
    intro t m
    simp [World.call, Publish, hclosed]
  refine ⟨hkeeps, ?_, hpub, ?_, ?_⟩
  · rintro ⟨w', hcall, hopen⟩
    rw [hkeeps w' hcall] at hopen
    cases hopen
  · intro t
    cases hm : w.ps.subs with
    | none => simp [World.call, Subscribe_nil w.heap w.ps t hm]
    | some m => simp [World.call, Subscribe_made w.heap w.ps t m hm]
  · intro hmade
    obtain ⟨m, hm⟩ := Option.isSome_iff_exists.mp hmade
    cases op with
    | subscribe topic =>
      have hcall : w.call (.subscribe topic) = some
          { heap := w.heap ++ [Chan.make 1],
            ps := { w.ps with subs := some (fun k =>
              if k = topic then some (w.ps.lookup topic ++ [w.heap.length]) else m k) } } := by
        simp [World.call, Subscribe_made w.heap w.ps topic m hm]
      exact ⟨_, hcall, hkeeps _ hcall⟩
    | publish topic msg => exact ⟨w, hpub topic msg, hclosed⟩

/-- C6 at a closed broker with a made map, where `Subscribe` returns and the
flag stays set, and at the literal `&PubSub{closed: true}`, where `Subscribe`
panics and `Publish` returns at once. -/
theorem closed_is_terminal_witness :
    (∃ w', World.call { heap := [], ps := { subs := some (fun _ => none), closed := true } }
        (.subscribe "news") = some w' ∧ w'.ps.closed = true) ∧
    World.call { heap := [], ps := closedZeroBroker } (.subscribe "news") = none ∧
    World.call { heap := [], ps := closedZeroBroker } (.publish "news" "m")
      = some { heap := [], ps := closedZeroBroker } :=
  ⟨(closed_is_terminal { heap := [], ps := { subs := some (fun _ => none), closed := true } }
      (.subscribe "news") rfl).2.2.2.2 rfl,
   rfl,
   (closed_is_terminal { heap := [], ps := closedZeroBroker } (.subscribe "news") rfl).2.2.1
      "news" "m"⟩

/-! ## The broker with its goroutines: claim C5 -/

theorem Broker.step_inboxes (s s' : Broker) (a : BrokerAct) (hinv : s.Inboxes)
    (hstep : s.step a = some s') : s'.Inboxes := by
  cases a with
  | subscribe topic =>
    obtain ⟨_, r, hr, rfl⟩ := Broker.step_subscribe s s' topic hstep
    intro ch hch
    simp only [(Subscribe_result s.heap s.ps topic r hr).1, List.mem_append,
      List.mem_singleton] at hch
    rcases hch with hch | hch
    · exact hinv ch hch
    · subst hch; simp [Chan.make]
  | enter topic msg =>
    simp only [Broker.step] at hstep
    split at hstep <;> cases hstep <;> exact hinv
  | send i =>
    simp only [Broker.step] at hstep
    split at hstep
    · rename_i m c rest _
      split at hstep
      · rename_i ch hch
        have hmem : ch ∈ s.heap := List.getElem?_mem hch
        obtain ⟨hcap, hopen, _⟩ := hinv ch hmem
        split at hstep
        · rename_i ch' hsend
          cases hstep
          intro x hx
          rcases List.mem_or_eq_of_mem_set hx with hx | hx
          · exact hinv x hx
          · subst hx
            by_cases hlt : ch.buf.length < ch.cap
            · simp [Chan.send, hopen, hlt] at hsend
              subst hsend
              refine ⟨hcap, by simp, ?_⟩
              simp only [List.length_append, List.length_singleton]
              omega
            · simp [Chan.send, hopen, hlt] at hsend
        · cases hstep
        · cases hstep
      · cases hstep
    · cases hstep
  | leave i =>
    simp only [Broker.step] at hstep
    split at hstep
    · cases hstep; exact hinv
    · cases hstep
  | receive c =>
    simp only [Broker.step] at hstep
    split at hstep
    · rename_i ch hch
      have hmem : ch ∈ s.heap := List.getElem?_mem hch
      obtain ⟨hcap, hopen, hlen⟩ := hinv ch hmem
      split at hstep
      · rename_i v ok ch' hrecv
        cases hstep
        intro x hx
        rcases List.mem_or_eq_of_mem_set hx with hx | hx
        · exact hinv x hx
        · subst hx
          simp only [Chan.recv] at hrecv
          split at hrecv
          · rename_i v' rest hbuf
            cases hrecv
            rw [hbuf] at hlen
            simp only [List.length_cons] at hlen
            exact ⟨hcap, hopen, by simp; omega⟩
          · rw [hopen] at hrecv; cases hrecv
      · cases hstep
    · cases hstep

theorem Broker.run_inboxes (acts : List BrokerAct) : ∀ (s s' : Broker), s.Inboxes →
    s.run acts = some s' → s'.Inboxes := by
  induction acts with
  | nil => intro s s' hinv hrun; cases hrun; exact hinv
  | cons a rest ih =>
    intro s s' hinv hrun
    simp only [Broker.run] at hrun
    cases hstep : s.step a with
    | none => rw [hstep] at hrun; cases hrun
    | some s1 =>
      rw [hstep] at hrun
      exact ih s1 s' (Broker.step_inboxes s s1 a hinv hstep) hrun

theorem Broker.init_inboxes : Broker.init.Inboxes := by
  intro ch hch
  simp [Broker.init] at hch

theorem Broker.step_keeps_held (s s' : Broker) (a : BrokerAct) (c : Nat) (ch : Chan String)
    (hinv : s.Inboxes) (hch : s.heap[c]? = some ch) (hheld : ch.buf ≠ [])
    (ha : a ≠ .receive c) (hstep : s.step a = some s') : s'.heap[c]? = some ch := by
  have hclt : c < s.heap.length := getElem?_lt_length _ _ _ hch
  obtain ⟨hcap, hopen, hlen⟩ := hinv ch (List.getElem?_mem hch)
  have hfull : ¬ ch.buf.length < ch.cap := by
    have : 0 < ch.buf.length := List.length_pos.mpr hheld
    omega
  cases a with
  | subscribe topic =>
    obtain ⟨_, r, hr, rfl⟩ := Broker.step_subscribe s s' topic hstep
    simp only [(Subscribe_result s.heap s.ps topic r hr).1]
    rw [List.getElem?_append_left hclt]
    exact hch
  | enter topic msg =>
    simp only [Broker.step] at hstep
    split at hstep <;> cases hstep <;> exact hch
  | send i =>
    simp only [Broker.step] at hstep
    split at hstep
    · rename_i m d rest _
      split at hstep
      · rename_i chd hchd
        split at hstep
        · rename_i ch' hsend
          cases hstep
          by_cases hdc : d = c
          · subst hdc
            rw [hch] at hchd
            cases hchd
            simp [Chan.send, hopen, hfull] at hsend
          · simp only
            rw [List.getElem?_set_ne hdc]
            exact hch
        · cases hstep
        · cases hstep
      · cases hstep
    · cases hstep
  | leave i =>
    simp only [Broker.step] at hstep
    split at hstep
    · cases hstep; exact hch
    · cases hstep
  | receive d =>
    have hdc : d ≠ c := fun e => ha (by rw [e])
    simp only [Broker.step] at hstep
    split at hstep
    · split at hstep
      · cases hstep
        simp only
        rw [List.getElem?_set_ne hdc]
        exact hch
      · cases hstep
    · cases hstep

/-- C5: in every state that the broker and its goroutines reach from
`NewPubSub` under any schedule, (1) every inbox has capacity 1 and holds at
most one message; (2) a call of `Publish` whose next send goes to an inbox that
holds a message cannot take that step: the send blocks; (3) no step other than
the owner's receive on that inbox changes it, so the held message is neither
dropped nor overwritten and the send stays blocked until the message is read;
(4) the receive hands the held message to the reader and empties the inbox. -/
theorem Publish_blocks_until_inbox_is_read (acts : List BrokerAct) (s : Broker)
    (hrun : Broker.init.run acts = some s) :
    (∀ ch ∈ s.heap, ch.cap = 1 ∧ ch.buf.length ≤ 1) ∧
    (∀ (i : Nat) (m : String) (c : Nat) (rest : List Nat) (ch : Chan String),
      s.readers[i]? = some { msg := m, todo := c :: rest } → s.heap[c]? = some ch →
      ch.buf ≠ [] → ch.send m = .blocks ∧ s.step (.send i) = none) ∧
    (∀ (c : Nat) (ch : Chan String) (a : BrokerAct) (s' : Broker),
      s.heap[c]? = some ch → ch.buf ≠ [] → a ≠ .receive c → s.step a = some s' →
      s'.heap[c]? = some ch) ∧
    (∀ (c : Nat) (ch : Chan String), s.heap[c]? = some ch → ch.buf ≠ [] →
      ∃ m s', ch.buf = [m] ∧ s.step (.receive c) = some s' ∧
        s'.reads = s.reads ++ [(c, m)] ∧ s'.heap[c]? = some { ch with buf := [] }) := by
  have hinv : s.Inboxes := Broker.run_inboxes acts _ s Broker.init_inboxes hrun
  refine ⟨fun ch hch => ⟨(hinv ch hch).1, (hinv ch hch).2.2⟩, ?_, ?_, ?_⟩
  · intro i m c rest ch hi hch hheld
    obtain ⟨hcap, hopen, hlen⟩ := hinv ch (List.getElem?_mem hch)
    have hfull : ¬ ch.buf.length < ch.cap := by
      have : 0 < ch.buf.length := List.length_pos.mpr hheld
      omega
    have hsend : ch.send m = .blocks := by simp [Chan.send, hopen, hfull]
    exact ⟨hsend, by simp [Broker.step, hi, hch, hsend]⟩
  · intro c ch a s' hch hheld ha hstep
    exact Broker.step_keeps_held s s' a c ch hinv hch hheld ha hstep
  · intro c ch hch hheld
    obtain ⟨hcap, hopen, hlen⟩ := hinv ch (List.getElem?_mem hch)
    have hclt : c < s.heap.length := getElem?_lt_length _ _ _ hch
    cases hbuf : ch.buf with
    | nil => exact absurd hbuf hheld
    | cons m rest =>
      have hrest : rest = [] := by
        rw [hbuf] at hlen
        simp only [List.length_cons] at hlen
        exact List.length_eq_zero.mp (by omega)
      subst hrest
      refine ⟨m, { s with heap := s.heap.set c { ch with buf := [] },
                          reads := s.reads ++ [(c, m)] }, rfl, ?_, rfl, ?_⟩
      · simp only [Broker.step, hch, Chan.recv, hbuf]
      · simp [hclt]

/-- C5 on the schedule of the spec scenario: after `"m1"` was published to the
only subscriber of `"x"` and not read, a second `Publish` is in flight. -/
theorem Publish_blocks_until_inbox_is_read_witness :
    ∃ s, Broker.init.run twoPublishes = some s ∧
      s.heap = [{ cap := 1, buf := ["m1"], closed := false }] ∧
      s.step (.send 0) = none ∧
      (∀ ch ∈ s.heap, ch.cap = 1 ∧ ch.buf.length ≤ 1) :=
  ⟨_, rfl, by simp [Subscribe, Chan.make, Broker.init], by
      simp [Broker.step, Subscribe, Chan.make, Broker.init, Chan.send, PubSub.lookup, NewPubSub],
    (Publish_blocks_until_inbox_is_read twoPublishes _ rfl).1⟩

/-! ## Channel operations, inverted -/

theorem Chan.send_eq_sent {α : Type} (ch c : Chan α) (v : α) (h : ch.send v = .sent c) :
    ch.closed = false ∧ ch.buf.length < ch.cap ∧ c = { ch with buf := ch.buf ++ [v] } := by
  unfold Chan.send at h
  by_cases hc : ch.closed = true
  · simp [hc] at h
  · by_cases hl : ch.buf.length < ch.cap
    · have hc' : ch.closed = false := by simpa using hc
      simp only [hc', hl, if_true, Bool.false_eq_true, if_false, SendResult.sent.injEq] at h
      exact ⟨hc', hl, by rw [← h, hc']⟩
    · simp [hc, hl] at h

theorem Chan.recv_eq_got {α : Type} [Inhabited α] (ch c : Chan α) (v : α) (ok : Bool)
    (h : ch.recv = .got v ok c) :
    (ok = true ∧ ∃ rest, ch.buf = v :: rest ∧ c = { ch with buf := rest }) ∨
    (ok = false ∧ ch.buf = [] ∧ ch.closed = true ∧ c = ch ∧ v = default) := by
  unfold Chan.recv at h
  cases hb : ch.buf with
  | nil =>
    rw [hb] at h
    by_cases hc : ch.closed = true
    · simp [hc] at h
      exact Or.inr ⟨h.2.1, rfl, hc, h.2.2.symm, h.1.symm⟩
    · simp [hc] at h
  | cons w rest =>
    rw [hb] at h
    simp at h
    exact Or.inl ⟨h.2.1, rest, by rw [h.1], h.2.2.symm⟩

theorem Chan.close_eq_some {α : Type} (ch c : Chan α) (h : ch.close = some c) :
    ch.closed = false ∧ c = { ch with closed := true } := by
  unfold Chan.close at h
  by_cases hc : ch.closed = true
  · simp [hc] at h
  · simp [hc] at h
    exact ⟨by simpa using hc, h.symm⟩

/-! ## The steps of the pool, inverted -/

theorem Pool.step_mainSend (s s' : Pool) (h : s.step .mainSend = some s') :
    ∃ j rest, s.toSend = j :: rest ∧ s.jobs.closed = false ∧
      s.jobs.buf.length < s.jobs.cap ∧
      s' = { s with jobs := { s.jobs with buf := s.jobs.buf ++ [j] }, toSend := rest } := by
  simp only [Pool.step] at h
  split at h
  · rename_i j rest hts
    split at h
    · rename_i c hsend
      obtain ⟨h1, h2, h3⟩ := Chan.send_eq_sent _ _ _ hsend
      cases h
      exact ⟨j, rest, hts, h1, h2, by rw [h3]⟩
    · cases h
    · cases h
  · cases h

theorem Pool.step_mainClose (s s' : Pool) (h : s.step .mainClose = some s') :
    s.toSend = [] ∧ s.jobs.closed = false ∧
      s' = { s with jobs := { s.jobs with closed := true } } := by
  simp only [Pool.step] at h
  split at h
  · rename_i hts
    cases hc : s.jobs.close with
    | none => rw [hc] at h; cases h
    | some c =>
      rw [hc] at h
      obtain ⟨h1, h2⟩ := Chan.close_eq_some _ _ hc
      cases h
      exact ⟨hts, h1, by rw [h2]⟩
  · cases h

theorem Pool.step_mainCollect (s s' : Pool) (h : s.step .mainCollect = some s') :
    s.jobs.closed = true ∧ 0 < s.toCollect ∧
    ((∃ v rest, s.results.buf = v :: rest ∧
        s' = { s with results := { s.results with buf := rest },
                      toCollect := s.toCollect - 1, collected := s.collected ++ [v] }) ∨
      (s.results.buf = [] ∧ s.results.closed = true)) := by
  simp only [Pool.step] at h
  split at h
  · rename_i hen
    split at h
    · rename_i v ok c hrecv
      cases h
      rcases Chan.recv_eq_got _ _ _ _ hrecv with ⟨_, rest, h1, h2⟩ | ⟨_, h1, h2, _, _⟩
      · exact ⟨hen.1, hen.2, Or.inl ⟨v, rest, h1, by rw [h2]⟩⟩
      · exact ⟨hen.1, hen.2, Or.inr ⟨h1, h2⟩⟩
    · cases h
  · cases h

theorem Pool.step_claim (s s' : Pool) (i : Nat) (h : s.step (.claim i) = some s') :
    s.workers[i]? = some .waiting ∧
    ((∃ j rest, s.jobs.buf = j :: rest ∧
        s' = { s with jobs := { s.jobs with buf := rest },
                      workers := s.workers.set i (.holding j),
                      claims := s.claims ++ [(i, j)] }) ∨
      (s.jobs.buf = [] ∧ s.jobs.closed = true ∧
        s' = { s with workers := s.workers.set i .done })) := by
  simp only [Pool.step] at h
  split at h
  · rename_i hw
    split at h
    · rename_i j c hrecv
      cases h
      rcases Chan.recv_eq_got _ _ _ _ hrecv with ⟨_, rest, h1, h2⟩ | ⟨hf, _⟩
      · exact ⟨hw, Or.inl ⟨j, rest, h1, by rw [h2]⟩⟩
      · cases hf
    · rename_i j c hrecv
      cases h
      rcases Chan.recv_eq_got _ _ _ _ hrecv with ⟨hf, _⟩ | ⟨_, h1, h2, _, _⟩
      · cases hf
      · exact ⟨hw, Or.inr ⟨h1, h2, rfl⟩⟩
    · cases h
  · cases h

theorem Pool.step_emit (s s' : Pool) (i : Nat) (h : s.step (.emit i) = some s') :
    ∃ j, s.workers[i]? = some (.holding j) ∧ s.results.closed = false ∧
      s.results.buf.length < s.results.cap ∧
      s' = { s with results := { s.results with buf := s.results.buf ++ [double j] },
                    workers := s.workers.set i .waiting } := by
  simp only [Pool.step] at h
  split at h
  · rename_i j hw
    split at h
    · rename_i c hsend
      obtain ⟨h1, h2, h3⟩ := Chan.send_eq_sent _ _ _ hsend
      cases h
      exact ⟨j, hw, h1, h2, by rw [h3]⟩
    · cases h
    · cases h
  · cases h

/-! ## The invariant of the pool -/

theorem held_set (ws : List Stage) : ∀ (i : Nat) (a b : Stage), ws[i]? = some a →
    (held (ws.set i b) ++ a.job).Perm (held ws ++ b.job) := by
  induction ws with
  | nil => intro i a b h; simp at h
  | cons w rest ih =>
    intro i a b h
    cases i with
    | zero =>
      simp only [List.getElem?_cons_zero, Option.some.injEq] at h
      subst h
      simp only [List.set_cons_zero, held]
      calc (b.job ++ held rest ++ w.job).Perm (b.job ++ (held rest ++ w.job)) := by simp
        _ |>.Perm (b.job ++ (w.job ++ held rest)) := List.Perm.append_left _ List.perm_append_comm
        _ |>.Perm ((w.job ++ held rest) ++ b.job) := List.perm_append_comm
    | succ k =>
      simp only [List.getElem?_cons_succ] at h
      simp only [List.set_cons_succ, held, List.append_assoc]
      exact List.Perm.append_left _ (ih k a b h)

theorem weight_set (ws : List Stage) : ∀ (i : Nat) (a b : Stage), ws[i]? = some a →
    ((ws.set i b).map Stage.weight).sum + a.weight = (ws.map Stage.weight).sum + b.weight := by
  induction ws with
  | nil => intro i a b h; simp at h
  | cons w rest ih =>
    intro i a b h
    cases i with
    | zero =>
      simp only [List.getElem?_cons_zero, Option.some.injEq] at h
      subst h
      simp only [List.set_cons_zero, List.map_cons, List.sum_cons]
      omega
    | succ k =>
      simp only [List.getElem?_cons_succ] at h
      have := ih k a b h
      simp only [List.set_cons_succ, List.map_cons, List.sum_cons]
      omega

theorem held_of_all_done (ws : List Stage) (h : ∀ st ∈ ws, st = Stage.done) : held ws = [] := by
  induction ws with
  | nil => rfl
  | cons w rest ih =>
    have hw : w = Stage.done := h w (List.mem_cons_self _ _)
    subst hw
    simp only [held, Stage.job, List.nil_append]
    exact ih (fun st hst => h st (List.mem_cons_of_mem _ hst))

theorem Pool.init_inv (n : Nat) (js : List Int) : Pool.Inv n js (Pool.init n js) := by
  have hheld : ∀ k : Nat, held (List.replicate k Stage.waiting) = [] := by
    intro k
    induction k with
    | zero => rfl
    | succ k ih => simp [List.replicate_succ, held, Stage.job, ih]
  refine ⟨?_, ?_, ?_, ?_, ?_, ?_, ?_, ?_, rfl⟩
  · simp [Pool.ledger, Pool.init, Chan.make, hheld]
  · simp [Pool.init, Chan.make]
  · simp [Pool.init]
  · intro e he; simp [Pool.init] at he
  · simp [Pool.init]
  · intro h
    simp only [Pool.init] at h
    have := List.eq_of_mem_replicate h
    cases this
  · intro h; simp [Pool.init, Chan.make] at h
  · simp [Pool.init, Chan.make]

theorem mem_of_mem_set_ne {α : Type} (l : List α) (i : Nat) (a x : α)
    (hx : x ∈ l.set i a) (hne : x ≠ a) : x ∈ l := by
  rcases List.mem_or_eq_of_mem_set hx with h | h
  · exact h
  · exact absurd h hne

theorem Pool.step_inv (n : Nat) (js : List Int) (s s' : Pool) (a : PoolAct)
    (inv : Pool.Inv n js s) (hstep : s.step a = some s') : Pool.Inv n js s' := by
  cases a with
  | mainSend =>
    obtain ⟨j, rest, hts, hopen, _, rfl⟩ := Pool.step_mainSend s s' hstep
    refine ⟨?_, ?_, inv.size, inv.owner, inv.count, ?_, ?_, inv.results, inv.room⟩
    · have hl := inv.ledger
      simp only [Pool.ledger, hts, List.append_assoc, List.map_append, List.map_cons,
        List.map_nil, List.singleton_append] at hl ⊢
      exact hl
    · have := inv.order
      rw [hts] at this
      simpa using this
    · intro hd
      have := (inv.finished hd).1
      rw [hopen] at this; cases this
    · intro hc
      simp only at hc
      rw [hopen] at hc; cases hc
  | mainClose =>
    obtain ⟨hts, hopen, rfl⟩ := Pool.step_mainClose s s' hstep
    refine ⟨inv.ledger, inv.order, inv.size, inv.owner, inv.count, ?_, fun _ => hts,
      inv.results, inv.room⟩
    intro hd
    have := (inv.finished hd).1
    rw [hopen] at this; cases this
  | mainCollect =>
    obtain ⟨_, hpos, hcase⟩ := Pool.step_mainCollect s s' hstep
    rcases hcase with ⟨v, rest, hbuf, rfl⟩ | ⟨_, hclosed⟩
    · refine ⟨?_, inv.order, inv.size, inv.owner, ?_, inv.finished, inv.sending, inv.results, inv.room⟩
      · have hl := inv.ledger
        simp only [Pool.ledger, hbuf, List.append_assoc, List.map_append, List.cons_append,
          List.singleton_append, List.nil_append] at hl ⊢
        exact hl
      · have := inv.count
        simp only [List.length_append, List.length_singleton]
        omega
    · have := inv.results.1
      rw [hclosed] at this; cases this
  | claim i =>
    obtain ⟨hw, hcase⟩ := Pool.step_claim s s' i hstep
    have hi : i < n := by
      have := getElem?_lt_length _ _ _ hw
      rw [inv.size] at this; exact this
    rcases hcase with ⟨j, rest, hbuf, rfl⟩ | ⟨hbuf, hclosed, rfl⟩
    · refine ⟨?_, ?_, by simpa using inv.size, ?_, inv.count, ?_, inv.sending, inv.results, inv.room⟩
      · have hh : (held (s.workers.set i (.holding j))).Perm (held s.workers ++ [j]) := by
          simpa [Stage.job] using held_set s.workers i .waiting (.holding j) hw
        have hp : (held (s.workers.set i (.holding j)) ++ rest ++ s.toSend).Perm
            (held s.workers ++ s.jobs.buf ++ s.toSend) := by
          rw [hbuf]
          refine List.Perm.append_right _ ?_
          have := List.Perm.append_right rest hh
          simpa using this
        exact (List.Perm.append_left _ (List.Perm.map double hp)).trans inv.ledger
      · have := inv.order
        rw [hbuf] at this
        simpa using this
      · intro e he
        simp only [List.mem_append, List.mem_singleton] at he
        rcases he with he | he
        · exact inv.owner e he
        · subst he; exact hi
      · intro hd
        have hd' : Stage.done ∈ s.workers :=
          mem_of_mem_set_ne _ _ _ _ hd (by intro h; cases h)
        have := (inv.finished hd').2
        rw [hbuf] at this; cases this
    · refine ⟨?_, inv.order, by simpa using inv.size, inv.owner, inv.count,
        fun _ => ⟨hclosed, hbuf⟩, inv.sending, inv.results, inv.room⟩
      have hh : (held (s.workers.set i .done)).Perm (held s.workers) := by
        simpa [Stage.job] using held_set s.workers i .waiting .done hw
      have hp : (held (s.workers.set i .done) ++ s.jobs.buf ++ s.toSend).Perm
          (held s.workers ++ s.jobs.buf ++ s.toSend) :=
        List.Perm.append_right _ (List.Perm.append_right _ hh)
      exact (List.Perm.append_left _ (List.Perm.map double hp)).trans inv.ledger
  | emit i =>
    obtain ⟨j, hw, _, _, rfl⟩ := Pool.step_emit s s' i hstep
    refine ⟨?_, inv.order, by simpa using inv.size, inv.owner, inv.count, ?_, inv.sending,
      inv.results, inv.room⟩
    · have hh : (held (s.workers.set i .waiting) ++ [j]).Perm (held s.workers) := by
        simpa [Stage.job] using held_set s.workers i (.holding j) .waiting hw
      have hp : ([j] ++ (held (s.workers.set i .waiting) ++ s.jobs.buf ++ s.toSend)).Perm
          (held s.workers ++ s.jobs.buf ++ s.toSend) := by
        refine List.Perm.trans ?_ (List.Perm.append_right _ (List.Perm.append_right _ hh))
        simp only [List.append_assoc]
        exact List.perm_append_comm_assoc _ _ _
      have hq := List.Perm.map double hp
      simp only [List.map_append, List.map_cons, List.map_nil] at hq
      refine List.Perm.trans ?_ inv.ledger
      simp only [Pool.ledger, List.append_assoc, List.map_append]
      refine List.Perm.append_left _ (List.Perm.append_left _ ?_)
      simpa using hq
    · intro hd
      exact inv.finished (mem_of_mem_set_ne _ _ _ _ hd (by intro h; cases h))

theorem Pool.run_inv (n : Nat) (js : List Int) (acts : List PoolAct) : ∀ (s s' : Pool),
    Pool.Inv n js s → s.run acts = some s' → Pool.Inv n js s' := by
  induction acts with
  | nil => intro s s' inv hrun; cases hrun; exact inv
  | cons a rest ih =>
    intro s s' inv hrun
    simp only [Pool.run] at hrun
    cases hstep : s.step a with
    | none => rw [hstep] at hrun; cases hrun
    | some s1 =>
      rw [hstep] at hrun
      exact ih s1 s' (Pool.step_inv n js s s1 a inv hstep) hrun

theorem Pool.step_fuel (n : Nat) (js : List Int) (s s' : Pool) (a : PoolAct)
    (inv : Pool.Inv n js s) (hstep : s.step a = some s') : s'.fuel + 1 ≤ s.fuel := by
  cases a with
  | mainSend =>
    obtain ⟨j, rest, hts, _, _, rfl⟩ := Pool.step_mainSend s s' hstep
    simp only [Pool.fuel, hts, List.length_append, List.length_cons, List.length_nil]
    generalize (if s.jobs.closed = true then 0 else 1) = k
    omega
  | mainClose =>
    obtain ⟨_, hopen, rfl⟩ := Pool.step_mainClose s s' hstep
    simp only [Pool.fuel, hopen, if_true, Bool.false_eq_true, if_false]
    omega
  | mainCollect =>
    obtain ⟨_, _, hcase⟩ := Pool.step_mainCollect s s' hstep
    rcases hcase with ⟨v, rest, hbuf, rfl⟩ | ⟨_, hclosed⟩
    · simp only [Pool.fuel, hbuf, List.length_cons]
      generalize (if s.jobs.closed = true then 0 else 1) = k
      omega
    · have := inv.results.1
      rw [hclosed] at this; cases this
  | claim i =>
    obtain ⟨hw, hcase⟩ := Pool.step_claim s s' i hstep
    rcases hcase with ⟨j, rest, hbuf, rfl⟩ | ⟨_, _, rfl⟩
    · have := weight_set s.workers i .waiting (.holding j) hw
      simp only [Stage.weight] at this
      simp only [Pool.fuel, hbuf, List.length_cons]
      generalize (if s.jobs.closed = true then 0 else 1) = k
      omega
    · have := weight_set s.workers i .waiting .done hw
      simp only [Stage.weight] at this
      simp only [Pool.fuel]
      generalize (if s.jobs.closed = true then 0 else 1) = k
      omega
  | emit i =>
    obtain ⟨j, hw, _, _, rfl⟩ := Pool.step_emit s s' i hstep
    have := weight_set s.workers i (.holding j) .waiting hw
    simp only [Stage.weight] at this
    simp only [Pool.fuel, List.length_append, List.length_cons, List.length_nil]
    generalize (if s.jobs.closed = true then 0 else 1) = k
    omega

theorem Pool.run_fuel (n : Nat) (js : List Int) (acts : List PoolAct) : ∀ (s s' : Pool),
    Pool.Inv n js s → s.run acts = some s' → acts.length + s'.fuel ≤ s.fuel := by
  induction acts with
  | nil => intro s s' _ hrun; cases hrun; simp
  | cons a rest ih =>
    intro s s' inv hrun
    simp only [Pool.run] at hrun
    cases hstep : s.step a with
    | none => rw [hstep] at hrun; cases hrun
    | some s1 =>
      rw [hstep] at hrun
      have h1 := Pool.step_fuel n js s s1 a inv hstep
      have h2 := ih s1 s' (Pool.step_inv n js s s1 a inv hstep) hrun
      simp only [List.length_cons]
      omega

theorem Pool.init_fuel (n : Nat) (js : List Int) :
    (Pool.init n js).fuel = 5 * js.length + n + 1 := by
  have hsum : ∀ k : Nat, ((List.replicate k Stage.waiting).map Stage.weight).sum = k := by
    intro k
    induction k with
    | zero => rfl
    | succ k ih =>
      simp only [List.replicate_succ, List.map_cons, List.sum_cons, ih, Stage.weight]
      omega
  simp only [Pool.fuel, Pool.init, Chan.make, hsum, List.length_nil]
  simp
  omega

theorem Pool.ledger_length (n : Nat) (js : List Int) (s : Pool) (inv : Pool.Inv n js s) :
    s.collected.length + s.results.buf.length +
      ((held s.workers).length + s.jobs.buf.length + s.toSend.length) = js.length := by
  have := inv.ledger.length_eq
  simpa [Pool.ledger, Nat.add_assoc] using this

theorem Pool.stuck_closed (n : Nat) (js : List Int) (s : Pool) (inv : Pool.Inv n js s)
    (hfit : js.length ≤ 100) (hstuck : ∀ a, s.step a = none) : s.jobs.closed = true := by
  cases hc : s.jobs.closed with
  | true => rfl
  | false =>
    exfalso
    cases hts : s.toSend with
    | nil =>
      have := hstuck .mainClose
      simp [Pool.step, hts, Chan.close, hc] at this
    | cons j rest =>
      have hlen := congrArg List.length inv.order
      simp only [List.length_append, List.length_map, hts, List.length_cons] at hlen
      have hlt : s.jobs.buf.length < s.jobs.cap := by rw [inv.room]; omega
      have := hstuck .mainSend
      simp [Pool.step, hts, Chan.send, hc, hlt] at this

theorem Pool.stuck_complete (n : Nat) (js : List Int) (s : Pool) (inv : Pool.Inv n js s)
    (hn : 1 ≤ n) (hclosed : s.jobs.closed = true) (hstuck : ∀ a, s.step a = none) :
    s.collected.Perm (js.map double) ∧ s.claims.map Prod.snd = js ∧
      (∀ st ∈ s.workers, st = .done) ∧ s.results.buf = [] ∧ s.toCollect = 0 := by
  have hts : s.toSend = [] := inv.sending hclosed
  have hlen := Pool.ledger_length n js s inv
  have hcount := inv.count
  -- the collecting loop is over or finds `results` empty
  have hcollect : s.results.buf ≠ [] → s.toCollect = 0 := by
    intro hne
    rcases Nat.eq_zero_or_pos s.toCollect with h0 | hpos
    · exact h0
    · exfalso
      have := hstuck .mainCollect
      cases hb : s.results.buf with
      | nil => exact hne hb
      | cons v rest => simp [Pool.step, hclosed, hpos, Chan.recv, hb] at this
  have hdone : ∀ st ∈ s.workers, st = Stage.done := by
    intro st hst
    obtain ⟨i, hi⟩ := List.mem_iff_getElem?.mp hst
    cases st with
    | done => rfl
    | waiting =>
      exfalso
      have := hstuck (.claim i)
      cases hb : s.jobs.buf with
      | nil => simp [Pool.step, hi, Chan.recv, hb, hclosed] at this
      | cons j rest => simp [Pool.step, hi, Chan.recv, hb] at this
    | holding j =>
      exfalso
      have hfull : ¬ s.results.buf.length < s.results.cap := by
        intro hlt
        have := hstuck (.emit i)
        simp [Pool.step, hi, Chan.send, inv.results.1, hlt] at this
      rw [inv.results.2] at hfull
      have hne : s.results.buf ≠ [] := by
        intro h; rw [h] at hfull; simp at hfull
      have := hcollect hne
      omega
  have hheld : held s.workers = [] := held_of_all_done _ hdone
  have hbuf : s.jobs.buf = [] := by
    cases hws : s.workers with
    | nil =>
      have := inv.size
      rw [hws] at this
      simp at this
      omega
    | cons w rest =>
      have hw : w ∈ s.workers := by rw [hws]; exact List.mem_cons_self _ _
      have := hdone w hw
      subst this
      exact (inv.finished hw).2
  have hres : s.results.buf = [] := by
    by_contra hne
    have h0 := hcollect hne
    have : 0 < s.results.buf.length := List.length_pos.mpr hne
    omega
  refine ⟨?_, ?_, hdone, hres, ?_⟩
  · have := inv.ledger
    simpa [Pool.ledger, hheld, hbuf, hts, hres] using this
  · have := inv.order
    simpa [hbuf, hts] using this
  · rw [hheld, hbuf, hts, hres] at hlen
    simp at hlen
    omega

theorem double_exact (j : Int) (hlo : -4611686018427387904 ≤ j)
    (hhi : j < 4611686018427387904) : double j = 2 * j := by
  unfold double wrapInt
  omega

/-! ## The worker pool: claim C7 -/

/-- C7: for every number `n` of workers, every list `js` of jobs and every
schedule of `main` and the workers, in the state `s` reached:
(1) the results read by `main`, the results in the channel and the doubles of
the jobs held, queued or unsent are a permutation of the doubled jobs: no job
is lost, none is answered twice;
(2) the jobs claimed so far, in claim order, followed by the queued and the
unsent jobs are exactly `js`, each claim by one worker of the pool;
(3) the schedule has at most `5 * |js| + n + 1` steps, so every interleaving
ends;
(4) with `n ≥ 1`, once `jobs` is closed (which any schedule that stops reaches
when `|js| ≤ 100`), a state in which no step is possible has every worker out
of its loop, every job claimed, and the results read by `main` are a
permutation of the doubled jobs;
(5) the Go product `j * 2` is `2 * j` when that fits in 64 bits. -/
theorem pool_answers_each_job_once (n : Nat) (js : List Int) (acts : List PoolAct)
    (s : Pool) (hrun : (Pool.init n js).run acts = some s) :
    s.ledger.Perm (js.map double) ∧
    (s.claims.map Prod.snd ++ s.jobs.buf ++ s.toSend = js ∧ ∀ e ∈ s.claims, e.1 < n) ∧
    acts.length ≤ 5 * js.length + n + 1 ∧
    (1 ≤ n → (s.jobs.closed = true ∨ js.length ≤ 100) → (∀ a, s.step a = none) →
      s.collected.Perm (js.map double) ∧ s.claims.map Prod.snd = js ∧
      (∀ st ∈ s.workers, st = .done) ∧ s.results.buf = [] ∧ s.toCollect = 0) ∧
    (∀ j ∈ js, -4611686018427387904 ≤ j → j < 4611686018427387904 → double j = 2 * j) := by
  have inv : Pool.Inv n js s := Pool.run_inv n js acts _ s (Pool.init_inv n js) hrun
  refine ⟨inv.ledger, ⟨inv.order, inv.owner⟩, ?_, ?_, fun j _ h1 h2 => double_exact j h1 h2⟩
  · have := Pool.run_fuel n js acts _ s (Pool.init_inv n js) hrun
    rw [Pool.init_fuel] at this
    omega
  · intro hn hc hstuck
    have hclosed : s.jobs.closed = true := by
      rcases hc with hc | hc
      · exact hc
      · exact Pool.stuck_closed n js s inv hc hstuck
    exact Pool.stuck_complete n js s inv hn hclosed hstuck

theorem poolEnd_stuck (a : PoolAct) : poolEnd.step a = none := by
  cases a with
  | mainSend => rfl
  | mainClose => rfl
  | mainCollect => rfl
  | claim i =>
    match i with
    | 0 => rfl
    | 1 => rfl
    | 2 => rfl
    | k + 3 => rfl
  | emit i =>
    match i with
    | 0 => rfl
    | 1 => rfl
    | 2 => rfl
    | k + 3 => rfl

/-- C7 on the pool of `main`, 3 workers and the jobs 1 to 5, under one
complete schedule: it ends in a state where no step is possible, and there the
results read are a permutation of 2, 4, 6, 8, 10. -/
theorem pool_answers_each_job_once_witness :
    (Pool.init 3 [1, 2, 3, 4, 5]).run poolSchedule = some poolEnd ∧
    poolEnd.collected.Perm ([1, 2, 3, 4, 5].map double) ∧
    poolEnd.claims.map Prod.snd = [1, 2, 3, 4, 5] ∧
    [1, 2, 3, 4, 5].map double = [2, 4, 6, 8, 10] :=
  ⟨by decide,
   ((pool_answers_each_job_once 3 [1, 2, 3, 4, 5] poolSchedule poolEnd (by decide)).2.2.2.1
      (by decide) (Or.inl rfl) poolEnd_stuck).1,
   ((pool_answers_each_job_once 3 [1, 2, 3, 4, 5] poolSchedule poolEnd (by decide)).2.2.2.1
      (by decide) (Or.inl rfl) poolEnd_stuck).2.1,
   by decide⟩

/-! ## The steps of the workers, inverted -/

theorem Crew.step_submit (s s' : Crew) (job : Job) (h : s.step (.submit job) = some s') :
    s.jobChan.closed = false ∧ s.jobChan.buf.length < s.jobChan.cap ∧
      s' = { s with jobChan := { s.jobChan with buf := s.jobChan.buf ++ [job] },
                    sent := s.sent ++ [job] } := by
  simp only [Crew.step] at h
  split at h
  · rename_i c hsend
    obtain ⟨h1, h2, h3⟩ := Chan.send_eq_sent _ _ _ hsend
    cases h
    exact ⟨h1, h2, by rw [h3]⟩
  · cases h
  · cases h

theorem Crew.step_pass (s s' : Crew) (job : Job) (i : Nat)
    (h : s.step (.pass job i) = some s') :
    ∃ q, s.workers[i]? = some { phase := .selecting, quit := q } ∧
      s.jobChan.closed = false ∧ s.jobChan.buf = [] ∧
      s' = { s with workers := s.workers.set i { phase := .handling job, quit := q },
                    sent := s.sent ++ [job],
                    received := s.received ++ [(i, job, true)] } := by
  simp only [Crew.step] at h
  split at h
  · rename_i q hw
    split at h
    · rename_i hover
      cases h
      simp only [Chan.handsOver, Bool.and_eq_true, Bool.not_eq_true', List.isEmpty_iff] at hover
      exact ⟨q, hw, hover.1, hover.2, rfl⟩
    · cases h
  · cases h

theorem Crew.step_closeJobs (s s' : Crew) (h : s.step .closeJobs = some s') :
    s.jobChan.closed = false ∧ s' = { s with jobChan := { s.jobChan with closed := true } } := by
  simp only [Crew.step] at h
  cases hc : s.jobChan.close with
  | none => rw [hc] at h; cases h
  | some c =>
    rw [hc] at h
    obtain ⟨h1, h2⟩ := Chan.close_eq_some _ _ hc
    cases h
    exact ⟨h1, by rw [h2]⟩

theorem Crew.step_stop (s s' : Crew) (i : Nat) (h : s.step (.stop i) = some s') :
    ∃ w, s.workers[i]? = some w ∧
      s' = { s with workers := s.workers.set i { w with quit := true } } := by
  simp only [Crew.step] at h
  split at h
  · rename_i w hw
    cases h
    exact ⟨w, hw, rfl⟩
  · cases h

theorem Crew.step_receive (s s' : Crew) (i : Nat) (h : s.step (.claim i) = some s') :
    ∃ q, s.workers[i]? = some { phase := .selecting, quit := q } ∧
    ((∃ job rest, s.jobChan.buf = job :: rest ∧
        s' = { s with jobChan := { s.jobChan with buf := rest },
                      workers := s.workers.set i { phase := .handling job, quit := q },
                      received := s.received ++ [(i, job, true)] }) ∨
      (s.jobChan.buf = [] ∧ s.jobChan.closed = true ∧
        s' = { s with workers := s.workers.set i { phase := .handling default, quit := q },
                      received := s.received ++ [(i, default, false)] })) := by
  simp only [Crew.step] at h
  split at h
  · rename_i q hw
    split at h
    · rename_i job ok c hrecv
      cases h
      rcases Chan.recv_eq_got _ _ _ _ hrecv with ⟨hok, rest, h1, h2⟩ | ⟨hok, h1, h2, h3, h4⟩
      · subst hok
        exact ⟨q, hw, Or.inl ⟨job, rest, h1, by rw [h2]⟩⟩
      · subst hok; subst h3; subst h4
        exact ⟨q, hw, Or.inr ⟨h1, h2, rfl⟩⟩
    · cases h
  · cases h

theorem Crew.step_handle (s s' : Crew) (i : Nat) (h : s.step (.handle i) = some s') :
    ∃ job q, s.workers[i]? = some { phase := .handling job, quit := q } ∧
      s' = { s with workers := s.workers.set i { phase := .selecting, quit := q },
                    handled := s.handled ++ [(i, job)] } := by
  simp only [Crew.step] at h
  split at h
  · rename_i job q hw
    cases h
    exact ⟨job, q, hw, rfl⟩
  · cases h

theorem Crew.step_quit (s s' : Crew) (i : Nat) (h : s.step (.quit i) = some s') :
    s.workers[i]? = some { phase := .selecting, quit := true } ∧
      s' = { s with workers := s.workers.set i { phase := .exited, quit := false } } := by
  simp only [Crew.step] at h
  split at h
  · rename_i hw
    cases h
    exact ⟨hw, rfl⟩
  · cases h

/-! ## The invariant of the workers -/

theorem handOf_set (ws : List Worker) (i k : Nat) (w w' : Worker)
    (hw : ws[i]? = some w) :
    handOf (ws.set i w') k = if k = i then w'.phase.job else handOf ws k := by
  have hlt : i < ws.length := getElem?_lt_length _ _ _ hw
  by_cases hk : k = i
  · subst hk
    simp [handOf, List.getElem?_set_self hlt]
  · have hne : i ≠ k := fun e => hk e.symm
    simp [handOf, List.getElem?_set_ne hne, hk]

theorem Crew.inHand_eq (s : Crew) (i : Nat) (w : Worker) (hw : s.workers[i]? = some w) :
    s.inHand i = w.phase.job := by
  simp [Crew.inHand, handOf, hw]

theorem Crew.init_holds (n cap : Nat) : (Crew.init n cap).Inv := by
  refine ⟨by simp [Crew.init, Crew.claimed, Chan.make], ?_, ?_⟩
  · intro _ e he; simp [Crew.init] at he
  · intro i
    simp only [Crew.receivedBy, Crew.handledBy, Crew.inHand, handOf, Crew.init,
      List.filter_nil, List.map_nil, List.nil_append]
    cases hi : (List.replicate n ({ phase := .selecting, quit := false } : Worker))[i]? with
    | none => rfl
    | some w =>
      have := List.eq_of_mem_replicate (List.getElem?_mem hi)
      subst this
      rfl

theorem Crew.step_holds (s s' : Crew) (a : CrewAct) (inv : s.Inv)
    (hstep : s.step a = some s') : s'.Inv := by
  cases a with
  | submit job =>
    obtain ⟨_, _, rfl⟩ := Crew.step_submit s s' job hstep
    refine ⟨?_, inv.genuine, inv.books⟩
    have := inv.order
    simp only [Crew.claimed] at this ⊢
    rw [← this]
    simp
  | pass job i =>
    obtain ⟨q, hw, _, hbuf, rfl⟩ := Crew.step_pass s s' job i hstep
    have hand : handOf s.workers i = [] := by
      have := Crew.inHand_eq s i _ hw
      simpa [Crew.inHand, Phase.job] using this
    refine ⟨?_, ?_, ?_⟩
    · have := inv.order
      rw [hbuf] at this
      simp only [Crew.claimed] at this ⊢
      rw [hbuf, ← this]
      simp
    · intro hopen e he
      simp only [List.mem_append, List.mem_singleton] at he
      rcases he with he | he
      · exact inv.genuine hopen e he
      · subst he; rfl
    · intro k
      have hb := inv.books k
      simp only [Crew.receivedBy, Crew.handledBy, Crew.inHand] at hb ⊢
      rw [handOf_set s.workers i k _ _ hw]
      by_cases hk : k = i
      · subst hk
        rw [hand] at hb
        simp [hb, Phase.job]
      · have hne : ¬ i = k := fun e => hk e.symm
        simp [hk, hne, hb]
  | closeJobs =>
    obtain ⟨_, rfl⟩ := Crew.step_closeJobs s s' hstep
    refine ⟨inv.order, ?_, inv.books⟩
    intro h; cases h
  | stop i =>
    obtain ⟨w, hw, rfl⟩ := Crew.step_stop s s' i hstep
    refine ⟨inv.order, inv.genuine, ?_⟩
    intro k
    have hb := inv.books k
    simp only [Crew.receivedBy, Crew.handledBy, Crew.inHand] at hb ⊢
    rw [handOf_set s.workers i k w _ hw, hb]
    by_cases hk : k = i
    · subst hk
      have := Crew.inHand_eq s k w hw
      simp only [Crew.inHand] at this
      simp [this]
    · simp [hk]
  | claim i =>
    obtain ⟨q, hw, hcase⟩ := Crew.step_receive s s' i hstep
    have hand : handOf s.workers i = [] := by
      have := Crew.inHand_eq s i _ hw
      simpa [Crew.inHand, Phase.job] using this
    rcases hcase with ⟨job, rest, hbuf, rfl⟩ | ⟨hbuf, hclosed, rfl⟩
    · refine ⟨?_, ?_, ?_⟩
      · have := inv.order
        rw [hbuf] at this
        simp only [Crew.claimed] at this ⊢
        rw [← this]
        simp
      · intro hopen e he
        simp only [List.mem_append, List.mem_singleton] at he
        rcases he with he | he
        · exact inv.genuine hopen e he
        · subst he; rfl
      · intro k
        have hb := inv.books k
        simp only [Crew.receivedBy, Crew.handledBy, Crew.inHand] at hb ⊢
        rw [handOf_set s.workers i k _ _ hw]
        by_cases hk : k = i
        · subst hk
          rw [hand] at hb
          simp [hb, Phase.job]
        · have hne : ¬ i = k := fun e => hk e.symm
          simp [hk, hne, hb]
    · refine ⟨?_, ?_, ?_⟩
      · have := inv.order
        simp only [Crew.claimed] at this ⊢
        rw [← this]
        simp
      · intro hopen
        rw [hclosed] at hopen; cases hopen
      · intro k
        have hb := inv.books k
        simp only [Crew.receivedBy, Crew.handledBy, Crew.inHand] at hb ⊢
        rw [handOf_set s.workers i k _ _ hw]
        by_cases hk : k = i
        · subst hk
          rw [hand] at hb
          simp [hb, Phase.job]
        · have hne : ¬ i = k := fun e => hk e.symm
          simp [hk, hne, hb]
  | handle i =>
    obtain ⟨job, q, hw, rfl⟩ := Crew.step_handle s s' i hstep
    have hand : handOf s.workers i = [job] := by
      have := Crew.inHand_eq s i _ hw
      simpa [Crew.inHand, Phase.job] using this
    refine ⟨inv.order, inv.genuine, ?_⟩
    intro k
    have hb := inv.books k
    simp only [Crew.receivedBy, Crew.handledBy, Crew.inHand] at hb ⊢
    rw [handOf_set s.workers i k _ _ hw]
    by_cases hk : k = i
    · subst hk
      rw [hand] at hb
      simp [hb, Phase.job]
    · have hne : ¬ i = k := fun e => hk e.symm
      simp [hk, hne, hb]
  | quit i =>
    obtain ⟨hw, rfl⟩ := Crew.step_quit s s' i hstep
    have hand : handOf s.workers i = [] := by
      have := Crew.inHand_eq s i _ hw
      simpa [Crew.inHand, Phase.job] using this
    refine ⟨inv.order, inv.genuine, ?_⟩
    intro k
    have hb := inv.books k
    simp only [Crew.receivedBy, Crew.handledBy, Crew.inHand] at hb ⊢
    rw [handOf_set s.workers i k _ _ hw]
    by_cases hk : k = i
    · subst hk
      rw [hand] at hb
      simp [hb, Phase.job]
    · simp [hk, hb]

theorem Crew.run_holds (acts : List CrewAct) : ∀ (s s' : Crew), s.Inv →
    s.run acts = some s' → s'.Inv := by
  induction acts with
  | nil => intro s s' inv hrun; cases hrun; exact inv
  | cons a rest ih =>
    intro s s' inv hrun
    simp only [Crew.run] at hrun
    cases hstep : s.step a with
    | none => rw [hstep] at hrun; cases hrun
    | some s1 =>
      rw [hstep] at hrun
      exact ih s1 s' (Crew.step_holds s s1 a inv hstep) hrun

theorem Crew.step_exited (s s' : Crew) (a : CrewAct) (i : Nat) (q : Bool)
    (hstep : s.step a = some s')
    (hex : s'.workers[i]? = some { phase := .exited, quit := q }) :
    (∃ q', s.workers[i]? = some { phase := .exited, quit := q' }) ∨ a = .quit i := by
  have key : ∀ (k : Nat) (w w' : Worker), s.workers[k]? = some w →
      s'.workers = s.workers.set k w' → (k = i → w'.phase = .exited → w.phase = .exited) →
      ∃ q', s.workers[i]? = some { phase := .exited, quit := q' } := by
    intro k w w' hw hs himp
    rw [hs] at hex
    by_cases hk : k = i
    · subst hk
      rw [List.getElem?_set_self (getElem?_lt_length _ _ _ hw)] at hex
      cases hex
      have := himp rfl rfl
      refine ⟨w.quit, ?_⟩
      rw [hw]
      cases w with
      | mk ph qu => simp only at this; subst this; rfl
    · rw [List.getElem?_set_ne hk] at hex
      exact ⟨q, hex⟩
  cases a with
  | submit job =>
    obtain ⟨_, _, rfl⟩ := Crew.step_submit s s' job hstep
    exact Or.inl ⟨q, hex⟩
  | pass job k =>
    obtain ⟨q0, hw, _, _, rfl⟩ := Crew.step_pass s s' job k hstep
    exact Or.inl (key k _ _ hw rfl (fun _ h => by cases h))
  | closeJobs =>
    obtain ⟨_, rfl⟩ := Crew.step_closeJobs s s' hstep
    exact Or.inl ⟨q, hex⟩
  | stop k =>
    obtain ⟨w, hw, rfl⟩ := Crew.step_stop s s' k hstep
    exact Or.inl (key k w _ hw rfl (fun _ h => h))
  | claim k =>
    obtain ⟨q0, hw, hcase⟩ := Crew.step_receive s s' k hstep
    rcases hcase with ⟨job, rest, _, rfl⟩ | ⟨_, _, rfl⟩
    · exact Or.inl (key k _ _ hw rfl (fun _ h => by cases h))
    · exact Or.inl (key k _ _ hw rfl (fun _ h => by cases h))
  | handle k =>
    obtain ⟨job, q0, hw, rfl⟩ := Crew.step_handle s s' k hstep
    exact Or.inl (key k _ _ hw rfl (fun _ h => by cases h))
  | quit k =>
    by_cases hk : k = i
    · exact Or.inr (by rw [hk])
    · obtain ⟨hw, rfl⟩ := Crew.step_quit s s' k hstep
      exact Or.inl (key k _ _ hw rfl (fun h _ => absurd h hk))

theorem Crew.run_exited (acts : List CrewAct) : ∀ (s s' : Crew) (i : Nat) (q : Bool),
    s.run acts = some s' → s'.workers[i]? = some { phase := .exited, quit := q } →
    (∃ q', s.workers[i]? = some { phase := .exited, quit := q' }) ∨ CrewAct.quit i ∈ acts := by
  induction acts with
  | nil =>
    intro s s' i q hrun hex
    cases hrun
    exact Or.inl ⟨q, hex⟩
  | cons a rest ih =>
    intro s s' i q hrun hex
    simp only [Crew.run] at hrun
    cases hstep : s.step a with
    | none => rw [hstep] at hrun; cases hrun
    | some s1 =>
      rw [hstep] at hrun
      rcases ih s1 s' i q hrun hex with ⟨q1, h1⟩ | hmem
      · rcases Crew.step_exited s s1 a i q1 hstep h1 with h0 | ha
        · exact Or.inl h0
        · exact Or.inr (by rw [ha]; exact List.mem_cons_self _ _)
      · exact Or.inr (List.mem_cons_of_mem _ hmem)

theorem Crew.handled_was_sent (s : Crew) (inv : s.Inv) (hopen : s.jobChan.closed = false)
    (e : Nat × Job) (he : e ∈ s.handled) : e.2 ∈ s.sent := by
  have h1 : e.2 ∈ s.handledBy e.1 := by
    simp only [Crew.handledBy, List.mem_map, List.mem_filter]
    exact ⟨e, ⟨he, by simp⟩, rfl⟩
  have h2 : e.2 ∈ s.receivedBy e.1 := by
    rw [inv.books e.1]
    exact List.mem_append_left _ h1
  simp only [Crew.receivedBy, List.mem_map, List.mem_filter] at h2
  obtain ⟨r, ⟨hr, _⟩, hjob⟩ := h2
  have hok := inv.genuine hopen r hr
  rw [← inv.order]
  refine List.mem_append_left _ ?_
  simp only [Crew.claimed, List.mem_map, List.mem_filter]
  exact ⟨r, ⟨hr, hok⟩, hjob⟩

theorem Crew.step_from_exited (s s' : Crew) (a : CrewAct) (i : Nat) (q : Bool)
    (hex : s.workers[i]? = some { phase := .exited, quit := q })
    (hstep : s.step a = some s') :
    s'.receivedBy i = s.receivedBy i ∧
      ∃ q', s'.workers[i]? = some { phase := .exited, quit := q' } := by
  have other : ∀ (k : Nat) (w' : Worker), k ≠ i →
      (s.workers.set k w')[i]? = some { phase := .exited, quit := q } := by
    intro k w' hk
    rw [List.getElem?_set_ne hk]
    exact hex
  cases a with
  | submit job =>
    obtain ⟨_, _, rfl⟩ := Crew.step_submit s s' job hstep
    exact ⟨rfl, q, hex⟩
  | pass job k =>
    obtain ⟨q0, hw, _, _, rfl⟩ := Crew.step_pass s s' job k hstep
    have hk : k ≠ i := by
      intro e; subst e; rw [hex] at hw; cases hw
    exact ⟨by simp [Crew.receivedBy, hk], q, other k _ hk⟩
  | closeJobs =>
    obtain ⟨_, rfl⟩ := Crew.step_closeJobs s s' hstep
    exact ⟨rfl, q, hex⟩
  | stop k =>
    obtain ⟨w, hw, rfl⟩ := Crew.step_stop s s' k hstep
    refine ⟨rfl, ?_⟩
    by_cases hk : k = i
    · subst hk
      rw [hex] at hw
      cases hw
      exact ⟨true, List.getElem?_set_self (getElem?_lt_length _ _ _ hex)⟩
    · exact ⟨q, other k _ hk⟩
  | claim k =>
    obtain ⟨q0, hw, hcase⟩ := Crew.step_receive s s' k hstep
    have hk : k ≠ i := by
      intro e; subst e; rw [hex] at hw; cases hw
    rcases hcase with ⟨job, rest, _, rfl⟩ | ⟨_, _, rfl⟩
    · exact ⟨by simp [Crew.receivedBy, hk], q, other k _ hk⟩
    · exact ⟨by simp [Crew.receivedBy, hk], q, other k _ hk⟩
  | handle k =>
    obtain ⟨job, q0, hw, rfl⟩ := Crew.step_handle s s' k hstep
    have hk : k ≠ i := by
      intro e; subst e; rw [hex] at hw; cases hw
    exact ⟨rfl, q, other k _ hk⟩
  | quit k =>
    obtain ⟨hw, rfl⟩ := Crew.step_quit s s' k hstep
    have hk : k ≠ i := by
      intro e; subst e; rw [hex] at hw; cases hw
    exact ⟨rfl, q, other k _ hk⟩

theorem Crew.step_room (s s' : Crew) (a : CrewAct)
    (hroom : s.jobChan.buf.length ≤ s.jobChan.cap) (hstep : s.step a = some s') :
    s'.jobChan.buf.length ≤ s'.jobChan.cap ∧ s'.jobChan.cap = s.jobChan.cap := by
  cases a with
  | submit job =>
    obtain ⟨_, hlt, rfl⟩ := Crew.step_submit s s' job hstep
    refine ⟨?_, rfl⟩
    simp only [List.length_append, List.length_singleton]
    omega
  | pass job i =>
    obtain ⟨_, _, _, _, rfl⟩ := Crew.step_pass s s' job i hstep
    exact ⟨hroom, rfl⟩
  | closeJobs =>
    obtain ⟨_, rfl⟩ := Crew.step_closeJobs s s' hstep
    exact ⟨hroom, rfl⟩
  | stop i =>
    obtain ⟨_, _, rfl⟩ := Crew.step_stop s s' i hstep
    exact ⟨hroom, rfl⟩
  | claim i =>
    obtain ⟨_, _, hcase⟩ := Crew.step_receive s s' i hstep
    rcases hcase with ⟨job, rest, hbuf, rfl⟩ | ⟨_, _, rfl⟩
    · rw [hbuf] at hroom
      simp only [List.length_cons] at hroom
      refine ⟨?_, rfl⟩
      simp only
      omega
    · exact ⟨hroom, rfl⟩
  | handle i =>
    obtain ⟨_, _, _, rfl⟩ := Crew.step_handle s s' i hstep
    exact ⟨hroom, rfl⟩
  | quit i =>
    obtain ⟨_, rfl⟩ := Crew.step_quit s s' i hstep
    exact ⟨hroom, rfl⟩

theorem Crew.run_room (acts : List CrewAct) : ∀ (s s' : Crew),
    s.jobChan.buf.length ≤ s.jobChan.cap → s.run acts = some s' →
    s'.jobChan.buf.length ≤ s'.jobChan.cap ∧ s'.jobChan.cap = s.jobChan.cap := by
  induction acts with
  | nil => intro s s' hroom hrun; cases hrun; exact ⟨hroom, rfl⟩
  | cons a rest ih =>
    intro s s' hroom hrun
    simp only [Crew.run] at hrun
    cases hstep : s.step a with
    | none => rw [hstep] at hrun; cases hrun
    | some s1 =>
      rw [hstep] at hrun
      obtain ⟨h1, h2⟩ := Crew.step_room s s1 a hroom hstep
      obtain ⟨h3, h4⟩ := ih s1 s' h1 hrun
      exact ⟨h3, h4.trans h2⟩

/-! ## The workers: claims C8, C9 and C10 -/

/-- C8 as stated fails: one job is sent, claimed and handled and the channel is
closed, so the channel is closed and drained and every job sent was claimed;
the worker then receives again, is handed the zero value `Job{}` that was never
sent, handles it, and can go on receiving. -/
theorem Worker_handles_unsent_job_after_close :
    (Crew.init 1 10).run (afterClose.take 4) = some closedAndDrained ∧
    closedAndDrained.jobChan.closed = true ∧ closedAndDrained.jobChan.buf = [] ∧
    closedAndDrained.claimed = closedAndDrained.sent ∧
    closedAndDrained.run (afterClose.drop 4) = some afterCloseEnd ∧
    afterCloseEnd.handled = closedAndDrained.handled ++ [(0, { ID := 0, Data := "" })] ∧
    ({ ID := 0, Data := "" } : Job) ∉ afterCloseEnd.sent ∧
    (afterCloseEnd.step (.claim 0)).isSome = true := by
  decide

/-- C8, amended: in every state the workers reach, on a job channel of any
capacity, buffered or not, (1) as long as the job channel has not been closed,
every job a worker has handled is one that was sent on the channel; (2) a worker
that has returned claims and handles no further job, from the buffer or handed
over, and it has returned through a receive on its `Quit` channel, the only exit
of its loop. -/
theorem Worker_stops_on_quit_only (n cap : Nat) (acts : List CrewAct) (s : Crew)
    (hrun : (Crew.init n cap).run acts = some s) :
    (s.jobChan.closed = false → ∀ e ∈ s.handled, e.2 ∈ s.sent) ∧
    (∀ (i : Nat) (q : Bool), s.workers[i]? = some { phase := .exited, quit := q } →
      s.step (.claim i) = none ∧ (∀ job : Job, s.step (.pass job i) = none) ∧
      s.step (.handle i) = none ∧ CrewAct.quit i ∈ acts) := by
  have inv : s.Inv := Crew.run_holds acts _ s (Crew.init_holds n cap) hrun
  refine ⟨fun hopen e he => Crew.handled_was_sent s inv hopen e he, ?_⟩
  intro i q hex
  refine ⟨by simp [Crew.step, hex], fun job => by simp [Crew.step, hex],
    by simp [Crew.step, hex], ?_⟩
  rcases Crew.run_exited acts _ s i q hrun hex with ⟨q', h0⟩ | hmem
  · exfalso
    have := List.eq_of_mem_replicate (List.getElem?_mem h0)
    cases this
  · exact hmem

/-- The amended C8 on two schedules that end with the worker returned through
`Quit`, the channel never closed: one on the channel of `main` (capacity 10),
one on an unbuffered channel, where two jobs are handed over and handled. -/
theorem Worker_stops_on_quit_only_witness :
    ((Crew.init 1 10).run stopWhileBusy = some stopWhileBusyEnd ∧
      (∀ e ∈ stopWhileBusyEnd.handled, e.2 ∈ stopWhileBusyEnd.sent) ∧
      stopWhileBusyEnd.step (.claim 0) = none ∧
      (∀ job : Job, stopWhileBusyEnd.step (.pass job 0) = none) ∧
      stopWhileBusyEnd.step (.handle 0) = none ∧ CrewAct.quit 0 ∈ stopWhileBusy) ∧
    ((Crew.init 1 0).run unbuffered = some unbufferedEnd ∧
      unbufferedEnd.handled = [(0, { ID := 1, Data := "a" }), (0, { ID := 2, Data := "b" })] ∧
      (∀ e ∈ unbufferedEnd.handled, e.2 ∈ unbufferedEnd.sent) ∧
      unbufferedEnd.step (.claim 0) = none ∧
      (∀ job : Job, unbufferedEnd.step (.pass job 0) = none) ∧
      unbufferedEnd.step (.handle 0) = none ∧ CrewAct.quit 0 ∈ unbuffered) :=
  ⟨⟨by decide,
    (Worker_stops_on_quit_only 1 10 stopWhileBusy stopWhileBusyEnd (by decide)).1 rfl,
    (Worker_stops_on_quit_only 1 10 stopWhileBusy stopWhileBusyEnd (by decide)).2 0 false rfl⟩,
   ⟨by decide, rfl,
    (Worker_stops_on_quit_only 1 0 unbuffered unbufferedEnd (by decide)).1 rfl,
    (Worker_stops_on_quit_only 1 0 unbuffered unbufferedEnd (by decide)).2 0 false rfl⟩⟩

/-- C9: in every state the workers reach, on a job channel of any capacity,
buffered or not, for every worker `i`,
(1) while `i` has a job in hand the `Quit` case cannot be taken, whether or
not a stop was requested, no further job reaches `i`, from the buffer or handed
over, and the handling step is possible and records the job as handled: a
claimed job is handled before anything else happens to `i`;
(2) the `Quit` case is only taken at the `select`, with a stop requested, and
then every job `i` ever received has been handled;
(3) once `i` has returned, it has handled everything it received, and no step
of any goroutine makes it receive again or leave the returned state. -/
theorem Worker_quit_is_cooperative (n cap : Nat) (acts : List CrewAct) (s : Crew)
    (hrun : (Crew.init n cap).run acts = some s) (i : Nat) :
    (∀ (job : Job) (q : Bool), s.workers[i]? = some { phase := .handling job, quit := q } →
      s.step (.quit i) = none ∧ s.step (.claim i) = none ∧
      (∀ job' : Job, s.step (.pass job' i) = none) ∧
      ∃ s', s.step (.handle i) = some s' ∧ s'.handled = s.handled ++ [(i, job)] ∧
        s'.workers[i]? = some { phase := .selecting, quit := q }) ∧
    (∀ s', s.step (.quit i) = some s' →
      s.workers[i]? = some { phase := .selecting, quit := true } ∧
      s'.workers[i]? = some { phase := .exited, quit := false } ∧
      s.receivedBy i = s.handledBy i) ∧
    (∀ q : Bool, s.workers[i]? = some { phase := .exited, quit := q } →
      s.receivedBy i = s.handledBy i ∧
      ∀ (a : CrewAct) (s' : Crew), s.step a = some s' →
        s'.receivedBy i = s.receivedBy i ∧
        ∃ q', s'.workers[i]? = some { phase := .exited, quit := q' }) := by
  have inv : s.Inv := Crew.run_holds acts _ s (Crew.init_holds n cap) hrun
  refine ⟨?_, ?_, ?_⟩
  · intro job q hw
    refine ⟨by simp [Crew.step, hw], by simp [Crew.step, hw],
      fun job' => by simp [Crew.step, hw],
      { s with workers := s.workers.set i { phase := .selecting, quit := q },
               handled := s.handled ++ [(i, job)] },
      by simp only [Crew.step, hw], rfl, ?_⟩
    exact List.getElem?_set_self (getElem?_lt_length _ _ _ hw)
  · intro s' hstep
    obtain ⟨hw, rfl⟩ := Crew.step_quit s s' i hstep
    refine ⟨hw, List.getElem?_set_self (getElem?_lt_length _ _ _ hw), ?_⟩
    have := inv.books i
    rw [Crew.inHand_eq s i _ hw] at this
    simpa [Phase.job] using this
  · intro q hex
    refine ⟨?_, fun a s' hstep => Crew.step_from_exited s s' a i q hex hstep⟩
    have := inv.books i
    rw [Crew.inHand_eq s i _ hex] at this
    simpa [Phase.job] using this

/-- C9 on two schedules in which a stop is requested while the worker has a job
in hand, on the channel of `main` and on an unbuffered channel: the worker
cannot quit there, it can handle the job. -/
theorem Worker_quit_is_cooperative_witness :
    ((Crew.init 1 10).run stopRequested = some stopRequestedEnd ∧
      stopRequestedEnd.workers[0]?
        = some { phase := .handling { ID := 1, Data := "job" }, quit := true } ∧
      stopRequestedEnd.step (.quit 0) = none ∧ stopRequestedEnd.step (.claim 0) = none ∧
      (∀ job' : Job, stopRequestedEnd.step (.pass job' 0) = none) ∧
      ∃ s', stopRequestedEnd.step (.handle 0) = some s' ∧
        s'.handled = stopRequestedEnd.handled ++ [(0, { ID := 1, Data := "job" })] ∧
        s'.workers[0]? = some { phase := .selecting, quit := true }) ∧
    ((Crew.init 1 0).run (unbuffered.take 4) = some unbufferedBusy ∧
      unbufferedBusy.workers[0]?
        = some { phase := .handling { ID := 2, Data := "b" }, quit := true } ∧
      unbufferedBusy.step (.quit 0) = none ∧ unbufferedBusy.step (.claim 0) = none ∧
      (∀ job' : Job, unbufferedBusy.step (.pass job' 0) = none) ∧
      ∃ s', unbufferedBusy.step (.handle 0) = some s' ∧
        s'.handled = unbufferedBusy.handled ++ [(0, { ID := 2, Data := "b" })] ∧
        s'.workers[0]? = some { phase := .selecting, quit := true }) :=
  ⟨⟨by decide, rfl,
    (Worker_quit_is_cooperative 1 10 stopRequested stopRequestedEnd (by decide) 0).1
      { ID := 1, Data := "job" } true rfl⟩,
   ⟨by decide, rfl,
    (Worker_quit_is_cooperative 1 0 (unbuffered.take 4) unbufferedBusy (by decide) 0).1
      { ID := 2, Data := "b" } true rfl⟩⟩

/-- C10: jobs leave a job channel in the order they were sent.  In the pool of
`09_concurrency.go` the jobs claimed so far, in claim order over all workers,
followed by the queued and the unsent jobs, are the submitted list, and a claim
takes the oldest queued job.  For the workers of `14_advanced_patterns.go`, on
a job channel of any capacity, the jobs received from the channel so far, in
order over all workers, followed by the queued jobs, are the jobs sent; a claim
takes the oldest queued job; a job is handed over to a waiting worker only when
none is queued, and it is then the latest sent and the latest claimed.  So when
nothing is queued or unsent, and always on an unbuffered channel, the claimed
sequence is the submitted one. -/
theorem jobs_are_claimed_in_submission_order (n : Nat) (js : List Int)
    (acts : List PoolAct) (s : Pool) (hrun : (Pool.init n js).run acts = some s)
    (m cap : Nat) (acts' : List CrewAct) (t : Crew)
    (hrun' : (Crew.init m cap).run acts' = some t) :
    (s.claims.map Prod.snd ++ s.jobs.buf ++ s.toSend = js ∧
      (s.jobs.buf = [] → s.toSend = [] → s.claims.map Prod.snd = js) ∧
      ∀ (i : Nat) (s' : Pool) (j : Int) (rest : List Int), s.step (.claim i) = some s' →
        s.jobs.buf = j :: rest → s'.claims = s.claims ++ [(i, j)] ∧ s'.jobs.buf = rest) ∧
    (t.claimed ++ t.jobChan.buf = t.sent ∧
      (t.jobChan.buf = [] → t.claimed = t.sent) ∧
      (∀ (i : Nat) (t' : Crew) (j : Job) (rest : List Job), t.step (.claim i) = some t' →
        t.jobChan.buf = j :: rest →
        t'.received = t.received ++ [(i, j, true)] ∧ t'.claimed = t.claimed ++ [j] ∧
          t'.jobChan.buf = rest) ∧
      (∀ (i : Nat) (t' : Crew) (j : Job), t.step (.pass j i) = some t' →
        t.jobChan.buf = [] ∧ t'.sent = t.sent ++ [j] ∧
        t'.received = t.received ++ [(i, j, true)] ∧ t'.claimed = t.claimed ++ [j] ∧
          t'.jobChan.buf = []) ∧
      (cap = 0 → t.jobChan.buf = [] ∧ t.claimed = t.sent)) := by
  have inv : Pool.Inv n js s := Pool.run_inv n js acts _ s (Pool.init_inv n js) hrun
  have inv' : t.Inv := Crew.run_holds acts' _ t (Crew.init_holds m cap) hrun'
  have hdrained : t.jobChan.buf = [] → t.claimed = t.sent := by
    intro h1
    have := inv'.order
    simpa [h1] using this
  refine ⟨⟨inv.order, ?_, ?_⟩, inv'.order, hdrained, ?_, ?_, ?_⟩
  · intro h1 h2
    have := inv.order
    simpa [h1, h2] using this
  · intro i s' j rest hstep hbuf
    obtain ⟨_, hcase⟩ := Pool.step_claim s s' i hstep
    rcases hcase with ⟨j', rest', hbuf', rfl⟩ | ⟨hbuf', _, _⟩
    · rw [hbuf] at hbuf'
      cases hbuf'
      exact ⟨rfl, rfl⟩
    · rw [hbuf] at hbuf'; cases hbuf'
  · intro i t' j rest hstep hbuf
    obtain ⟨_, _, hcase⟩ := Crew.step_receive t t' i hstep
    rcases hcase with ⟨j', rest', hbuf', rfl⟩ | ⟨hbuf', _, _⟩
    · rw [hbuf] at hbuf'
      cases hbuf'
      exact ⟨rfl, by simp [Crew.claimed], rfl⟩
    · rw [hbuf] at hbuf'; cases hbuf'
  · intro i t' j hstep
    obtain ⟨_, _, _, hbuf, rfl⟩ := Crew.step_pass t t' j i hstep
    exact ⟨hbuf, rfl, rfl, by simp [Crew.claimed], hbuf⟩
  · intro hcap
    obtain ⟨hroom, hcap'⟩ := Crew.run_room acts' _ t (by simp [Crew.init, Chan.make]) hrun'
    have hbuf : t.jobChan.buf = [] := by
      have hc : t.jobChan.cap = 0 := by rw [hcap', ← hcap]; rfl
      rw [hc] at hroom
      exact List.length_eq_zero.mp (Nat.le_zero.mp hroom)
    exact ⟨hbuf, hdrained hbuf⟩

/-- C10 on the complete schedule of the pool of `main`, on a schedule of one
worker on the channel of `main` and on a schedule of one worker on an
unbuffered channel: the claimed sequences are the submitted ones. -/
theorem jobs_are_claimed_in_submission_order_witness :
    poolEnd.claims.map Prod.snd = [1, 2, 3, 4, 5] ∧
    stopWhileBusyEnd.claimed = stopWhileBusyEnd.sent ∧
    (Crew.init 1 0).run unbuffered = some unbufferedEnd ∧
    unbufferedEnd.sent = [{ ID := 1, Data := "a" }, { ID := 2, Data := "b" }] ∧
    unbufferedEnd.claimed = unbufferedEnd.sent :=
  ⟨(jobs_are_claimed_in_submission_order 3 [1, 2, 3, 4, 5] poolSchedule poolEnd (by decide)
      1 10 stopWhileBusy stopWhileBusyEnd (by decide)).1.2.1 rfl rfl,
   (jobs_are_claimed_in_submission_order 3 [1, 2, 3, 4, 5] poolSchedule poolEnd (by decide)
      1 10 stopWhileBusy stopWhileBusyEnd (by decide)).2.2.1 rfl,
   by decide, rfl,
   ((jobs_are_claimed_in_submission_order 3 [1, 2, 3, 4, 5] poolSchedule poolEnd (by decide)
      1 0 unbuffered unbufferedEnd (by decide)).2.2.2.2.2 rfl).2⟩

/-! ## The job queue after `close`: claim C11 -/

/-- C11 as stated fails: on a closed job channel that still holds a job, the
send of a further job panics; the statement does not complete, so no error
value comes back to the sender, and in the model of the workers no step
enqueues the job or hands it to the worker. -/
theorem send_on_closed_queue_panics :
    closedQueue.closed = true ∧
    closedQueue.send { ID := 2, Data := "late" } = SendResult.panics ∧
    (closedQueue.send { ID := 2, Data := "late" }).completes = false ∧
    closedQueue.handsOver = false ∧
    closedCrew.step (.submit { ID := 2, Data := "late" }) = none ∧
    closedCrew.step (.pass { ID := 2, Data := "late" } 0) = none := by
  decide

/-- C11, amended: after `close`, for every content and capacity of the job
channel, a send on it panics: it never completes, is not handed over to a
waiting worker and enqueues nothing, neither for the workers of
`14_advanced_patterns.go` nor for the pool of `09_concurrency.go`. -/
theorem send_after_close_always_panics (ch : Chan Job) (job : Job)
    (hclosed : ch.closed = true) :
    ch.send job = .panics ∧ (ch.send job).completes = false ∧ ch.handsOver = false ∧
    (∀ s : Crew, s.jobChan = ch →
      s.step (.submit job) = none ∧ ∀ i : Nat, s.step (.pass job i) = none) ∧
    (∀ p : Pool, p.jobs.closed = true →
      (∀ j : Int, p.jobs.send j = .panics) ∧ p.step .mainSend = none) := by
  have hsend : ch.send job = .panics := by simp [Chan.send, hclosed]
  have hover : ch.handsOver = false := by simp [Chan.handsOver, hclosed]
  refine ⟨hsend, by rw [hsend]; rfl, hover, ?_, ?_⟩
  · intro s hs
    subst hs
    refine ⟨by simp [Crew.step, hsend], ?_⟩
    intro i
    simp only [Crew.step, hover]
    split <;> simp
  · intro p hp
    have hsend' : ∀ j : Int, p.jobs.send j = .panics := by
      intro j; simp [Chan.send, hp]
    refine ⟨hsend', ?_⟩
    simp only [Pool.step]
    cases p.toSend with
    | nil => rfl
    | cons j rest => simp [hsend']

/-- The amended C11 on the closed channel `closedQueue`, which holds a job. -/
theorem send_after_close_always_panics_witness :
    closedQueue.send { ID := 2, Data := "late" } = .panics ∧
    (closedQueue.send { ID := 2, Data := "late" }).completes = false ∧
    closedCrew.step (.submit { ID := 2, Data := "late" }) = none ∧
    closedCrew.step (.pass { ID := 2, Data := "late" } 0) = none :=
  ⟨(send_after_close_always_panics closedQueue { ID := 2, Data := "late" } rfl).1,
   (send_after_close_always_panics closedQueue { ID := 2, Data := "late" } rfl).2.1,
   ((send_after_close_always_panics closedQueue { ID := 2, Data := "late" } rfl).2.2.2.1
      closedCrew rfl).1,
   ((send_after_close_always_panics closedQueue { ID := 2, Data := "late" } rfl).2.2.2.1
      closedCrew rfl).2 0⟩

/-! ## The observer pattern: claims C12, C13 and C14 -/

theorem notifyFrom_eq (data : String) (l : List Observer) :
    ∀ calls, notifyFrom data l calls = calls ++ l.map (fun obs => (obs, data)) := by
  induction l with
  | nil => intro calls; simp [notifyFrom]
  | cons obs rest ih => intro calls; simp [notifyFrom, ih]

theorem NotifyAll_eq_map (s : ConcreteSubject) :
    s.NotifyAll = s.observers.map (fun obs => (obs, s.data)) := by
  simp [ConcreteSubject.NotifyAll, notifyFrom_eq]

theorem count_calls (l : List Observer) (o : Observer) (d : String) :
    (l.map (fun obs => (obs, d))).count (o, d) = l.count o := by
  induction l with
  | nil => rfl
  | cons x rest ih =>
    by_cases hx : x = o
    · subst hx; simp [ih]
    · have hne : ¬ (x, d) = (o, d) := by
        intro h; exact hx (Prod.mk.inj h).1
      have hne' : ¬ (x == o) = true := by simpa using hx
      simp only [List.map_cons, List.count_cons, ih]
      simp [hne, hx]

theorem deregisterFrom_eq (o : Observer) (rest : List Observer) :
    ∀ pre : List Observer, o ∉ pre →
      deregisterFrom o (pre ++ rest) pre.length rest = pre ++ rest.erase o := by
  induction rest with
  | nil => intro pre _; simp [deregisterFrom]
  | cons obs r ih =>
    intro pre hpre
    by_cases hobs : obs = o
    · subst hobs
      simp [deregisterFrom]
    · have hpre' : o ∉ pre ++ [obs] := by
        simp only [List.mem_append, List.mem_singleton, not_or]
        exact ⟨hpre, fun h => hobs h.symm⟩
      have := ih (pre ++ [obs]) hpre'
      simp only [List.append_assoc, List.singleton_append, List.length_append,
        List.length_singleton] at this
      simp only [deregisterFrom, hobs, if_false]
      rw [this]
      simp [List.erase_cons_tail, hobs]

theorem Deregister_eq_erase (s : ConcreteSubject) (o : Observer) :
    (s.Deregister o).observers = s.observers.erase o := by
  have := deregisterFrom_eq o s.observers [] (by simp)
  simpa [ConcreteSubject.Deregister] using this

/-- C12: `Register(o)` puts `o` at the end of the list, whether or not `o` is
already in it, and leaves the data; `NotifyAll` calls `Update` with the data of
the subject once per entry of the list, in list order; so registering `o` twice
more adds two calls of `o.Update` to every `NotifyAll`. -/
theorem Register_appends_and_NotifyAll_calls_each_entry (s : ConcreteSubject)
    (o : Observer) :
    (s.Register o).observers = s.observers ++ [o] ∧
    (s.Register o).data = s.data ∧
    s.NotifyAll = s.observers.map (fun obs => (obs, s.data)) ∧
    s.NotifyAll.length = s.observers.length ∧
    (∀ x : Observer, s.NotifyAll.count (x, s.data) = s.observers.count x) ∧
    ((s.Register o).Register o).NotifyAll = s.NotifyAll ++ [(o, s.data), (o, s.data)] ∧
    ((s.Register o).Register o).NotifyAll.count (o, s.data)
      = s.NotifyAll.count (o, s.data) + 2 := by
  refine ⟨rfl, rfl, NotifyAll_eq_map s, ?_, ?_, ?_, ?_⟩
  · simp [NotifyAll_eq_map]
  · intro x
    rw [NotifyAll_eq_map, count_calls]
  · simp [NotifyAll_eq_map, ConcreteSubject.Register]
  · simp [NotifyAll_eq_map, ConcreteSubject.Register, List.count_append]

/-- C13: `Deregister(o)` removes the first entry equal to `o`: when `o` is in
the list, the list is `l1 ++ o :: l2` with `o` not in `l1`, it becomes
`l1 ++ l2`, one shorter; when `o` is not in the list, the subject is unchanged.
The data is never touched. -/
theorem Deregister_removes_first_match (s : ConcreteSubject) (o : Observer) :
    (s.Deregister o).observers = s.observers.erase o ∧
    (s.Deregister o).data = s.data ∧
    (o ∈ s.observers → ∃ l1 l2, o ∉ l1 ∧ s.observers = l1 ++ o :: l2 ∧
      (s.Deregister o).observers = l1 ++ l2 ∧
      (s.Deregister o).observers.length + 1 = s.observers.length) ∧
    (o ∉ s.observers → s.Deregister o = s) := by
  refine ⟨Deregister_eq_erase s o, rfl, ?_, ?_⟩
  · intro hmem
    obtain ⟨l1, l2, h1, h2, h3⟩ := List.exists_erase_eq hmem
    refine ⟨l1, l2, h1, h2, by rw [Deregister_eq_erase, h3], ?_⟩
    rw [Deregister_eq_erase, h3, h2]
    simp
    omega
  · intro hnot
    have h := Deregister_eq_erase s o
    rw [List.erase_of_not_mem hnot] at h
    cases s with
    | mk obs d =>
      simp only [ConcreteSubject.Deregister] at h ⊢
      rw [h]

/-- C12 on a subject that lists the observer at address 7 twice: `NotifyAll`
calls it twice, and two more registrations add two more calls. -/
theorem Register_appends_and_NotifyAll_calls_each_entry_witness :
    twiceRegistered.NotifyAll = [(7, "d"), (3, "d"), (7, "d")] ∧
    ((twiceRegistered.Register 7).Register 7).NotifyAll.count (7, twiceRegistered.data)
      = twiceRegistered.NotifyAll.count (7, twiceRegistered.data) + 2 :=
  ⟨by decide, (Register_appends_and_NotifyAll_calls_each_entry twiceRegistered 7).2.2.2.2.2.2⟩

/-- C13 on the list 7, 3, 7: `Deregister(7)` leaves 3, 7, and `Deregister(4)`
leaves the subject as it is. -/
theorem Deregister_removes_first_match_witness :
    (twiceRegistered.Deregister 7).observers = [3, 7] ∧
    twiceRegistered.Deregister 4 = twiceRegistered :=
  ⟨(Deregister_removes_first_match twiceRegistered 7).1.trans (by decide),
   (Deregister_removes_first_match twiceRegistered 4).2.2.2 (by decide)⟩

/-- C14 as stated fails: with the observer at address 7 registered twice,
`Deregister(7)` removes only the first entry, and the next `NotifyAll` still
calls its `Update`. -/
theorem NotifyAll_still_calls_observer_registered_twice :
    twiceRegistered.observers = [7, 3, 7] ∧
    (twiceRegistered.Deregister 7).observers = [3, 7] ∧
    (twiceRegistered.Deregister 7).NotifyAll = [(3, "d"), (7, "d")] ∧
    (7, "d") ∈ (twiceRegistered.Deregister 7).NotifyAll := by
  decide

/-- C14, amended: for every observer list and observer `o`, `Deregister(o)`
takes away one delivery: the next `NotifyAll` calls `o.Update` one time fewer
than it would have (as many times as `o` is in the list, less one; not at all
when `o` is not in the list).  So when `o` is in the list at most once, after
`Deregister(o)` a `NotifyAll` does not call `o.Update`; when `o` is in the list
twice or more, it still does. -/
theorem Deregister_takes_away_one_delivery (s : ConcreteSubject) (o : Observer) :
    (s.Deregister o).NotifyAll.count (o, s.data) = s.NotifyAll.count (o, s.data) - 1 ∧
    (s.Deregister o).NotifyAll.count (o, s.data) = s.observers.count o - 1 ∧
    (s.observers.count o ≤ 1 → ∀ d : String, (o, d) ∉ (s.Deregister o).NotifyAll) ∧
    (2 ≤ s.observers.count o → (o, s.data) ∈ (s.Deregister o).NotifyAll) := by
  have hcount : (s.Deregister o).observers.count o = s.observers.count o - 1 := by
    rw [Deregister_eq_erase]
    exact List.count_erase_self o s.observers
  have hd : (s.Deregister o).data = s.data := rfl
  have hcalls : (s.Deregister o).NotifyAll.count (o, s.data) = s.observers.count o - 1 := by
    rw [NotifyAll_eq_map, hd, count_calls, hcount]
  refine ⟨?_, hcalls, ?_, ?_⟩
  · rw [hcalls, NotifyAll_eq_map, count_calls]
  · intro honce d hmem
    rw [NotifyAll_eq_map] at hmem
    simp only [List.mem_map, Prod.mk.injEq] at hmem
    obtain ⟨x, hx, hxo, _⟩ := hmem
    subst hxo
    have : 0 < (s.Deregister x).observers.count x := List.count_pos_iff.mpr hx
    omega
  · intro htwice
    apply List.count_pos_iff.mp
    rw [hcalls]
    omega

/-- The amended C14 on a subject with two observers, each registered once, and
on the list 7, 3, 7, where one call of the observer 7 is left of two. -/
theorem Deregister_takes_away_one_delivery_witness :
    (ConcreteSubject.Deregister { observers := [1, 2], data := "d" } 1).NotifyAll = [(2, "d")] ∧
    (∀ d : String,
      (1, d) ∉ (ConcreteSubject.Deregister { observers := [1, 2], data := "d" } 1).NotifyAll) ∧
    twiceRegistered.NotifyAll.count (7, "d") = 2 ∧
    (twiceRegistered.Deregister 7).NotifyAll.count (7, twiceRegistered.data) = 2 - 1 ∧
    (7, twiceRegistered.data) ∈ (twiceRegistered.Deregister 7).NotifyAll :=
  ⟨by decide,
   (Deregister_takes_away_one_delivery { observers := [1, 2], data := "d" } 1).2.2.1
      (by decide),
   by decide,
   (Deregister_takes_away_one_delivery twiceRegistered 7).2.1,
   (Deregister_takes_away_one_delivery twiceRegistered 7).2.2.2 (by decide)⟩

/-! ## Which inbox is listed where: claim C15 -/

theorem deliver_length (msg : String) (l : List Nat) : ∀ (h : Heap) (log : List Nat)
    (h' : Heap) (log' : List Nat), deliver msg l h log = .returned h' log' →
    h'.length = h.length := by
  induction l with
  | nil =>
    intro h log h' log' hd
    simp only [deliver, Outcome.returned.injEq] at hd
    rw [← hd.1]
  | cons c rest ih =>
    intro h log h' log' hd
    simp only [deliver] at hd
    split at hd
    · cases hd
    · split at hd
      · have := ih _ _ _ _ hd
        simpa using this
      · cases hd
      · cases hd

theorem Owned.init (n : Nat) : Owned n NewPubSub [] := by
  refine ⟨?_, by simp, by simp⟩
  intro t
  simp [NewPubSub, PubSub.lookup]

theorem Owned.subscribe (h : Heap) (ps : PubSub) (made : List (Nat × String)) (t : String)
    (r : Heap × PubSub × Nat) (hr : Subscribe h ps t = some r)
    (own : Owned h.length ps made) :
    Owned r.1.length r.2.1 (made ++ [(r.2.2, t)]) := by
  obtain ⟨hlist, hnodup, hbound⟩ := own
  obtain ⟨e1, e2, e3, e4, _, _⟩ := Subscribe_result h ps t r hr
  refine ⟨?_, ?_, ?_⟩
  · intro t'
    rw [List.filter_append, List.map_append, ← hlist t']
    by_cases ht : t' = t
    · subst ht
      simp [e3, e2]
    · have hne : ¬ t = t' := fun e => ht e.symm
      simp [e4 t' ht, hne]
  · rw [List.map_append, List.nodup_append]
    refine ⟨hnodup, by simp, ?_⟩
    intro a ha hb
    simp only [List.map_cons, List.map_nil, List.mem_singleton] at hb
    obtain ⟨e, he, rfl⟩ := List.mem_map.mp ha
    have := hbound e he
    rw [e2] at hb
    omega
  · intro e he
    simp only [List.mem_append, List.mem_singleton] at he
    rcases he with he | he
    · have := hbound e he
      simp only [e1, List.length_append, List.length_singleton]
      omega
    · subst he
      simp [e1, e2]

theorem World.call_owned (w w' : World) (op : Op) (made : List (Nat × String))
    (own : Owned w.heap.length w.ps made) (hcall : w.call op = some w') :
    Owned w'.heap.length w'.ps (made ++ w.creates op) := by
  cases op with
  | subscribe topic =>
    obtain ⟨r, hr, rfl⟩ := World.call_subscribe w w' topic hcall
    simp only [World.creates, hr]
    exact Owned.subscribe w.heap w.ps made topic r hr own
  | publish topic msg =>
    simp only [World.call] at hcall
    split at hcall
    · rename_i h' log hp
      cases hcall
      have hlen : h'.length = w.heap.length := by
        simp only [Publish] at hp
        split at hp
        · cases hp; rfl
        · exact deliver_length _ _ _ _ _ _ hp
      simpa [hlen, World.creates] using own
    · cases hcall
    · cases hcall

theorem World.run_owned (ops : List Op) : ∀ (w w' : World) (made : List (Nat × String)),
    Owned w.heap.length w.ps made → w.run ops = some w' →
    Owned w'.heap.length w'.ps (made ++ w.made ops) := by
  induction ops with
  | nil =>
    intro w w' made own hrun
    cases hrun
    simpa [World.made] using own
  | cons op rest ih =>
    intro w w' made own hrun
    simp only [World.run] at hrun
    cases hcall : w.call op with
    | none => rw [hcall] at hrun; cases hrun
    | some w1 =>
      rw [hcall] at hrun
      have h1 := World.call_owned w w1 op made own hcall
      have h2 := ih w1 w' _ h1 hrun
      simp only [World.made, hcall]
      rw [← List.append_assoc]
      exact h2

theorem Broker.step_owned (s s' : Broker) (a : BrokerAct) (made : List (Nat × String))
    (own : Owned s.heap.length s.ps made) (hstep : s.step a = some s') :
    Owned s'.heap.length s'.ps (made ++ s.creates a) := by
  cases a with
  | subscribe topic =>
    obtain ⟨_, r, hr, rfl⟩ := Broker.step_subscribe s s' topic hstep
    simp only [Broker.creates, hr]
    exact Owned.subscribe s.heap s.ps made topic r hr own
  | enter topic msg =>
    simp only [Broker.step] at hstep
    split at hstep <;> cases hstep <;> simpa [Broker.creates] using own
  | send i =>
    simp only [Broker.step] at hstep
    split at hstep
    · split at hstep
      · split at hstep
        · cases hstep
          simpa [Broker.creates] using own
        · cases hstep
        · cases hstep
      · cases hstep
    · cases hstep
  | leave i =>
    simp only [Broker.step] at hstep
    split at hstep
    · cases hstep; simpa [Broker.creates] using own
    · cases hstep
  | receive c =>
    simp only [Broker.step] at hstep
    split at hstep
    · split at hstep
      · cases hstep
        simpa [Broker.creates] using own
      · cases hstep
    · cases hstep

theorem Broker.run_keeps_owned (acts : List BrokerAct) : ∀ (s s' : Broker)
    (made : List (Nat × String)), Owned s.heap.length s.ps made → s.run acts = some s' →
    Owned s'.heap.length s'.ps (made ++ s.made acts) := by
  induction acts with
  | nil =>
    intro s s' made own hrun
    cases hrun
    simpa [Broker.made] using own
  | cons a rest ih =>
    intro s s' made own hrun
    simp only [Broker.run] at hrun
    cases hstep : s.step a with
    | none => rw [hstep] at hrun; cases hrun
    | some s1 =>
      rw [hstep] at hrun
      have h1 := Broker.step_owned s s1 a made own hstep
      have h2 := ih s1 s' _ h1 hrun
      simp only [Broker.made, hstep]
      rw [← List.append_assoc]
      exact h2

theorem Owned.listed_once (n : Nat) (ps : PubSub) (made : List (Nat × String))
    (own : Owned n ps made) :
    (∀ (t : String) (c : Nat), c ∈ ps.lookup t → (c, t) ∈ made) ∧
    (∀ (c : Nat) (t : String), (c, t) ∈ made →
      (ps.lookup t).count c = 1 ∧ ∀ t' : String, t' ≠ t → c ∉ ps.lookup t') := by
  obtain ⟨hlist, hnodup, _⟩ := own
  have hmem : ∀ (t : String) (c : Nat), c ∈ ps.lookup t ↔ (c, t) ∈ made := by
    intro t c
    rw [hlist t]
    simp only [List.mem_map, List.mem_filter, decide_eq_true_eq]
    constructor
    · rintro ⟨e, ⟨he, het⟩, hec⟩
      have : e = (c, t) := Prod.ext hec het
      rw [← this]; exact he
    · intro h
      exact ⟨(c, t), ⟨h, rfl⟩, rfl⟩
  have hsub : ∀ t : String, (ps.lookup t).Nodup := by
    intro t
    rw [hlist t]
    exact List.Nodup.sublist (List.Sublist.map _ (List.filter_sublist _)) hnodup
  refine ⟨fun t c hc => (hmem t c).mp hc, ?_⟩
  intro c t hin
  refine ⟨List.count_eq_one_of_mem (hsub t) ((hmem t c).mpr hin), ?_⟩
  intro t' hne hc
  have hin' := (hmem t' c).mp hc
  have := List.inj_on_of_nodup_map hnodup hin hin' rfl
  exact hne (Prod.mk.inj this).2.symm

/-- C15: after any sequence of `Subscribe` and `Publish` calls on a fresh
broker (over any heap of channels allocated before), and likewise in every
state the broker and its goroutines reach under any schedule: every channel in
the list of a topic was created by a `Subscribe` call for that topic; every
channel created by `Subscribe(t)` is in the list of `t` exactly once and in the
list of no other topic; the list of a topic is the channels created for it, in
creation order. -/
theorem inbox_listed_once_under_its_topic (h0 : Heap) (ops : List Op) (w : World)
    (hrun : World.run { heap := h0, ps := NewPubSub } ops = some w)
    (acts : List BrokerAct) (s : Broker) (hrun' : Broker.init.run acts = some s) :
    ((∀ (t : String) (c : Nat), c ∈ w.ps.lookup t →
        (c, t) ∈ World.made { heap := h0, ps := NewPubSub } ops) ∧
      (∀ (c : Nat) (t : String), (c, t) ∈ World.made { heap := h0, ps := NewPubSub } ops →
        (w.ps.lookup t).count c = 1 ∧ ∀ t' : String, t' ≠ t → c ∉ w.ps.lookup t') ∧
      (∀ t : String, w.ps.lookup t
        = ((World.made { heap := h0, ps := NewPubSub } ops).filter
            (fun e => e.2 = t)).map Prod.fst)) ∧
    ((∀ (t : String) (c : Nat), c ∈ s.ps.lookup t → (c, t) ∈ Broker.init.made acts) ∧
      (∀ (c : Nat) (t : String), (c, t) ∈ Broker.init.made acts →
        (s.ps.lookup t).count c = 1 ∧ ∀ t' : String, t' ≠ t → c ∉ s.ps.lookup t') ∧
      (∀ t : String, s.ps.lookup t
        = ((Broker.init.made acts).filter (fun e => e.2 = t)).map Prod.fst)) := by
  have own := World.run_owned ops { heap := h0, ps := NewPubSub } w [] (Owned.init _) hrun
  have own' := Broker.run_keeps_owned acts Broker.init s [] (Owned.init _) hrun'
  simp only [List.nil_append] at own own'
  exact ⟨⟨(Owned.listed_once _ _ _ own).1, (Owned.listed_once _ _ _ own).2, own.1⟩,
    (Owned.listed_once _ _ _ own').1, (Owned.listed_once _ _ _ own').2, own'.1⟩

/-- C15 on a sequence with two subscribers of `"news"` and one of `"sport"`
followed by a `Publish`, and on the schedule `twoPublishes`. -/
theorem inbox_listed_once_under_its_topic_witness :
    World.made { heap := [], ps := NewPubSub } threeSubscribers
      = [(0, "news"), (1, "sport"), (2, "news")] ∧
    ∃ w, World.run { heap := [], ps := NewPubSub } threeSubscribers = some w ∧
      w.ps.lookup "news" = [0, 2] ∧ w.ps.lookup "sport" = [1] ∧
      (w.ps.lookup "news").count 2 = 1 ∧ (∀ t' : String, t' ≠ "news" → 2 ∉ w.ps.lookup t') :=
  ⟨by decide, _, rfl, by decide, by decide,
   ((inbox_listed_once_under_its_topic [] threeSubscribers _ rfl twoPublishes _ rfl).1.2.1
      2 "news" (by decide)).1,
   ((inbox_listed_once_under_its_topic [] threeSubscribers _ rfl twoPublishes _ rfl).1.2.1
      2 "news" (by decide)).2⟩

/-! ## The calculator: claims C16 to C20 -/

theorem F64.eq_zero_iff (x : F64) :
    F64.eq x (.fin false 0 (-1074)) = true ↔ ∃ (neg : Bool) (e : Int), x = .fin neg 0 e := by
  cases x with
  | nan => simp [F64.eq]
  | inf a => simp [F64.eq]
  | fin a m e =>
    simp only [F64.eq, beq_self_eq_true, Bool.and_true, Bool.or_eq_true, Bool.and_eq_true,
      beq_iff_eq, F64.fin.injEq]
    constructor
    · rintro (h | h)
      · exact ⟨a, e, rfl, h, rfl⟩
      · exact ⟨a, e, rfl, h.1.2, rfl⟩
    · rintro ⟨neg, e', _, h, _⟩
      exact Or.inl h

/-- C16: `Divide(a, b)` returns an error exactly when `b == 0`, and then the
value 0; otherwise it returns the quotient `a / b` and no error.  On binary64
the test `b == 0` holds exactly for the two zeros. -/
theorem Divide_errors_iff_divisor_zero {F : Type} [Float64 F] (c : Calculator F) (a b : F) :
    ((c.Divide a b).2.2.isSome = true ↔ Float64.eq b (Float64.zero : F) = true) ∧
    (Float64.eq b (Float64.zero : F) = true →
      (c.Divide a b).2.1 = Float64.zero ∧ (c.Divide a b).2.2 = some "除数不能为零") ∧
    (Float64.eq b (Float64.zero : F) = false →
      (c.Divide a b).2.1 = Float64.div a b ∧ (c.Divide a b).2.2 = none) ∧
    (∀ x : F64, Float64.eq x (Float64.zero : F64) = true ↔
      ∃ (neg : Bool) (e : Int), x = .fin neg 0 e) := by
  refine ⟨?_, ?_, ?_, F64.eq_zero_iff⟩
  · cases h : Float64.eq b (Float64.zero : F) <;> simp [Calculator.Divide, h]
  · intro h; simp [Calculator.Divide, h]
  · intro h; simp [Calculator.Divide, h]

set_option maxRecDepth 8000 in
/-- C16 on the table of `TestCalculatorDivide`, in binary64: 6 / 2 = 3 and
-6 / 2 = -3 without error, 1 / 0 gives 0 and an error. -/
theorem Divide_errors_iff_divisor_zero_witness :
    (Calculator.new : Calculator F64).Divide (F64.lit 6) (F64.lit 2)
      = ({ lastResult := F64.lit 3 }, F64.lit 3, none) ∧
    (Calculator.new : Calculator F64).Divide (F64.neg (F64.lit 6)) (F64.lit 2)
      = ({ lastResult := F64.neg (F64.lit 3) }, F64.neg (F64.lit 3), none) ∧
    ((Calculator.new : Calculator F64).Divide (F64.lit 1) (F64.lit 0)).2.1 = F64.lit 0 ∧
    ((Calculator.new : Calculator F64).Divide (F64.lit 1) (F64.lit 0)).2.2.isSome = true :=
  ⟨by decide, by decide,
   ((Divide_errors_iff_divisor_zero (Calculator.new : Calculator F64) (F64.lit 1)
      (F64.lit 0)).2.1 (by decide)).1,
   (Divide_errors_iff_divisor_zero (Calculator.new : Calculator F64) (F64.lit 1)
      (F64.lit 0)).1.mpr (by decide)⟩

theorem factorialLoop_small (k : Nat) (hk : k ≤ 20) :
    k.factorial < 2 ^ 64 ∧ factorialLoop k = k.factorial := by
  interval_cases k <;> decide

/-- C17: for `0 ≤ n ≤ 20`, `Factorial(n)` returns `n!` and no error, and every
running product of the loop (`k!` for `k ≤ n`) is below `2^64`, so the `uint64`
product never wraps; for every `n`, `Factorial(n)` returns 0 together with an
error exactly when `n < 0` or `n > 20`. -/
theorem Factorial_exact_up_to_twenty {F : Type} [Float64 F] (c : Calculator F) (n : Int) :
    (0 ≤ n → n ≤ 20 →
      (c.Factorial n).2.1 = n.toNat.factorial ∧ (c.Factorial n).2.2 = none ∧
      ∀ k : Nat, k ≤ n.toNat → k.factorial < 2 ^ 64 ∧ factorialLoop k = k.factorial) ∧
    (((c.Factorial n).2.1 = 0 ∧ (c.Factorial n).2.2.isSome = true) ↔ (n < 0 ∨ n > 20)) := by
  refine ⟨?_, ?_⟩
  · intro h0 h20
    have hlo : ¬ n < 0 := by omega
    have hhi : ¬ n > 20 := by omega
    have hk : n.toNat ≤ 20 := by omega
    refine ⟨?_, ?_, ?_⟩
    · simp only [Calculator.Factorial, hlo, hhi, if_false]
      exact (factorialLoop_small _ hk).2
    · simp only [Calculator.Factorial, hlo, hhi, if_false]
    · intro k hkn
      exact factorialLoop_small k (by omega)
  · by_cases hlo : n < 0
    · simp [Calculator.Factorial, hlo]
    · by_cases hhi : n > 20
      · simp [Calculator.Factorial, hlo, hhi]
      · have hk : n.toNat ≤ 20 := by omega
        simp only [Calculator.Factorial, hlo, hhi, if_false, Option.isSome_none,
          Bool.false_eq_true, and_false, or_self]

/-- C17 on the call `Factorial(5)` of `main` and at both ends of the guard. -/
theorem Factorial_exact_up_to_twenty_witness :
    ((Calculator.new : Calculator F64).Factorial 5).2.1 = 120 ∧
    ((Calculator.new : Calculator F64).Factorial 20).2.1 = 2432902008176640000 ∧
    ((Calculator.new : Calculator F64).Factorial 21).2.1 = 0 ∧
    ((Calculator.new : Calculator F64).Factorial 21).2.2.isSome = true :=
  ⟨((Factorial_exact_up_to_twenty (Calculator.new : Calculator F64) 5).1
      (by decide) (by decide)).1,
   ((Factorial_exact_up_to_twenty (Calculator.new : Calculator F64) 20).1
      (by decide) (by decide)).1,
   ((Factorial_exact_up_to_twenty (Calculator.new : Calculator F64) 21).2.mpr
      (Or.inr (by decide))).1,
   ((Factorial_exact_up_to_twenty (Calculator.new : Calculator F64) 21).2.mpr
      (Or.inr (by decide))).2⟩

set_option maxRecDepth 8000 in
/-- C18 as stated fails: on a calculator whose last result is 5 (after
`Add(2, 3)`), `Divide(1, 0)` returns 0 with an error and leaves `lastResult`
alone, so `GetLastResult` is still 5; `SquareRoot(-1)` and `Factorial(21)`
do the same. -/
theorem GetLastResult_after_failed_call :
    afterAdd.GetLastResult = F64.lit 5 ∧
    (afterAdd.Divide (F64.lit 1) (F64.lit 0)).2.1 = F64.lit 0 ∧
    (afterAdd.Divide (F64.lit 1) (F64.lit 0)).2.2.isSome = true ∧
    (afterAdd.Divide (F64.lit 1) (F64.lit 0)).1.GetLastResult = F64.lit 5 ∧
    F64.eq (F64.lit 5) (F64.lit 0) = false ∧
    (afterAdd.SquareRoot (F64.neg (F64.lit 1))).2.1 = F64.lit 0 ∧
    (afterAdd.SquareRoot (F64.neg (F64.lit 1))).1.GetLastResult = F64.lit 5 ∧
    (afterAdd.Factorial 21).2.1 = 0 ∧
    (afterAdd.Factorial 21).1.GetLastResult = F64.lit 5 := by
  decide

set_option maxRecDepth 8000 in
theorem factorial_converts_exactly (k : Nat) (hk : k ≤ 20) :
    F64.isNat (F64.ofUint64 (factorialLoop k)) (factorialLoop k) = true := by
  interval_cases k <;> decide

/-- C18, amended: immediately after a call of `Add`, `Subtract`, `Multiply`,
`Square` or `Power`, and after a call of `Divide`, `SquareRoot` or `Factorial`
that returns no error, `GetLastResult` is the result that call returned; for
`Factorial` it is the `float64` conversion of the `uint64` returned, and on
binary64 that conversion is exact for every result `Factorial` can return. -/
theorem GetLastResult_after_successful_call {F : Type} [Float64 F] (pow : F → F → F)
    (c : Calculator F) (a b : F) (n : Int) :
    (c.Add a b).1.GetLastResult = (c.Add a b).2 ∧
    (c.Subtract a b).1.GetLastResult = (c.Subtract a b).2 ∧
    (c.Multiply a b).1.GetLastResult = (c.Multiply a b).2 ∧
    (c.Square a).1.GetLastResult = (c.Square a).2 ∧
    (c.Power pow a b).1.GetLastResult = (c.Power pow a b).2 ∧
    ((c.Divide a b).2.2 = none → (c.Divide a b).1.GetLastResult = (c.Divide a b).2.1) ∧
    ((c.SquareRoot a).2.2 = none →
      (c.SquareRoot a).1.GetLastResult = (c.SquareRoot a).2.1) ∧
    ((c.Factorial n).2.2 = none →
      (c.Factorial n).1.GetLastResult = Float64.ofUint64 (c.Factorial n).2.1) ∧
    (∀ c' : Calculator F64, (c'.Factorial n).2.2 = none →
      F64.isNat (c'.Factorial n).1.GetLastResult (c'.Factorial n).2.1 = true) := by
  refine ⟨rfl, rfl, rfl, rfl, rfl, ?_, ?_, ?_, ?_⟩
  · cases h : Float64.eq b (Float64.zero : F) <;>
      simp [Calculator.Divide, h, Calculator.GetLastResult]
  · cases h : Float64.lt a (Float64.zero : F) <;>
      simp [Calculator.SquareRoot, h, Calculator.GetLastResult]
  · by_cases hlo : n < 0
    · simp [Calculator.Factorial, hlo]
    · by_cases hhi : n > 20
      · simp [Calculator.Factorial, hlo, hhi]
      · simp [Calculator.Factorial, hlo, hhi, Calculator.GetLastResult]
  · intro c'
    by_cases hlo : n < 0
    · simp [Calculator.Factorial, hlo]
    · by_cases hhi : n > 20
      · simp [Calculator.Factorial, hlo, hhi]
      · intro _
        have hk : n.toNat ≤ 20 := by omega
        simp only [Calculator.Factorial, hlo, hhi, if_false, Calculator.GetLastResult]
        exact factorial_converts_exactly _ hk

set_option maxRecDepth 8000 in
/-- The amended C18 in binary64, on the calls of `main`: `Divide(15, 3)`
returns 5 and `Factorial(5)` returns 120, and `GetLastResult` gives 5 and 120
after them. -/
theorem GetLastResult_after_successful_call_witness :
    (afterAdd.Divide (F64.lit 15) (F64.lit 3)).2.1 = F64.lit 5 ∧
    (afterAdd.Divide (F64.lit 15) (F64.lit 3)).1.GetLastResult = F64.lit 5 ∧
    (afterAdd.Factorial 5).2.1 = 120 ∧
    (afterAdd.Factorial 5).1.GetLastResult = F64.lit 120 :=
  ⟨by decide,
   ((GetLastResult_after_successful_call F64.mul afterAdd (F64.lit 15) (F64.lit 3) 5).2.2.2.2.2.1
      (by decide)).trans (by decide),
   by decide,
   ((GetLastResult_after_successful_call F64.mul afterAdd (F64.lit 15) (F64.lit 3) 5).2.2.2.2.2.2.2.1
      (by decide)).trans (by decide)⟩

/-- C19: for every calculator state, `Add`, `Subtract` and `Multiply` return
`a + b`, `a - b` and `a * b`; the outcome of the call, value and new state, is
the same from any two prior states. -/
theorem Add_Subtract_Multiply_ignore_state {F : Type} [Float64 F] (c c' : Calculator F)
    (a b : F) :
    (c.Add a b).2 = Float64.add a b ∧
    (c.Subtract a b).2 = Float64.sub a b ∧
    (c.Multiply a b).2 = Float64.mul a b ∧
    c.Add a b = c'.Add a b ∧
    c.Subtract a b = c'.Subtract a b ∧
    c.Multiply a b = c'.Multiply a b :=
  ⟨rfl, rfl, rfl, rfl, rfl, rfl⟩

set_option maxRecDepth 8000 in
/-- C19 on the tables of the tests, in binary64: 2 + 3 = 5, -2 + -3 = -5,
0 + 0 = 0, 2 + -3 = -1, 5 - 3 = 2, 4 * 3 = 12, from a fresh calculator and from
one whose last result is 5. -/
theorem Add_Subtract_Multiply_ignore_state_witness :
    (afterAdd.Add (F64.lit 2) (F64.lit 3)).2 = F64.lit 5 ∧
    ((Calculator.new : Calculator F64).Add (F64.lit 2) (F64.lit 3)).2 = F64.lit 5 ∧
    (afterAdd.Add (F64.neg (F64.lit 2)) (F64.neg (F64.lit 3))).2 = F64.neg (F64.lit 5) ∧
    (afterAdd.Add (F64.lit 0) (F64.lit 0)).2 = F64.lit 0 ∧
    (afterAdd.Add (F64.lit 2) (F64.neg (F64.lit 3))).2 = F64.neg (F64.lit 1) ∧
    (afterAdd.Subtract (F64.lit 5) (F64.lit 3)).2 = F64.lit 2 ∧
    (afterAdd.Multiply (F64.lit 4) (F64.lit 3)).2 = F64.lit 12 :=
  ⟨(Add_Subtract_Multiply_ignore_state afterAdd Calculator.new (F64.lit 2)
      (F64.lit 3)).1.trans (by decide),
   by decide, by decide, by decide, by decide, by decide, by decide⟩

theorem F64.round_positive (M : Nat) (E : Int) :
    F64.round false M E = .inf false ∨
      ∃ (m : Nat) (e : Int), F64.round false M E = .fin false m e := by
  simp only [F64.round]
  split_ifs
  all_goals first | exact Or.inl rfl | exact Or.inr ⟨_, _, rfl⟩

theorem F64.lt_zero_of_positive (x : F64)
    (hx : x = .inf false ∨ ∃ (m : Nat) (e : Int), x = .fin false m e) :
    F64.lt x (.fin false 0 (-1074)) = false := by
  rcases hx with h | ⟨m, e, h⟩
  · rw [h]; rfl
  · rw [h]
    by_cases hm : m = 0 <;> simp [F64.lt, hm]

theorem F64.sqrt_not_negative (x : F64) :
    F64.lt (F64.sqrt x) (.fin false 0 (-1074)) = false := by
  cases x with
  | nan => rfl
  | inf a => cases a <;> rfl
  | fin a m e =>
    simp only [F64.sqrt]
    split_ifs
    · cases a <;> simp [F64.lt]
    · rfl
    all_goals exact F64.lt_zero_of_positive _ (F64.round_positive _ _)

set_option maxRecDepth 8000 in
/-- C20 as stated fails: `SquareRoot(2)` returns, without error, the binary64
value 6369051672525773 * 2^-52, whose square is not 2, neither exactly nor as
the `float64` product, which is 2.0000000000000004; and `SquareRoot(2^201)`
returns 6369051672525773 * 2^48, which is above the real root by more than 1,
far beyond the 0.0001 of the test. -/
theorem SquareRoot_square_differs_from_argument :
    ((Calculator.new : Calculator F64).SquareRoot (F64.lit 2)).2.2 = none ∧
    ((Calculator.new : Calculator F64).SquareRoot (F64.lit 2)).2.1
      = .fin false 6369051672525773 (-52) ∧
    F64.mul (.fin false 6369051672525773 (-52)) (.fin false 6369051672525773 (-52))
      = .fin false 4503599627370497 (-51) ∧
    F64.eq (F64.mul (.fin false 6369051672525773 (-52)) (.fin false 6369051672525773 (-52)))
      (F64.lit 2) = false ∧
    6369051672525773 * 6369051672525773 ≠ 2 * 2 ^ 104 ∧
    ((Calculator.new : Calculator F64).SquareRoot twoTo201).2.2 = none ∧
    ((Calculator.new : Calculator F64).SquareRoot twoTo201).2.1
      = .fin false 6369051672525773 48 ∧
    2 ^ 201 < (6369051672525773 * 2 ^ 48 - 1) * (6369051672525773 * 2 ^ 48 - 1) := by
  decide

/-- C20, amended: `SquareRoot(n)` returns an error exactly when `n < 0`, and
then the value 0; otherwise it returns `math.Sqrt(n)` and no error.  On
binary64 the value returned is never negative, and it is the exact root for
the inputs of the test: `SquareRoot(16) = 4` and `SquareRoot(0) = 0`. -/
theorem SquareRoot_errors_iff_negative {F : Type} [Float64 F] (c : Calculator F) (n : F) :
    ((c.SquareRoot n).2.2.isSome = true ↔ Float64.lt n (Float64.zero : F) = true) ∧
    (Float64.lt n (Float64.zero : F) = true →
      (c.SquareRoot n).2.1 = Float64.zero ∧
      (c.SquareRoot n).2.2 = some "不能对负数求平方根") ∧
    (Float64.lt n (Float64.zero : F) = false →
      (c.SquareRoot n).2.1 = Float64.sqrt n ∧ (c.SquareRoot n).2.2 = none) ∧
    (∀ (c' : Calculator F64) (x : F64),
      Float64.lt (c'.SquareRoot x).2.1 (Float64.zero : F64) = false) := by
  refine ⟨?_, ?_, ?_, ?_⟩
  · cases h : Float64.lt n (Float64.zero : F) <;> simp [Calculator.SquareRoot, h]
  · intro h; simp [Calculator.SquareRoot, h]
  · intro h; simp [Calculator.SquareRoot, h]
  · intro c' x
    cases h : Float64.lt x (Float64.zero : F64)
    · simp only [Calculator.SquareRoot, h]
      exact F64.sqrt_not_negative x
    · simp only [Calculator.SquareRoot, h]
      rfl

set_option maxRecDepth 8000 in
/-- The amended C20 on the table of `TestCalculatorSquareRoot`, in binary64:
`SquareRoot(16) = 4` and `SquareRoot(0) = 0` without error, `SquareRoot(-1)`
gives 0 and an error. -/
theorem SquareRoot_errors_iff_negative_witness :
    (Calculator.new : Calculator F64).SquareRoot (F64.lit 16)
      = ({ lastResult := F64.lit 4 }, F64.lit 4, none) ∧
    (Calculator.new : Calculator F64).SquareRoot (F64.lit 0)
      = ({ lastResult := F64.lit 0 }, F64.lit 0, none) ∧
    ((Calculator.new : Calculator F64).SquareRoot (F64.neg (F64.lit 1))).2.1 = F64.lit 0 ∧
    ((Calculator.new : Calculator F64).SquareRoot (F64.neg (F64.lit 1))).2.2.isSome = true :=
  ⟨by decide, by decide,
   ((SquareRoot_errors_iff_negative (Calculator.new : Calculator F64)
      (F64.neg (F64.lit 1))).2.1 (by decide)).1,
   (SquareRoot_errors_iff_negative (Calculator.new : Calculator F64)
      (F64.neg (F64.lit 1))).1.mpr (by decide)⟩

/-! ## The singleton: claim C21 -/

theorem getInstanceTimes_done (n : Nat) : ∀ g : Globals, g.onceDone = true →
    getInstanceTimes n g = (g, List.replicate n g.inst) := by
  induction n with
  | zero => intro g _; rfl
  | succ n ih =>
    intro g hg
    have h1 : GetInstance g = (g, g.inst) := by simp [GetInstance, hg]
    simp only [getInstanceTimes, h1, ih g hg, List.replicate_succ]

/-- C21: from any state, a second call of `GetInstance` returns what the first
returned and changes nothing; from program start the first call constructs the
`Singleton` with data "单例数据" and returns its address, and in any run of
`n + 1` calls every call returns that address while exactly one `Singleton`
has been constructed; in particular the two calls of `main` return equal
pointers. -/
theorem GetInstance_constructs_once (g : Globals) (n : Nat) :
    GetInstance (GetInstance g).1 = ((GetInstance g).1, (GetInstance g).2) ∧
    GetInstance Globals.init
      = ({ objects := [{ data := "单例数据" }], inst := some 0, onceDone := true }, some 0) ∧
    (getInstanceTimes (n + 1) Globals.init).2 = List.replicate (n + 1) (some 0) ∧
    (getInstanceTimes (n + 1) Globals.init).1.objects = [{ data := "单例数据" }] ∧
    (GetInstance (GetInstance Globals.init).1).2 = (GetInstance Globals.init).2 := by
  have hfirst : GetInstance Globals.init
      = ({ objects := [{ data := "单例数据" }], inst := some 0, onceDone := true }, some 0) := rfl
  have hrun : getInstanceTimes (n + 1) Globals.init
      = ({ objects := [{ data := "单例数据" }], inst := some 0, onceDone := true },
          List.replicate (n + 1) (some 0)) := by
    simp only [getInstanceTimes, hfirst]
    rw [getInstanceTimes_done n _ rfl]
    simp [List.replicate_succ]
  refine ⟨?_, hfirst, by rw [hrun], by rw [hrun], rfl⟩
  cases hd : g.onceDone <;> simp [GetInstance, hd]

/-- C21 on the two calls of `main`: both return the address 0, and one
`Singleton` exists afterwards. -/
theorem GetInstance_constructs_once_witness :
    getInstanceTimes 2 Globals.init
      = ({ objects := [{ data := "单例数据" }], inst := some 0, onceDone := true },
          [some 0, some 0]) := by
  have h := GetInstance_constructs_once Globals.init 1
  exact Prod.ext (by decide) h.2.2.1

/-! ## The guard of `Factorial`: claim C22 -/

theorem factorial_large (m : Nat) (hm : 20 < m) : 2 ^ 64 ≤ m.factorial := by
  have h21 : 2 ^ 64 ≤ Nat.factorial 21 := by decide
  exact le_trans h21 (Nat.factorial_le hm)

theorem factorial_small (m : Nat) (hm : m ≤ 20) : m.factorial < 2 ^ 64 := by
  have h20 : Nat.factorial 20 < 2 ^ 64 := by decide
  exact lt_of_le_of_lt (Nat.factorial_le hm) h20

/-- C22: `20! < 2^64`, and `m! ≥ 2^64` for every `m > 20`; so for `n ≥ 0` the
guard `n > 20` of `Factorial` holds exactly when `n!` does not fit in 64
unsigned bits, and `Factorial(n)` returns its "too large" error exactly then;
without the guard the loop would wrap already at 21. -/
theorem Factorial_guard_is_exact {F : Type} [Float64 F] (c : Calculator F) (n : Int)
    (hn : 0 ≤ n) :
    Nat.factorial 20 < 2 ^ 64 ∧
    (∀ m : Nat, 20 < m → 2 ^ 64 ≤ m.factorial) ∧
    (n > 20 ↔ 2 ^ 64 ≤ n.toNat.factorial) ∧
    ((c.Factorial n).2.2 = some "数字太大，可能会溢出" ↔ 2 ^ 64 ≤ n.toNat.factorial) ∧
    factorialLoop 21 ≠ Nat.factorial 21 := by
  have hiff : n > 20 ↔ 2 ^ 64 ≤ n.toNat.factorial := by
    constructor
    · intro h
      exact factorial_large _ (by omega)
    · intro h
      by_contra hle
      have := factorial_small n.toNat (by omega)
      omega
  refine ⟨by decide, factorial_large, hiff, ?_, by decide⟩
  rw [← hiff]
  have hlo : ¬ n < 0 := by omega
  by_cases hhi : n > 20
  · simp [Calculator.Factorial, hlo, hhi]
  · simp [Calculator.Factorial, hlo, hhi]

/-- C22 at both sides of the guard: `Factorial(20)` is accepted and 20! fits,
`Factorial(21)` is rejected and 21! does not fit. -/
theorem Factorial_guard_is_exact_witness :
    (¬ ((20 : Int) > 20) ∧ Nat.factorial 20 < 2 ^ 64) ∧
    ((21 : Int) > 20 ∧ 2 ^ 64 ≤ Nat.factorial 21) ∧
    ((Calculator.new : Calculator F64).Factorial 21).2.2 = some "数字太大，可能会溢出" :=
  ⟨⟨by decide, (Factorial_guard_is_exact (Calculator.new : Calculator F64) 20 (by decide)).1⟩,
   ⟨by decide,
    (Factorial_guard_is_exact (Calculator.new : Calculator F64) 21 (by decide)).2.2.1.mp
      (by decide)⟩,
   (Factorial_guard_is_exact (Calculator.new : Calculator F64) 21 (by decide)).2.2.2.1.mpr
      ((Factorial_guard_is_exact (Calculator.new : Calculator F64) 21 (by decide)).2.2.1.mp
        (by decide))⟩

/-! ## The flag `closed` of a reachable broker: claim C23 -/

theorem World.call_closed (w w' : World) (op : Op) (hcall : w.call op = some w') :
    w'.ps.closed = w.ps.closed := by
  cases op with
  | subscribe topic =>
    obtain ⟨r, hr, rfl⟩ := World.call_subscribe w w' topic hcall
    exact (Subscribe_result w.heap w.ps topic r hr).2.2.2.2.1
  | publish topic msg =>
    simp only [World.call] at hcall
    split at hcall
    · cases hcall; rfl
    · cases hcall
    · cases hcall

theorem World.run_keeps_closed (ops : List Op) : ∀ (w w' : World), w.run ops = some w' →
    w'.ps.closed = w.ps.closed := by
  induction ops with
  | nil => intro w w' hrun; cases hrun; rfl
  | cons op rest ih =>
    intro w w' hrun
    simp only [World.run] at hrun
    cases hcall : w.call op with
    | none => rw [hcall] at hrun; cases hrun
    | some w1 =>
      rw [hcall] at hrun
      rw [ih w1 w' hrun, World.call_closed w w1 op hcall]

theorem Broker.step_closed (s s' : Broker) (a : BrokerAct) (hstep : s.step a = some s') :
    s'.ps.closed = s.ps.closed := by
  cases a with
  | subscribe topic =>
    obtain ⟨_, r, hr, rfl⟩ := Broker.step_subscribe s s' topic hstep
    exact (Subscribe_result s.heap s.ps topic r hr).2.2.2.2.1
  | enter topic msg =>
    simp only [Broker.step] at hstep
    split at hstep <;> cases hstep <;> rfl
  | send i =>
    simp only [Broker.step] at hstep
    split at hstep
    · split at hstep
      · split at hstep
        · cases hstep; rfl
        · cases hstep
        · cases hstep
      · cases hstep
    · cases hstep
  | leave i =>
    simp only [Broker.step] at hstep
    split at hstep
    · cases hstep; rfl
    · cases hstep
  | receive c =>
    simp only [Broker.step] at hstep
    split at hstep
    · split at hstep
      · cases hstep; rfl
      · cases hstep
    · cases hstep

theorem Broker.run_closed (acts : List BrokerAct) : ∀ (s s' : Broker),
    s.run acts = some s' → s'.ps.closed = s.ps.closed := by
  induction acts with
  | nil => intro s s' hrun; cases hrun; rfl
  | cons a rest ih =>
    intro s s' hrun
    simp only [Broker.run] at hrun
    cases hstep : s.step a with
    | none => rw [hstep] at hrun; cases hrun
    | some s1 =>
      rw [hstep] at hrun
      rw [ih s1 s' hrun, Broker.step_closed s s1 a hstep]

/-- C23: after any sequence of `Subscribe` and `Publish` calls on a fresh
broker (over any heap), and in every state the broker and its goroutines reach
under any schedule, `closed` is false; so every call of `Publish` there goes
past the test of `closed` into the delivery loop, and every `Publish` step of a
goroutine enters the loop with the list of the topic. -/
theorem reachable_broker_is_open (h0 : Heap) (ops : List Op) (w : World)
    (hrun : World.run { heap := h0, ps := NewPubSub } ops = some w)
    (acts : List BrokerAct) (s : Broker) (hrun' : Broker.init.run acts = some s) :
    w.ps.closed = false ∧
    (∀ t m : String, Publish w.heap w.ps t m = deliver m (w.ps.lookup t) w.heap []) ∧
    s.ps.closed = false ∧
    (∀ t m : String, s.step (.enter t m)
      = some { s with readers := s.readers ++ [{ msg := m, todo := s.ps.lookup t }] }) := by
  have hw : w.ps.closed = false := World.run_keeps_closed ops _ w hrun
  have hs : s.ps.closed = false := Broker.run_closed acts _ s hrun'
  refine ⟨hw, ?_, hs, ?_⟩
  · intro t m; simp [Publish, hw]
  · intro t m; simp [Broker.step, hs]

/-- C23 on the sequence `threeSubscribers` and the schedule `twoPublishes`. -/
theorem reachable_broker_is_open_witness :
    ∃ w s, World.run { heap := [], ps := NewPubSub } threeSubscribers = some w ∧
      Broker.init.run twoPublishes = some s ∧ w.ps.closed = false ∧ s.ps.closed = false :=
  ⟨_, _, rfl, rfl,
   (reachable_broker_is_open [] threeSubscribers _ rfl twoPublishes _ rfl).1,
   (reachable_broker_is_open [] threeSubscribers _ rfl twoPublishes _ rfl).2.2.1⟩

/-! ## Failed calls of the calculator: claim C24 -/

/-- C24: when `Divide`, `SquareRoot` or `Factorial` returns an error, the
calculator after the call is the calculator before it, so `GetLastResult`
gives the value it gave before. -/
theorem failed_call_keeps_lastResult {F : Type} [Float64 F] (c : Calculator F) (a b : F)
    (n : Int) :
    ((c.Divide a b).2.2.isSome = true →
      (c.Divide a b).1 = c ∧ (c.Divide a b).1.GetLastResult = c.GetLastResult) ∧
    ((c.SquareRoot a).2.2.isSome = true →
      (c.SquareRoot a).1 = c ∧ (c.SquareRoot a).1.GetLastResult = c.GetLastResult) ∧
    ((c.Factorial n).2.2.isSome = true →
      (c.Factorial n).1 = c ∧ (c.Factorial n).1.GetLastResult = c.GetLastResult) := by
  refine ⟨?_, ?_, ?_⟩
  · cases h : Float64.eq b (Float64.zero : F) <;> simp [Calculator.Divide, h]
  · cases h : Float64.lt a (Float64.zero : F) <;> simp [Calculator.SquareRoot, h]
  · by_cases hlo : n < 0
    · simp [Calculator.Factorial, hlo]
    · by_cases hhi : n > 20
      · simp [Calculator.Factorial, hlo, hhi]
      · simp [Calculator.Factorial, hlo, hhi]

set_option maxRecDepth 8000 in
/-- C24 in binary64 on a calculator whose last result is 5: `Divide(1, 0)`,
`SquareRoot(-1)`, `Factorial(-1)` and `Factorial(21)` fail and leave it so. -/
theorem failed_call_keeps_lastResult_witness :
    (afterAdd.Divide (F64.lit 1) (F64.lit 0)).1 = afterAdd ∧
    (afterAdd.SquareRoot (F64.neg (F64.lit 1))).1 = afterAdd ∧
    (afterAdd.Factorial (-1)).1 = afterAdd ∧
    (afterAdd.Factorial 21).1 = afterAdd ∧
    afterAdd.GetLastResult = F64.lit 5 :=
  ⟨((failed_call_keeps_lastResult afterAdd (F64.lit 1) (F64.lit 0) 21).1 (by decide)).1,
   ((failed_call_keeps_lastResult afterAdd (F64.neg (F64.lit 1)) (F64.lit 0) 21).2.1
      (by decide)).1,
   ((failed_call_keeps_lastResult afterAdd (F64.lit 1) (F64.lit 0) (-1)).2.2 (by decide)).1,
   ((failed_call_keeps_lastResult afterAdd (F64.lit 1) (F64.lit 0) 21).2.2 (by decide)).1,
   by decide⟩

/-! ## Retrying an operation: claim C25 -/

theorem retryLoop_spec {σ E : Type} (attempts : Int) (f : σ → Option E × σ) :
    ∀ (k : Nat) (i : Int) (s : σ) (err : Option E) (calls : List (Option E))
      (printed : List Int),
    ∃ n : Nat, n ≤ k ∧
      (retryLoop attempts f k i s err calls printed).calls = calls ++ callsFrom f n s ∧
      (retryLoop attempts f k i s err calls printed).state = stateAfter f n s ∧
      (∀ j, j + 1 < n → (callsFrom f n s)[j]? ≠ some none) ∧
      ((retryLoop attempts f k i s err calls printed).result = none ↔
        none ∈ callsFrom f n s) ∧
      ((retryLoop attempts f k i s err calls printed).result ≠ none → n = k ∧
        (retryLoop attempts f k i s err calls printed).result
          = some { attempts := attempts, err := ((callsFrom f n s).getLast?).getD err }) := by
  intro k
  induction k with
  | zero =>
    intro i s err calls printed
    refine ⟨0, le_refl _, ?_, ?_, ?_, ?_, ?_⟩ <;> simp [retryLoop, callsFrom, stateAfter]
  | succ k ih =>
    intro i s err calls printed
    cases hf : (f s).1 with
    | none =>
      refine ⟨1, by omega, ?_, ?_, ?_, ?_, ?_⟩ <;>
        simp [retryLoop, callsFrom, stateAfter, hf]
    | some e =>
      obtain ⟨n, hn, hcalls, hstate, hmid, hnil, herr⟩ :=
        ih (i + 1) (f s).2 (some e) (calls ++ [some e])
          (if i < attempts - 1 then printed ++ [i + 1] else printed)
      refine ⟨n + 1, by omega, ?_, ?_, ?_, ?_, ?_⟩
      · simp only [retryLoop, hf, callsFrom]
        rw [hcalls]
        simp
      · simp only [retryLoop, hf, stateAfter]
        exact hstate
      · intro j hj
        cases j with
        | zero => simp [callsFrom, hf]
        | succ j =>
          simp only [callsFrom, List.getElem?_cons_succ]
          exact hmid j (by omega)
      · simp only [retryLoop, hf, callsFrom]
        rw [hnil]
        simp
      · simp only [retryLoop, hf, callsFrom]
        intro hne
        obtain ⟨hk, hres⟩ := herr hne
        refine ⟨by omega, ?_⟩
        rw [hres]
        cases hl : (callsFrom f n (f s).2).getLast? with
        | none => simp [List.getLast?_cons, hl]
        | some x => simp [List.getLast?_cons, hl]

/-- C25 as stated fails at `attempts ≤ 0`: `retryOperation(0, ...)` makes no
call of `f`, yet it returns a non-nil error; that error wraps nothing, so it
does not wrap the error of a last call (there is none). -/
theorem retryOperation_without_call_wraps_nothing :
    (retryOperation 0 alwaysFails ()).calls = [] ∧
    (retryOperation 0 alwaysFails ()).result = some { attempts := 0, err := none } ∧
    ¬ ((retryOperation 0 alwaysFails ()).result ≠ none →
        ∃ e, (retryOperation 0 alwaysFails ()).calls.getLast? = some (some e) ∧
          (retryOperation 0 alwaysFails ()).result
            = some { attempts := 0, err := some e }) := by
  refine ⟨rfl, rfl, ?_⟩
  intro h
  obtain ⟨e, hlast, _⟩ := h (by simp [retryOperation, retryLoop])
  simp [retryOperation, retryLoop] at hlast

/-- C25, amended: for every integer `attempts` and every operation `f` started in any
state, `retryOperation` makes `n ≤ max(attempts, 0)` successive calls of `f`;
every call but the last returned an error, so no call follows one that returned
nil; the result is nil exactly when one of the calls returned nil; otherwise all
`max(attempts, 0)` calls were made and the result is the non-nil error that
records `attempts` and wraps the error of the last call: with `attempts ≥ 1`
that is a non-nil error `e`, with `attempts ≤ 0` no call was made and the
wrapped error is nil. -/
theorem retryOperation_calls_until_nil {σ E : Type} (attempts : Int)
    (f : σ → Option E × σ) (s : σ) :
    ∃ n : Nat, n ≤ (max attempts 0).toNat ∧
      (retryOperation attempts f s).calls = callsFrom f n s ∧
      (retryOperation attempts f s).state = stateAfter f n s ∧
      (∀ j, j + 1 < n → (callsFrom f n s)[j]? ≠ some none) ∧
      ((retryOperation attempts f s).result = none ↔ none ∈ callsFrom f n s) ∧
      ((retryOperation attempts f s).result ≠ none →
        n = (max attempts 0).toNat ∧
        (retryOperation attempts f s).result
          = some { attempts := attempts, err := ((callsFrom f n s).getLast?).join } ∧
        (1 ≤ attempts → ∃ e, (callsFrom f n s).getLast? = some (some e) ∧
          (retryOperation attempts f s).result
            = some { attempts := attempts, err := some e }) ∧
        (attempts ≤ 0 → n = 0 ∧
          (retryOperation attempts f s).result
            = some { attempts := attempts, err := none })) := by
  obtain ⟨n, hn, hcalls, hstate, hmid, hnil, herr⟩ :=
    retryLoop_spec attempts f attempts.toNat 0 s none [] []
  have hmax : (max attempts 0).toNat = attempts.toNat := by
    rcases le_total attempts 0 with h | h
    · rw [max_eq_right h]; simp [Int.toNat_of_nonpos h]
    · rw [max_eq_left h]
  refine ⟨n, by rw [hmax]; exact hn, by simpa [retryOperation] using hcalls, hstate, hmid,
    hnil, ?_⟩
  intro hne
  obtain ⟨hk, hres⟩ := herr hne
  have hjoin : (retryOperation attempts f s).result
      = some { attempts := attempts, err := ((callsFrom f n s).getLast?).join } := by
    unfold retryOperation
    rw [hres]
    cases (callsFrom f n s).getLast? <;> rfl
  refine ⟨by rw [hmax]; exact hk, hjoin, ?_, ?_⟩
  · intro hpos
    have hnpos : 0 < n := by omega
    have hlen : ∀ (m : Nat) (t : σ), (callsFrom f m t).length = m := by
      intro m
      induction m with
      | zero => intro t; rfl
      | succ m ih => intro t; simp [callsFrom, ih]
    have hnonempty : callsFrom f n s ≠ [] := by
      intro h
      have := hlen n s
      rw [h] at this
      simp at this
      omega
    cases hl : (callsFrom f n s).getLast? with
    | none => exact absurd (List.getLast?_eq_none_iff.mp hl) hnonempty
    | some x =>
      cases x with
      | none =>
        have hmem : none ∈ callsFrom f n s := List.mem_of_getLast?_eq_some hl
        exact absurd (hnil.mpr hmem) hne
      | some e =>
        refine ⟨e, rfl, ?_⟩
        rw [hjoin, hl]
        rfl
  · intro hle
    have hn0 : n = 0 := by
      have : attempts.toNat = 0 := Int.toNat_of_nonpos hle
      omega
    refine ⟨hn0, ?_⟩
    rw [hjoin, hn0]
    rfl

/-- C25 on the call of `main` (three attempts of an operation that always
fails), on an operation that succeeds at its third call and on a negative
number of attempts. -/
theorem retryOperation_calls_until_nil_witness :
    (retryOperation 3 alwaysFails ()).result
      = some { attempts := 3, err := some "操作失败" } ∧
    (retryOperation 3 alwaysFails ()).calls
      = [some "操作失败", some "操作失败", some "操作失败"] ∧
    (retryOperation 3 alwaysFails ()).printed = [1, 2] ∧
    (retryOperation 5 thirdTimeLucky 0).result = none ∧
    (retryOperation 5 thirdTimeLucky 0).calls = [some "操作失败", some "操作失败", none] ∧
    (retryOperation 5 thirdTimeLucky 0).state = 3 ∧
    (retryOperation (-2) alwaysFails ()).result = some { attempts := -2, err := none } ∧
    (retryOperation (-2) alwaysFails ()).calls = [] ∧
    ∃ n : Nat, n ≤ (max (3 : Int) 0).toNat ∧
      (retryOperation 3 alwaysFails ()).calls = callsFrom alwaysFails n () :=
  ⟨rfl, rfl, rfl, rfl, rfl, rfl, rfl, rfl,
   (retryOperation_calls_until_nil 3 alwaysFails ()).imp fun _ h => ⟨h.1, h.2.1⟩⟩

/-! ## Pipelines: claim C26 -/

theorem MapSlice_eq_map (op : Int → Int) (xs : List Int) : MapSlice xs op = xs.map op := by
  induction xs with
  | nil => rfl
  | cons x rest ih => simp [MapSlice, ih]

theorem wrapInt_add_mul (x q : Int) :
    wrapInt (x + 18446744073709551616 * q) = wrapInt x := by
  unfold wrapInt
  omega

theorem wrapInt_mul_wrapInt (a b : Int) : wrapInt (wrapInt a * wrapInt b) = wrapInt (a * b) := by
  obtain ⟨qa, ha⟩ : ∃ q, wrapInt a = a + 18446744073709551616 * q :=
    ⟨-((a + 9223372036854775808) / 18446744073709551616), by unfold wrapInt; omega⟩
  obtain ⟨qb, hb⟩ : ∃ q, wrapInt b = b + 18446744073709551616 * q :=
    ⟨-((b + 9223372036854775808) / 18446744073709551616), by unfold wrapInt; omega⟩
  rw [ha, hb]
  have : (a + 18446744073709551616 * qa) * (b + 18446744073709551616 * qb)
      = a * b + 18446744073709551616 * (qa * b + a * qb + 18446744073709551616 * qa * qb) := by
    ring
  rw [this, wrapInt_add_mul]

theorem Square_Double (x : Int) : Square (Double x) = wrapInt ((2 * x) ^ 2) := by
  unfold Square Double
  rw [wrapInt_mul_wrapInt]
  congr 1
  ring

theorem Square_Double_exact (x : Int) (h : (2 * x) ^ 2 < 2 ^ 63) :
    Square (Double x) = (2 * x) ^ 2 := by
  rw [Square_Double]
  have h0 : 0 ≤ (2 * x) ^ 2 := sq_nonneg _
  generalize (2 * x) ^ 2 = y at h h0
  unfold wrapInt
  norm_num at h
  omega

/-- C26: for all lists of pipes and every input `xs`, `Pipeline` applies the
pipes from left to right, `Pipeline(p1, ..., pn)(xs) = pn(...(p1(xs))...)`;
with no pipes it is the identity; `Pipeline(ps ++ qs)` is `Pipeline(qs)` after
`Pipeline(ps)`; the pipeline of `main` (`MapSlice` with `Double`, then with
`Square`) keeps the length and sends each `x` to `(2x)^2` in 64-bit arithmetic,
which is `(2x)^2` itself whenever that fits in a Go `int`; on `[1,2,3,4,5]` it
gives `[4,16,36,64,100]`. -/
theorem Pipeline_applies_left_to_right (ps qs : List IntPipe) (p : IntPipe) (xs : List Int) :
    Pipeline ps xs = nestedPipes ps xs ∧
    Pipeline [] xs = xs ∧
    Pipeline (ps ++ [p]) xs = p (Pipeline ps xs) ∧
    Pipeline (ps ++ qs) xs = Pipeline qs (Pipeline ps xs) ∧
    (doubleThenSquare xs).length = xs.length ∧
    doubleThenSquare xs = xs.map (fun x => wrapInt ((2 * x) ^ 2)) ∧
    ((∀ x ∈ xs, (2 * x) ^ 2 < 2 ^ 63) →
      doubleThenSquare xs = xs.map (fun x => (2 * x) ^ 2)) ∧
    doubleThenSquare [1, 2, 3, 4, 5] = [4, 16, 36, 64, 100] := by
  have hds : doubleThenSquare xs = xs.map (fun x => wrapInt ((2 * x) ^ 2)) := by
    simp only [doubleThenSquare, Pipeline, List.foldl, MapSlice_eq_map, List.map_map]
    apply List.map_congr_left
    intro x _
    exact Square_Double x
  refine ⟨?_, rfl, ?_, ?_, ?_, hds, ?_, by decide⟩
  · simp [Pipeline, nestedPipes, List.foldr_reverse]
  · simp [Pipeline, List.foldl_append]
  · simp [Pipeline, List.foldl_append]
  · rw [hds, List.length_map]
  · intro hfit
    simp only [doubleThenSquare, Pipeline, List.foldl, MapSlice_eq_map, List.map_map]
    apply List.map_congr_left
    intro x hx
    exact Square_Double_exact x (hfit x hx)

/-- C26 on the input of `main`: each element fits, and the result is
`[4, 16, 36, 64, 100]`. -/
theorem Pipeline_applies_left_to_right_witness :
    (∀ x ∈ [(1 : Int), 2, 3, 4, 5], (2 * x) ^ 2 < 2 ^ 63) ∧
    doubleThenSquare [1, 2, 3, 4, 5] = [1, 2, 3, 4, 5].map (fun x => (2 * x) ^ 2) ∧
    [(1 : Int), 2, 3, 4, 5].map (fun x => (2 * x) ^ 2) = [4, 16, 36, 64, 100] :=
  ⟨by decide,
   (Pipeline_applies_left_to_right [] [] id [1, 2, 3, 4, 5]).2.2.2.2.2.2.1 (by decide),
   by decide⟩

/-! ## Middlewares: claim C27 -/

/-- C27: for every handler `h` and all middlewares, `chainMiddleware` wraps in
argument order, `chainMiddleware(h, m1, ..., mn) = mn(...(m1(h))...)`, so the
last one listed is outermost; with no middlewares the result is `h`; and
`chainMiddleware(h, loggerMiddleware, authMiddleware)` is
`authMiddleware(loggerMiddleware(h))`, which on a request with an empty
`Authorization` header only answers 401: the outcome is the same for every `h`
and holds no line of the logger; with a non-empty header it runs the logger
around `h`. -/
theorem chainMiddleware_wraps_in_order (h : HandlerFunc) (ms : List Middleware)
    (m : Middleware) (x : Exchange) :
    chainMiddleware h ms = nestedMiddlewares h ms ∧
    chainMiddleware h [] = h ∧
    chainMiddleware h (ms ++ [m]) = m (chainMiddleware h ms) ∧
    chainMiddleware h [loggerMiddleware, authMiddleware]
      = authMiddleware (loggerMiddleware h) ∧
    (x.request.authorization = "" →
      chainMiddleware h [loggerMiddleware, authMiddleware] x
        = { x with events := x.events ++ [.error "未授权" 401] }) ∧
    (x.request.authorization ≠ "" →
      chainMiddleware h [loggerMiddleware, authMiddleware] x
        = { h x with events := (h x).events ++
            [.log (h x).request.method (h x).request.path (h x).request.remoteAddr] }) := by
  refine ⟨?_, rfl, ?_, rfl, ?_, ?_⟩
  · simp [chainMiddleware, nestedMiddlewares, List.foldr_reverse]
  · simp [chainMiddleware, List.foldl_append]
  · intro hx
    simp [chainMiddleware, authMiddleware, hx]
  · intro hx
    simp [chainMiddleware, authMiddleware, loggerMiddleware, hx]

/-- C27 on the handler of `main`: a request without the header gets the 401
only, a request with it gets the resource and the line of the logger. -/
theorem chainMiddleware_wraps_in_order_witness :
    protectedHandler anonymousRequest
      = { anonymousRequest with events := [.error "未授权" 401] } ∧
    protectedHandler tokenRequest
      = { tokenRequest with events :=
          [.write "Protected Resource", .log "GET" "/protected" "127.0.0.1:4000"] } :=
  ⟨(chainMiddleware_wraps_in_order protectedResource [] id anonymousRequest).2.2.2.2.1
      (by decide),
   (chainMiddleware_wraps_in_order protectedResource [] id tokenRequest).2.2.2.2.2
      (by decide)⟩

/-! ## Validation: claim C28 -/

/-- C28: for every string `data`, `validateData(data)` is nil exactly when
`1 ≤ len(data) ≤ 100`; an error it returns is a `MultiError` with exactly one
error, `数据不能为空` for the empty string and `数据长度不能超过100` for a string
of more than 100 bytes, and the two checks never fire together. -/
theorem validateData_nil_iff_length_in_range (data : List UInt8) :
    (validateData data = none ↔ 1 ≤ data.length ∧ data.length ≤ 100) ∧
    (∀ m, validateData data = some m → m.Errors.length = 1) ∧
    ¬ (data.length = 0 ∧ data.length > 100) ∧
    (data.length = 0 → validateData data = some { Errors := ["数据不能为空"] }) ∧
    (data.length > 100 → validateData data = some { Errors := ["数据长度不能超过100"] }) := by
  by_cases h0 : data.length = 0
  · have h100 : ¬ data.length > 100 := by omega
    simp [validateData, h0]
  · by_cases h100 : data.length > 100
    · simp [validateData, h0, h100]
    · simp [validateData, h0, h100]
      omega

/-- C28 on the empty string (the call of `main`), on a string of 101 bytes and
on a string of 100 bytes. -/
theorem validateData_nil_iff_length_in_range_witness :
    validateData [] = some { Errors := ["数据不能为空"] } ∧
    validateData (List.replicate 101 0) = some { Errors := ["数据长度不能超过100"] } ∧
    validateData (List.replicate 100 0) = none :=
  ⟨(validateData_nil_iff_length_in_range []).2.2.2.1 (by decide),
   (validateData_nil_iff_length_in_range (List.replicate 101 0)).2.2.2.2 (by decide),
   (validateData_nil_iff_length_in_range (List.replicate 100 0)).1.mpr (by decide)⟩

/-! ## The wasm functions: claim C29 -/

set_option maxRecDepth 8000 in
/-- C29: on the empty argument list each of `Add`, `Sub`, `Multi`, `Div`,
`Mod` returns the packaged result with `Ok = false` and `Err = "参数不能为空!"`,
and on two numbers `Add` packages their sum with `Ok = true` when the sum is
finite; but the guard `len(args) == 0` does not cover the read of `args[1]`:
on a list of one number every one of the five functions panics with index 1
out of range for length 1.  Further, `Mod(5, 0)` panics with an integer
division by zero, an argument that is not a number makes `Float` panic, and
`Div(1, 0)` returns the empty string because `json.Marshal` refuses `+Inf`. -/
theorem wasm_guard_misses_second_argument (other : F64 → Int) :
    (Add [] = .ok emptyArguments ∧ Sub [] = .ok emptyArguments ∧
      Multi [] = .ok emptyArguments ∧ Div [] = .ok emptyArguments ∧
      Mod other [] = .ok emptyArguments) ∧
    (∀ (x y : F64) (rest : List JsValue),
      Add (.number x :: .number y :: rest)
        = .ok (PackageResult true none (.float (F64.add x y)))) ∧
    Add [.number (F64.lit 1), .number (F64.lit 2)]
      = .ok (.json { Ok := true, Err := "", Data := .float (F64.lit 3) }) ∧
    Mod other [.number (F64.lit 7), .number (F64.lit 2)]
      = .ok (.json { Ok := true, Err := "", Data := .int 1 }) ∧
    (Add [.number (F64.lit 1)] = .error (.indexOutOfRange 1 1) ∧
      Sub [.number (F64.lit 1)] = .error (.indexOutOfRange 1 1) ∧
      Multi [.number (F64.lit 1)] = .error (.indexOutOfRange 1 1) ∧
      Div [.number (F64.lit 1)] = .error (.indexOutOfRange 1 1) ∧
      Mod other [.number (F64.lit 1)] = .error (.indexOutOfRange 1 1)) ∧
    Mod other [.number (F64.lit 5), .number (F64.lit 0)] = .error .divideByZero ∧
    Add [.number (F64.lit 1), .other] = .error .notANumber ∧
    Div [.number (F64.lit 1), .number (F64.lit 0)] = .ok .empty := by
  refine ⟨⟨rfl, rfl, rfl, rfl, rfl⟩, ?_, ?_, rfl, ⟨rfl, rfl, rfl, rfl, rfl⟩, ?_, rfl, ?_⟩
  · intro x y rest
    simp [Add, index, JsValue.Float, bind, Except.bind]
  · decide
  · rfl
  · decide

/-! ## A single caller: lemmas on the steps -/

theorem Broker.send_spec (s b' : Broker) (hstep : s.step (.send 0) = some b') :
    ∃ (m : String) (c : Nat) (rest : List Nat) (ch : Chan String),
      s.readers[0]? = some { msg := m, todo := c :: rest } ∧ s.heap[c]? = some ch ∧
      b' = { s with heap := s.heap.set c { ch with buf := ch.buf ++ [m] },
                    readers := s.readers.set 0 { msg := m, todo := rest } } := by
  simp only [Broker.step] at hstep
  split at hstep
  · rename_i m c rest hr
    split at hstep
    · rename_i ch hch
      split at hstep
      · rename_i ch' hsend
        cases hstep
        refine ⟨m, c, rest, ch, hr, hch, ?_⟩
        simp only [Chan.send] at hsend
        split at hsend
        · cases hsend
        · split at hsend
          · cases hsend; rfl
          · cases hsend
      · cases hstep
      · cases hstep
    · cases hstep
  · cases hstep

theorem Broker.leave_spec (s b' : Broker) (hstep : s.step (.leave 0) = some b') :
    ∃ m : String, s.readers[0]? = some { msg := m, todo := [] } ∧
      b' = { s with readers := s.readers.eraseIdx 0 } := by
  simp only [Broker.step] at hstep
  split at hstep
  · rename_i m hr
    cases hstep
    exact ⟨m, hr, rfl⟩
  · cases hstep

theorem Broker.receive_spec (s b' : Broker) (c : Nat) (hinv : s.Inboxes)
    (hstep : s.step (.receive c) = some b') :
    ∃ (ch : Chan String) (v : String) (rest : List String),
      s.heap[c]? = some ch ∧ ch.buf = v :: rest ∧
      b' = { s with heap := s.heap.set c { ch with buf := rest },
                    reads := s.reads ++ [(c, v)] } := by
  simp only [Broker.step] at hstep
  split at hstep
  · rename_i ch hch
    obtain ⟨_, hopen, _⟩ := hinv ch (List.getElem?_mem hch)
    cases hbuf : ch.buf with
    | nil =>
      simp [Chan.recv, hbuf, hopen] at hstep
    | cons v rest =>
      simp only [Chan.recv, hbuf, Option.some.injEq] at hstep
      exact ⟨ch, v, rest, hch, hbuf, hstep.symm⟩
  · cases hstep

theorem Broker.inbox_set (s : Broker) (c c' : Nat) (ch x : Chan String)
    (hch : s.heap[c]? = some ch) (heap' : Heap) (hheap : heap' = s.heap.set c x)
    (r : List Publishing) (rd : List (Nat × String)) :
    Broker.inbox { heap := heap', ps := s.ps, readers := r, reads := rd } c'
      = if c' = c then x.buf else s.inbox c' := by
  subst hheap
  have hlt : c < s.heap.length := getElem?_lt_length _ _ _ hch
  by_cases hcc : c' = c
  · subst hcc
    simp [Broker.inbox, List.getElem?_set_self hlt]
  · have hne : c ≠ c' := fun h => hcc h.symm
    simp [Broker.inbox, List.getElem?_set_ne hne, hcc]

theorem Caller.start_holds (b : Broker) (t : String) (msgs : List String) (hinb : b.Inboxes)
    (hidle : b.readers = []) (hempty : ∀ c ∈ b.ps.lookup t, b.inbox c = []) :
    Caller.Inv b t msgs (Caller.start b t msgs) := by
  refine ⟨rfl, rfl, hinb, by simp [Caller.start, hidle], by simp [Caller.start, hidle], ?_⟩
  intro c hc
  simp [Caller.start, Caller.unsent, hidle, hempty c hc]

theorem single_reader (readers : List Publishing) (p : Publishing)
    (hsingle : readers.length ≤ 1) (hr : readers[0]? = some p) : readers = [p] := by
  match readers, hsingle, hr with
  | [q], _, hr => simp at hr; rw [hr]
  | _ :: _ :: _, hsingle, _ => simp at hsingle

theorem Caller.step_keeps (b : Broker) (t : String) (msgs : List String)
    (hopen : b.ps.closed = false) (hnodup : (b.ps.lookup t).Nodup)
    (s s' : Caller) (a : CallerAct) (inv : Caller.Inv b t msgs s)
    (hstep : s.step a = some s') : Caller.Inv b t msgs s' := by
  obtain ⟨htopic, hps, hinb, hsingle, hnd, hledger⟩ := inv
  cases a with
  | publish =>
    simp only [Caller.step] at hstep
    cases hp : s.pending with
    | nil => rw [hp] at hstep; cases hstep
    | cons m rest =>
      rw [hp] at hstep
      simp only at hstep
      split at hstep
      · rename_i hempty
        have hr : s.broker.readers = [] := by simpa using hempty
        have hcl : s.broker.ps.closed = false := by rw [hps]; exact hopen
        simp only [Broker.step, hcl, hr, Bool.false_eq_true, if_false, Option.map_some',
          Option.some.injEq, List.nil_append] at hstep
        subst hstep
        refine ⟨htopic, hps, hinb, by simp, ?_, ?_⟩
        · intro p hp'
          simp only [List.mem_singleton] at hp'
          subst hp'
          simpa [hps, htopic] using hnodup
        · intro c hc
          have h := hledger c hc
          simp only [Caller.unsent, hr, hp, List.filter_nil, List.map_nil,
            List.nil_append] at h
          simp only [Caller.unsent, Broker.readFrom, Broker.inbox, hps, htopic, hc,
            List.filter_cons, decide_True, if_true, List.filter_nil, List.map_cons,
            List.map_nil, List.singleton_append]
          simpa [Broker.readFrom, Broker.inbox] using h
      · cases hstep
  | send =>
    simp only [Caller.step, Option.map_eq_some'] at hstep
    obtain ⟨b', hb, rfl⟩ := hstep
    have hinb' := Broker.step_inboxes _ _ _ hinb hb
    obtain ⟨m, c0, rest, ch, hr, hch, rfl⟩ := Broker.send_spec _ _ hb
    have hreaders := single_reader _ _ hsingle hr
    have hnd0 : (c0 :: rest).Nodup :=
      hnd { msg := m, todo := c0 :: rest } (by rw [hreaders]; simp)
    refine ⟨htopic, hps, hinb', by simp [hreaders], ?_, ?_⟩
    · intro p hp
      simp only [hreaders, List.set_cons_zero, List.mem_singleton] at hp
      subst hp
      exact (List.nodup_cons.mp hnd0).2
    · intro c hc
      have h := hledger c hc
      simp only [Caller.unsent, hreaders, List.filter_cons, List.filter_nil] at h
      simp only [Caller.unsent, hreaders, List.set_cons_zero, List.filter_cons,
        List.filter_nil, Broker.readFrom]
      rw [Broker.inbox_set s.broker c0 c ch _ hch _ rfl]
      by_cases hcc : c = c0
      · subst hcc
        have hnot : c ∉ rest := (List.nodup_cons.mp hnd0).1
        simp only [List.mem_cons, true_or, decide_True, if_true, List.map_cons,
          List.map_nil, List.singleton_append] at h
        simp only [hnot, decide_False, if_true, Bool.false_eq_true, if_false, List.map_nil,
          List.nil_append]
        have hin : s.broker.inbox c = ch.buf := by simp [Broker.inbox, hch]
        rw [hin] at h
        simpa [Broker.readFrom] using h
      · have hiff : decide (c ∈ c0 :: rest) = decide (c ∈ rest) := by
          simp [List.mem_cons, hcc]
        rw [hiff] at h
        by_cases hin : c ∈ rest
        · simpa [hcc, hin, Broker.readFrom] using h
        · simpa [hcc, hin, Broker.readFrom] using h
  | leave =>
    simp only [Caller.step, Option.map_eq_some'] at hstep
    obtain ⟨b', hb, rfl⟩ := hstep
    have hinb' := Broker.step_inboxes _ _ _ hinb hb
    obtain ⟨m, hr, rfl⟩ := Broker.leave_spec _ _ hb
    have hreaders := single_reader _ _ hsingle hr
    refine ⟨htopic, hps, hinb', by simp [hreaders], by simp [hreaders], ?_⟩
    intro c hc
    have h := hledger c hc
    simp only [Caller.unsent, hreaders, List.filter_cons, List.filter_nil,
      List.not_mem_nil, decide_False, Bool.false_eq_true, if_false, List.map_nil,
      List.nil_append] at h
    simpa [Caller.unsent, hreaders, Broker.readFrom, Broker.inbox] using h
  | receive c0 =>
    simp only [Caller.step, Option.map_eq_some'] at hstep
    obtain ⟨b', hb, rfl⟩ := hstep
    have hinb' := Broker.step_inboxes _ _ _ hinb hb
    obtain ⟨ch, v, rest, hch, hbuf, rfl⟩ := Broker.receive_spec _ _ _ hinb hb
    refine ⟨htopic, hps, hinb', hsingle, hnd, ?_⟩
    intro c hc
    have h := hledger c hc
    simp only [Caller.unsent] at h ⊢
    rw [Broker.inbox_set s.broker c0 c ch _ hch _ rfl]
    by_cases hcc : c = c0
    · subst hcc
      have hin : s.broker.inbox c = v :: rest := by simp [Broker.inbox, hch, hbuf]
      rw [hin] at h
      simpa [Broker.readFrom, List.filter_append] using h
    · have hne : ¬ c0 = c := fun e => hcc e.symm
      simpa [Broker.readFrom, List.filter_append, hcc, hne] using h

theorem Caller.run_keeps (b : Broker) (t : String) (msgs : List String)
    (hopen : b.ps.closed = false) (hnodup : (b.ps.lookup t).Nodup) (acts : List CallerAct) :
    ∀ (s s' : Caller), Caller.Inv b t msgs s → s.run acts = some s' →
      Caller.Inv b t msgs s' := by
  induction acts with
  | nil => intro s s' inv hrun; cases hrun; exact inv
  | cons a rest ih =>
    intro s s' inv hrun
    simp only [Caller.run] at hrun
    cases hstep : s.step a with
    | none => rw [hstep] at hrun; cases hrun
    | some s1 =>
      rw [hstep] at hrun
      exact ih s1 s' (Caller.step_keeps b t msgs hopen hnodup s s1 a inv hstep) hrun

theorem Caller.run_append (xs ys : List CallerAct) : ∀ s : Caller,
    s.run (xs ++ ys) = (s.run xs).bind (fun s' => s'.run ys) := by
  induction xs with
  | nil => intro s; rfl
  | cons a rest ih =>
    intro s
    simp only [List.cons_append, Caller.run]
    cases s.step a with
    | none => rfl
    | some s1 => exact ih s1

/-- The sends of one call of `Publish` when every inbox ahead is empty. -/
theorem Caller.run_sends (m : String) (ps : PubSub) (topic : String) (pending : List String)
    (reads : List (Nat × String)) : ∀ (todo : List Nat) (heap : Heap), todo.Nodup →
    (∀ c ∈ todo, heap[c]? = some (Chan.make 1)) →
    ∃ heap' : Heap,
      Caller.run { broker := { heap := heap, ps := ps, readers := [{ msg := m, todo := todo }],
                               reads := reads },
                   topic := topic, pending := pending }
          (List.replicate todo.length .send)
        = some { broker := { heap := heap', ps := ps, readers := [{ msg := m, todo := [] }],
                             reads := reads },
                 topic := topic, pending := pending } ∧
      (∀ c ∈ todo, heap'[c]? = some { cap := 1, buf := [m], closed := false }) ∧
      (∀ c, c ∉ todo → heap'[c]? = heap[c]?) := by
  intro todo
  induction todo with
  | nil =>
    intro heap _ _
    exact ⟨heap, rfl, by simp, by simp⟩
  | cons c rest ih =>
    intro heap hnd hempty
    have hc : heap[c]? = some (Chan.make 1) := hempty c (by simp)
    have hlt : c < heap.length := getElem?_lt_length _ _ _ hc
    obtain ⟨hcrest, hndrest⟩ := List.nodup_cons.mp hnd
    have hempty' : ∀ c' ∈ rest,
        (heap.set c { cap := 1, buf := [m], closed := false })[c']? = some (Chan.make 1) := by
      intro c' hc'
      have hne : c ≠ c' := fun e => hcrest (e ▸ hc')
      rw [List.getElem?_set_ne hne]
      exact hempty c' (by simp [hc'])
    obtain ⟨heap', hrun, hfull, hsame⟩ := ih _ hndrest hempty'
    refine ⟨heap', ?_, ?_, ?_⟩
    · simp only [List.length_cons, List.replicate_succ, Caller.run]
      have hstep : Caller.step
          { broker := { heap := heap, ps := ps,
                        readers := [{ msg := m, todo := c :: rest }], reads := reads },
            topic := topic, pending := pending } .send
          = some { broker := { heap := heap.set c { cap := 1, buf := [m], closed := false },
                               ps := ps, readers := [{ msg := m, todo := rest }],
                               reads := reads },
                   topic := topic, pending := pending } := by
        simp [Caller.step, Broker.step, hc, Chan.send, Chan.make]
      rw [hstep]
      exact hrun
    · intro c' hc'
      rcases List.mem_cons.mp hc' with h | h
      · subst h
        rw [hsame c' hcrest, List.getElem?_set_self hlt]
      · exact hfull c' h
    · intro c' hc'
      have hne : c ≠ c' := fun e => hc' (by simp [e])
      have hnr : c' ∉ rest := fun e => hc' (by simp [e])
      rw [hsame c' hnr, List.getElem?_set_ne hne]

/-- The reads of the subscribers when every inbox holds the message. -/
theorem Caller.run_receives (m : String) (ps : PubSub) (topic : String)
    (pending : List String) : ∀ (cs : List Nat) (heap : Heap) (reads : List (Nat × String)),
    cs.Nodup → (∀ c ∈ cs, heap[c]? = some { cap := 1, buf := [m], closed := false }) →
    ∃ heap' : Heap,
      Caller.run { broker := { heap := heap, ps := ps, readers := [], reads := reads },
                   topic := topic, pending := pending }
          (cs.map .receive)
        = some { broker := { heap := heap', ps := ps, readers := [],
                             reads := reads ++ cs.map (fun c => (c, m)) },
                 topic := topic, pending := pending } ∧
      (∀ c ∈ cs, heap'[c]? = some (Chan.make 1)) ∧
      (∀ c, c ∉ cs → heap'[c]? = heap[c]?) := by
  intro cs
  induction cs with
  | nil =>
    intro heap reads _ _
    exact ⟨heap, by simp [Caller.run], by simp, by simp⟩
  | cons c rest ih =>
    intro heap reads hnd hfull
    have hc : heap[c]? = some { cap := 1, buf := [m], closed := false } := hfull c (by simp)
    have hlt : c < heap.length := getElem?_lt_length _ _ _ hc
    obtain ⟨hcrest, hndrest⟩ := List.nodup_cons.mp hnd
    have hfull' : ∀ c' ∈ rest,
        (heap.set c (Chan.make 1))[c']? = some { cap := 1, buf := [m], closed := false } := by
      intro c' hc'
      have hne : c ≠ c' := fun e => hcrest (e ▸ hc')
      rw [List.getElem?_set_ne hne]
      exact hfull c' (by simp [hc'])
    obtain ⟨heap', hrun, hempty, hsame⟩ := ih _ (reads ++ [(c, m)]) hndrest hfull'
    refine ⟨heap', ?_, ?_, ?_⟩
    · simp only [List.map_cons, Caller.run]
      have hstep : Caller.step
          { broker := { heap := heap, ps := ps, readers := [], reads := reads },
            topic := topic, pending := pending } (.receive c)
          = some { broker := { heap := heap.set c (Chan.make 1), ps := ps, readers := [],
                               reads := reads ++ [(c, m)] },
                   topic := topic, pending := pending } := by
        simp [Caller.step, Broker.step, hc, Chan.recv, Chan.make]
      rw [hstep]
      simpa using hrun
    · intro c' hc'
      rcases List.mem_cons.mp hc' with h | h
      · subst h
        rw [hsame c' hcrest, List.getElem?_set_self hlt]
      · exact hempty c' h
    · intro c' hc'
      have hne : c ≠ c' := fun e => hc' (by simp [e])
      have hnr : c' ∉ rest := fun e => hc' (by simp [e])
      rw [hsame c' hnr, List.getElem?_set_ne hne]

theorem Caller.run_cons (s : Caller) (a : CallerAct) (rest : List CallerAct) :
    s.run (a :: rest) = (s.step a).bind (fun s' => s'.run rest) := rfl

/-- The schedule `publishThenRead` runs to its end when the inboxes of the
topic are empty: each call of `Publish` returns and each subscriber reads. -/
theorem Caller.run_rounds (ps : PubSub) (topic : String) (hopen : ps.closed = false)
    (hnd : (ps.lookup topic).Nodup) : ∀ (msgs : List String) (heap : Heap)
    (reads : List (Nat × String)),
    (∀ c ∈ ps.lookup topic, heap[c]? = some (Chan.make 1)) →
    ∃ (heap' : Heap) (reads' : List (Nat × String)),
      Caller.run { broker := { heap := heap, ps := ps, readers := [], reads := reads },
                   topic := topic, pending := msgs }
          (publishThenRead (ps.lookup topic) msgs.length)
        = some { broker := { heap := heap', ps := ps, readers := [], reads := reads' },
                 topic := topic, pending := [] } ∧
      (∀ c ∈ ps.lookup topic, heap'[c]? = some (Chan.make 1)) := by
  intro msgs
  induction msgs with
  | nil =>
    intro heap reads hempty
    exact ⟨heap, reads, rfl, hempty⟩
  | cons m rest ih =>
    intro heap reads hempty
    have h1 : Caller.step
        { broker := { heap := heap, ps := ps, readers := [], reads := reads },
          topic := topic, pending := m :: rest } .publish
        = some { broker := { heap := heap, ps := ps,
                             readers := [{ msg := m, todo := ps.lookup topic }],
                             reads := reads },
                 topic := topic, pending := rest } := by
      simp [Caller.step, Broker.step, hopen]
    obtain ⟨heap1, hrun1, hfull1, _⟩ :=
      Caller.run_sends m ps topic rest reads (ps.lookup topic) heap hnd hempty
    have h2 : Caller.step
        { broker := { heap := heap1, ps := ps, readers := [{ msg := m, todo := [] }],
                      reads := reads },
          topic := topic, pending := rest } .leave
        = some { broker := { heap := heap1, ps := ps, readers := [], reads := reads },
                 topic := topic, pending := rest } := by
      simp [Caller.step, Broker.step]
    obtain ⟨heap2, hrun2, hempty2, _⟩ :=
      Caller.run_receives m ps topic rest (ps.lookup topic) heap1 reads hnd hfull1
    obtain ⟨heap', reads', hrun3, hfinal⟩ :=
      ih heap2 (reads ++ (ps.lookup topic).map (fun c => (c, m))) hempty2
    refine ⟨heap', reads', ?_, hfinal⟩
    simp only [publishThenRead, List.length_cons, List.append_assoc, List.singleton_append,
      List.cons_append, List.nil_append]
    rw [Caller.run_cons, h1, Option.some_bind, Caller.run_append, hrun1, Option.some_bind,
      Caller.run_cons, h2, Option.some_bind, Caller.run_append, hrun2, Option.some_bind]
    exact hrun3

/-! ## Publication order: claim C30 -/

/-- C30: take any state `b` the broker reaches from `NewPubSub` in which no call
of `Publish` is in flight and the inboxes of the subscribers of `t` are empty,
and let a single caller publish `msgs = m1, ..., mk` to `t`, one call after the
other.  (1) Under every schedule of the caller and the subscribers, for each
subscriber of `t`: what it has read, then what its inbox holds, then what the
caller has still to send to it is what it had read before followed by
`m1, ..., mk`; so its reads are a prefix of the publications in publication
order, none duplicated, reordered or lost.  (2) Whenever the caller is done and
the inbox is empty, the subscriber has read exactly `m1, ..., mk`.  (3) When the
subscribers consume between the publishes (each call of `Publish` returns, then
every subscriber reads), all `k` calls return, and every subscriber has read
exactly `m1, ..., mk`. -/
theorem publishes_are_read_in_order (acts0 : List BrokerAct) (b : Broker)
    (hreach : Broker.init.run acts0 = some b) (hidle : b.readers = []) (t : String)
    (hempty : ∀ c ∈ b.ps.lookup t, b.inbox c = []) (msgs : List String) :
    (∀ (acts : List CallerAct) (s : Caller),
      (Caller.start b t msgs).run acts = some s → ∀ c ∈ b.ps.lookup t,
        s.broker.readFrom c ++ s.broker.inbox c ++ s.unsent c = b.readFrom c ++ msgs) ∧
    (∀ (acts : List CallerAct) (s : Caller),
      (Caller.start b t msgs).run acts = some s → s.pending = [] → s.broker.readers = [] →
        ∀ c ∈ b.ps.lookup t, s.broker.inbox c = [] →
          s.broker.readFrom c = b.readFrom c ++ msgs) ∧
    (∃ s : Caller,
      (Caller.start b t msgs).run (publishThenRead (b.ps.lookup t) msgs.length) = some s ∧
      s.pending = [] ∧ s.broker.readers = [] ∧
      ∀ c ∈ b.ps.lookup t, s.broker.inbox c = [] ∧
        s.broker.readFrom c = b.readFrom c ++ msgs) := by
  have hinb : b.Inboxes := Broker.run_inboxes acts0 _ b Broker.init_inboxes hreach
  have hopen : b.ps.closed = false := Broker.run_closed acts0 _ b hreach
  have own : Owned b.heap.length b.ps ([] ++ Broker.init.made acts0) :=
    Broker.run_keeps_owned acts0 Broker.init b [] (Owned.init 0) hreach
  have hnodup : (b.ps.lookup t).Nodup := by
    rw [own.1 t]
    exact own.2.1.sublist ((List.filter_sublist _).map Prod.fst)
  have hmake : ∀ c ∈ b.ps.lookup t, b.heap[c]? = some (Chan.make 1) := by
    intro c hc
    have hlt : c < b.heap.length := by
      rw [own.1 t] at hc
      obtain ⟨e, he, hec⟩ := List.mem_map.mp hc
      have := own.2.2 e (List.mem_filter.mp he).1
      omega
    have hget : b.heap[c]? = some (b.heap[c]) := List.getElem?_eq_getElem hlt
    obtain ⟨hcap, hcl, _⟩ := hinb _ (List.getElem?_mem hget)
    have hbuf := hempty c hc
    simp only [Broker.inbox, hget] at hbuf
    rw [hget]
    congr 1
    cases hch : b.heap[c] with
    | mk cap buf closed =>
      rw [hch] at hcap hcl hbuf
      simp only at hcap hcl hbuf
      simp [Chan.make, hcap, hcl, hbuf]
  have hinv := Caller.start_holds b t msgs hinb hidle hempty
  have hledger : ∀ (acts : List CallerAct) (s : Caller),
      (Caller.start b t msgs).run acts = some s → ∀ c ∈ b.ps.lookup t,
        s.broker.readFrom c ++ s.broker.inbox c ++ s.unsent c = b.readFrom c ++ msgs :=
    fun acts s hrun => (Caller.run_keeps b t msgs hopen hnodup acts _ s hinv hrun).ledger
  have hdone : ∀ (acts : List CallerAct) (s : Caller),
      (Caller.start b t msgs).run acts = some s → s.pending = [] → s.broker.readers = [] →
        ∀ c ∈ b.ps.lookup t, s.broker.inbox c = [] →
          s.broker.readFrom c = b.readFrom c ++ msgs := by
    intro acts s hrun hp hr c hc hin
    have h := hledger acts s hrun c hc
    simpa [Caller.unsent, hp, hr, hin] using h
  refine ⟨hledger, hdone, ?_⟩
  obtain ⟨heap', reads', hrun, hfinal⟩ :=
    Caller.run_rounds b.ps t hopen hnodup msgs b.heap b.reads hmake
  have hstart : Caller.start b t msgs
      = { broker := { heap := b.heap, ps := b.ps, readers := [], reads := b.reads },
          topic := t, pending := msgs } := by
    simp only [Caller.start, ← hidle]
  rw [← hstart] at hrun
  refine ⟨_, hrun, rfl, rfl, ?_⟩
  intro c hc
  have hin : Broker.inbox { heap := heap', ps := b.ps, readers := [], reads := reads' } c
      = [] := by
    simp [Broker.inbox, hfinal c hc, Chan.make]
  exact ⟨hin, hdone _ _ hrun rfl rfl c hc hin⟩

/-- C30 on a broker with the subscribers 0 and 2 of `"news"` and the subscriber
1 of `"sport"`: three publications to `"news"`, read after each call or right
after each send, reach the inboxes 0 and 2 in publication order and never the
inbox 1. -/
theorem publishes_are_read_in_order_witness :
    ∃ b s s', Broker.init.run newsroomSetup = some b ∧ b.ps.lookup "news" = [0, 2] ∧
      (Caller.start b "news" ["m1", "m2", "m3"]).run (publishThenRead [0, 2] 3) = some s ∧
      s.broker.readFrom 0 = ["m1", "m2", "m3"] ∧
      s.broker.readFrom 2 = ["m1", "m2", "m3"] ∧
      s.broker.readFrom 1 = [] ∧
      (Caller.start b "news" ["m1", "m2", "m3"]).run (servedRounds [0, 2] 3) = some s' ∧
      s'.broker.readFrom 0 = ["m1", "m2", "m3"] ∧
      s'.broker.readFrom 2 = ["m1", "m2", "m3"] ∧
      (∀ c ∈ b.ps.lookup "news",
        s.broker.readFrom c ++ s.broker.inbox c ++ s.unsent c
          = b.readFrom c ++ ["m1", "m2", "m3"]) :=
  ⟨_, _, _, rfl, rfl, rfl, rfl, rfl, rfl, rfl, rfl, rfl,
   (publishes_are_read_in_order newsroomSetup _ rfl rfl "news" (by decide)
      ["m1", "m2", "m3"]).1 (publishThenRead [0, 2] 3) _ rfl⟩

end GoTutorial
